import Mathlib

/-!
Verification development for the radarbase storage engine.

The Rust sources are embedded shallowly:

* `src/binarytree.rs` — the copy-on-write page tree.  Pages are modelled at
  node granularity: a `NodePage` is the decoded content that the zero-copy
  accessors (`LeafAccessor`, `InternalAccessor`) expose and that the builders
  (`LeafBuilder`, `InternalBuilder`) write.  Byte strings (`&[u8]` /
  `Vec<u8>`) are `List Nat`; `u64` values are `Nat` (no arithmetic in the
  embedded code can overflow a `u64` short of exhausting the address space).
  Recursive traversals take an explicit fuel argument; exhausted fuel, a
  failed page-bounds assertion and an unrecognised node type byte
  (`unreachable!`) are all modelled as `none`.
* `src/page_manager.rs` — `PageManager::get_page` is embedded byte-exactly
  (an mmap of bytes, a bump pointer, the `ALL_MEMORY_HACK` branch).
* `src/transactions.rs` — `WriteTransaction`'s staging maps; the committed
  storage that `WriteTransaction::get` delegates to is abstracted as a
  function from keys to optional values (`Storage::get` against the
  committed root).
* `src/btree.rs` — the in-RAM B-tree, embedded with fuel and with every
  panicking operation (vector indexing, `unwrap`) returning `Option`.
-/

namespace Radb

/-- Byte strings (Rust `&[u8]` / `Vec<u8>`), ordered lexicographically just
like Rust's derived `Ord` on byte slices. -/
abbrev Bytes := List Nat

/-- Strict lexicographic order on `(table_id, key)` pairs, matching Rust's
derived `Ord` on the tuple `(u64, &[u8])`. -/
def tkLt (a b : Nat × Bytes) : Prop :=
  toLex a < toLex b

/-- Non-strict lexicographic order on `(table_id, key)` pairs. -/
def tkLe (a b : Nat × Bytes) : Prop :=
  toLex a ≤ toLex b

instance (a b : Nat × Bytes) : Decidable (tkLt a b) :=
  inferInstanceAs (Decidable (toLex a < toLex b))

instance (a b : Nat × Bytes) : Decidable (tkLe a b) :=
  inferInstanceAs (Decidable (toLex a ≤ toLex b))

/-- An unpacked key/value entry, the decoded form of the on-page layout
`key_len ∣ table_id ∣ key ∣ value_len ∣ value` that `EntryAccessor` reads
and `EntryMutator` writes. -/
structure Entry where
  table : Nat
  key : Bytes
  value : Bytes
deriving DecidableEq, Repr

/-- EntryAccessor::table_and_key. -/
def Entry.tk (e : Entry) : Nat × Bytes := (e.table, e.key)

/-- Decoded content of a tree page: a leaf (type byte 1) holds a lesser
entry plus an optional greater entry, an internal node (type byte 2) holds
its pivot and the two child page numbers. -/
inductive NodePage where
  | leaf (lesser : Entry) (greater : Option Entry)
  | internal (table : Nat) (key : Bytes) (ltePage gtPage : Nat)
deriving DecidableEq, Repr

/-- State of the page file as the tree layer sees it: the decoded node (if
any) stored at each page number, plus the bump allocator's next-free
counter.  `pages n = none` models a page whose bytes do not decode as a
node (e.g. the metadata page). -/
structure PageStore where
  pages : Nat → Option NodePage
  nextFree : Nat

/-- Sentinel page number that `PageManager::get_page` special-cases
(`u64::MAX`). -/
def ALL_MEMORY_HACK : Nat := 2 ^ 64 - 1

/-- PageManager::get_page at node granularity: the bounds assertion
`page_number < next_free` must hold, and the result must decode as a node
(the `ALL_MEMORY_HACK` view starts at the metadata page, which never
decodes as a node, so following it inside the tree walkers panics). -/
def PageStore.getNode (s : PageStore) (n : Nat) : Option NodePage :=
  if n = ALL_MEMORY_HACK then none
  else if n < s.nextFree then s.pages n
  else none

/-- PageManager::allocate followed by writing a node into the fresh page
through its builder: returns the page number (`next_free`) and bumps the
counter. -/
def PageStore.allocWrite (s : PageStore) (d : NodePage) : Nat × PageStore :=
  (s.nextFree,
   { pages := fun m => if m = s.nextFree then some d else s.pages m
     nextFree := s.nextFree + 1 })

/-- In-memory tree nodes built by `BinarytreeBuilder` (enum `Node` in
`binarytree.rs`). -/
inductive Node where
  | leaf (lesser : Entry) (greater : Option Entry)
  | internal (left : Node) (table : Nat) (key : Bytes) (right : Node)
deriving DecidableEq, Repr

/-- Node::to_bytes: serialise a node bottom-up, allocating one page per
node; returns the page number the node was written to. -/
def Node.to_bytes : Node → PageStore → Nat × PageStore
  | .leaf l g, s => s.allocWrite (.leaf l g)
  | .internal left t k right, s =>
    let lp := left.to_bytes s
    let rp := right.to_bytes lp.2
    rp.2.allocWrite (.internal t k lp.1 rp.1)

/-- Node::get_max_key. -/
def Node.get_max_key : Node → Nat × Bytes
  | .leaf l g =>
    match g with
    | some e => e.tk
    | none => l.tk
  | .internal _ _ _ right => right.get_max_key

/-- Ordering used by `self.pairs.sort()` in `BinarytreeBuilder::build`:
Rust's derived `Ord` on the triple `(u64, Vec<u8>, Vec<u8>)`, i.e.
lexicographic on (table, key, value). -/
def entryLe (a b : Entry) : Prop :=
  toLex (a.table, toLex (a.key, a.value)) ≤ toLex (b.table, toLex (b.key, b.value))

instance (a b : Entry) : Decidable (entryLe a b) :=
  inferInstanceAs (Decidable (_ ≤ _))

instance : IsTotal Entry entryLe :=
  ⟨fun a b => le_total (α := Nat ×ₗ (Bytes ×ₗ Bytes)) _ _⟩

instance : IsTrans Entry entryLe :=
  ⟨fun _ _ _ h₁ h₂ => le_trans (α := Nat ×ₗ (Bytes ×ₗ Bytes)) h₁ h₂⟩

/-- Vec::sort on the builder's pair list (a stable sort by the total order
`entryLe`; since the order is antisymmetric up to full equality of the
triples, any sorted permutation is the unique sorted arrangement). -/
def sortPairs (l : List Entry) : List Entry :=
  List.insertionSort entryLe l

/-- Leaf construction loop of `BinarytreeBuilder::build`
(`self.pairs.chunks(2)`): consecutive sorted pairs become two-entry leaves,
a trailing odd pair a single-entry leaf; a chunk whose two pairs share
`(table_id, key)` is the `panic!("duplicate key")` case, modelled as
`none`. -/
def mkLeaves : List Entry → Option (List Node)
  | [] => some []
  | [a] => some [Node.leaf a none]
  | a :: b :: rest =>
    if _h : a.tk = b.tk then none
    else
      match mkLeaves rest with
      | some ns => some (Node.leaf a (some b) :: ns)
      | none => none

/-- One pass of the `maybe_previous_node` loop in
`BinarytreeBuilder::build`: adjacent nodes are combined into internal
nodes whose pivot is the max key of the left node; a trailing unpaired
node is passed through. -/
def combineLevel : List Node → List Node
  | [] => []
  | [n] => [n]
  | a :: b :: rest =>
    Node.internal a a.get_max_key.1 a.get_max_key.2 b :: combineLevel rest

/-- Outer `while bottom.len() > 1` loop of `BinarytreeBuilder::build`,
with fuel (one unit per pass; the list length is a sufficient bound).
`bottom.pop().unwrap()` on an empty list is `none`. -/
def combineLoop : Nat → List Node → Option Node
  | 0, _ => none
  | fuel + 1, l =>
    if l.length > 1 then combineLoop fuel (combineLevel l)
    else l.head?

namespace BinarytreeBuilder

/-- BinarytreeBuilder::build.  `none` models the two panics: the
`assert!(!self.pairs.is_empty())` and the duplicate-key check inside the
chunking loop. -/
def build (pairs : List Entry) : Option Node :=
  if pairs.isEmpty then none
  else
    match mkLeaves (sortPairs pairs) with
    | some leaves => combineLoop (leaves.length + 1) leaves
    | none => none

end BinarytreeBuilder

/-- Pair list assembled by the leaf arm of `tree_insert`: the new entry,
then the existing lesser and greater entries unless their
`(table_id, key)` equals the inserted one (the overwrite dedup). -/
def insertLeafPairs (table : Nat) (key value : Bytes) (lesser : Entry)
    (greater : Option Entry) : List Entry :=
  [⟨table, key, value⟩]
    ++ (if (table, key) ≠ lesser.tk then [lesser] else [])
    ++ (match greater with
        | some g => if (table, key) ≠ g.tk then [g] else []
        | none => [])

/-- tree_insert: returns the page number of the sub-tree into which the
key was inserted, threading the page store; `none` is fuel exhaustion or
a panic (bad page / failed builder assertion). -/
def tree_insert : Nat → PageStore → Nat → Nat → Bytes → Bytes →
    Option (Nat × PageStore)
  | 0, _, _, _, _, _ => none
  | fuel + 1, s, pageNum, table, key, value =>
    match s.getNode pageNum with
    | some (.leaf lesser greater) =>
      match BinarytreeBuilder.build (insertLeafPairs table key value lesser greater) with
      | some node => some (node.to_bytes s)
      | none => none
    | some (.internal t0 k0 ltePage gtPage) =>
      if tkLe (table, key) (t0, k0) then
        match tree_insert fuel s ltePage table key value with
        | some (newLeft, s') => some (s'.allocWrite (.internal t0 k0 newLeft gtPage))
        | none => none
      else
        match tree_insert fuel s gtPage table key value with
        | some (newRight, s') => some (s'.allocWrite (.internal t0 k0 ltePage newRight))
        | none => none
    | none => none

/-- tree_delete: page number of the sub-tree with the key deleted, or
`none` (inner) if the sub-tree became empty; outer `none` is fuel
exhaustion or a panic.  In the internal arm, after recursing into one
child the other child's page number is unchanged, so the source's
`left_page == original_left_page && right_page == original_right_page`
check reduces to comparing the recursed child's result with its
original. -/
def tree_delete : Nat → PageStore → Nat → Nat → Bytes →
    Option (Option Nat × PageStore)
  | 0, _, _, _, _ => none
  | fuel + 1, s, pageNum, table, key =>
    match s.getNode pageNum with
    | some (.leaf lesser greater) =>
      match greater with
      | some g =>
        if (table, key) ≠ lesser.tk ∧ (table, key) ≠ g.tk then
          some (some pageNum, s)
        else
          let newLeaf : Node :=
            if (table, key) = lesser.tk then .leaf g none else .leaf lesser none
          let r := newLeaf.to_bytes s
          some (some r.1, r.2)
      | none =>
        if (table, key) = lesser.tk then some (none, s)
        else some (some pageNum, s)
    | some (.internal t0 k0 ltePage gtPage) =>
      if tkLe (table, key) (t0, k0) then
        match tree_delete fuel s ltePage table key with
        | some (some newLeft, s') =>
          if newLeft = ltePage then some (some pageNum, s')
          else
            let r := s'.allocWrite (.internal t0 k0 newLeft gtPage)
            some (some r.1, r.2)
        | some (none, s') => some (some gtPage, s')
        | none => none
      else
        match tree_delete fuel s gtPage table key with
        | some (some newRight, s') =>
          if newRight = gtPage then some (some pageNum, s')
          else
            let r := s'.allocWrite (.internal t0 k0 ltePage newRight)
            some (some r.1, r.2)
        | some (none, s') => some (some ltePage, s')
        | none => none
    | none => none

/-- lookup_in_raw: locate `(table, query)`; on success returns the page
number holding the value together with the value bytes (the Rust function
returns the page plus the value's offset and length inside it).  Inner
`none` is "key not present"; outer `none` is fuel exhaustion or a
panic. -/
def lookup_in_raw : Nat → PageStore → Nat → Nat → Bytes →
    Option (Option (Nat × Bytes))
  | 0, _, _, _, _ => none
  | fuel + 1, s, pageNum, table, query =>
    match s.getNode pageNum with
    | some (.leaf lesser greater) =>
      if (table, query) = lesser.tk then some (some (pageNum, lesser.value))
      else if tkLt (table, query) lesser.tk then some none
      else
        match greater with
        | some e =>
          if (table, query) = e.tk then some (some (pageNum, e.value))
          else some none
        | none => some none
    | some (.internal t0 k0 ltePage gtPage) =>
      if tkLe (table, query) (t0, k0) then lookup_in_raw fuel s ltePage table query
      else lookup_in_raw fuel s gtPage table query
    | none => none

/-- In-order entry list of the page tree rooted at a page (specification
device; `some` exactly when every page reachable within the fuel bound
decodes as a node). -/
def treeEntries : Nat → PageStore → Nat → Option (List Entry)
  | 0, _, _ => none
  | fuel + 1, s, n =>
    match s.getNode n with
    | some (.leaf l g) => some (l :: g.toList)
    | some (.internal _ _ lp gp) =>
      match treeEntries fuel s lp, treeEntries fuel s gp with
      | some ls, some gs => some (ls ++ gs)
      | _, _ => none
    | none => none

/-- Closedness of the page tree rooted at a page: every reachable page
passes the bounds assertion and decodes as a node, within the fuel
bound. -/
def closedTree : Nat → PageStore → Nat → Bool
  | 0, _, _ => false
  | fuel + 1, s, n =>
    match s.getNode n with
    | some (.leaf _ _) => true
    | some (.internal _ _ lp gp) => closedTree fuel s lp && closedTree fuel s gp
    | none => false

/-- Ordering invariants of the page tree (spec §3, invariants 3 and 4):
leaf entries strictly increasing; every entry under an internal node's
`lte_page` is `≤` its pivot and every entry under `gt_page` is `>` the
pivot. -/
def sortedTree : Nat → PageStore → Nat → Bool
  | 0, _, _ => false
  | fuel + 1, s, n =>
    match s.getNode n with
    | some (.leaf l g) =>
      match g with
      | none => true
      | some e => decide (tkLt l.tk e.tk)
    | some (.internal t0 k0 lp gp) =>
      sortedTree fuel s lp && sortedTree fuel s gp &&
      (match treeEntries fuel s lp, treeEntries fuel s gp with
       | some ls, some gs =>
         decide ((∀ e ∈ ls, tkLe e.tk (t0, k0)) ∧ (∀ e ∈ gs, tkLt (t0, k0) e.tk))
       | _, _ => false)
    | none => false

end Radb

namespace PageManagerModel

/-- Byte-level state of `PageManager`: the mapped file and the next-free
page counter restored from it. -/
structure PageManager where
  nextFreePage : Nat
  mmap : List Nat
  pageSize : Nat

/-- Sentinel `u64::MAX` used by the temporary all-memory escape hatch in
`page_manager.rs`. -/
def ALL_MEMORY_HACK : Nat := 2 ^ 64 - 1

/-- PageManager::get_page: the `ALL_MEMORY_HACK` branch returns a view of
the whole mapping without consulting `next_free_page`; otherwise the
assertion `page_number < next_free_page` must pass and the page's byte
range is returned.  `none` models the failed assertion (panic). -/
def PageManager.get_page (m : PageManager) (pageNumber : Nat) :
    Option (List Nat × Nat) :=
  if pageNumber = ALL_MEMORY_HACK then some (m.mmap, pageNumber)
  else if pageNumber < m.nextFreePage then
    some ((m.mmap.drop (pageNumber * m.pageSize)).take m.pageSize, pageNumber)
  else none

end PageManagerModel

namespace TxnModel

open Radb (Bytes)

/-- Staged state of a `WriteTransaction`: the pending `added` map and
`removed` set, both keyed by raw key bytes.  The `HashMap`/`HashSet` are
modelled extensionally as functions. -/
structure WriteTxn where
  added : Bytes → Option Bytes
  removed : Bytes → Bool

/-- WriteTransaction::new. -/
def WriteTxn.new : WriteTxn :=
  { added := fun _ => none, removed := fun _ => false }

/-- WriteTransaction::insert: `removed.remove(key); added.insert(key, value)`. -/
def WriteTxn.insert (w : WriteTxn) (key value : Bytes) : WriteTxn :=
  { added := fun k => if k = key then some value else w.added k
    removed := fun k => if k = key then false else w.removed k }

/-- WriteTransaction::remove: `added.remove(key); removed.insert(key)`. -/
def WriteTxn.remove (w : WriteTxn) (key : Bytes) : WriteTxn :=
  { added := fun k => if k = key then none else w.added k
    removed := fun k => if k = key then true else w.removed k }

/-- WriteTransaction::get: a staged `added` value wins; otherwise the call
delegates to `Storage::get` against the committed root, abstracted here as
the function `committed` (the `removed` set is never consulted). -/
def WriteTxn.get (committed : Bytes → Option Bytes) (w : WriteTxn)
    (key : Bytes) : Option Bytes :=
  match w.added key with
  | some v => some v
  | none => committed key

end TxnModel

namespace TxnModel

open Radb (Bytes)

/-- Staging operations of a write transaction (insert / remove). -/
inductive TxnOp where
  | ins (key value : Bytes)
  | rem (key : Bytes)
deriving DecidableEq, Repr

/-- Apply one staging operation. -/
def applyOp (w : WriteTxn) : TxnOp → WriteTxn
  | .ins k v => w.insert k v
  | .rem k => w.remove k

/-- Apply a sequence of staging operations in order. -/
def applyOps (w : WriteTxn) : List TxnOp → WriteTxn
  | [] => w
  | op :: ops => applyOps (applyOp w op) ops

end TxnModel

namespace Radb

end Radb

namespace Radb

/-- Frame relation between page stores: the mutation only appended fresh
pages, leaving every previously allocated page untouched. -/
def StoreE (s s' : PageStore) : Prop :=
  s.nextFree ≤ s'.nextFree ∧ ∀ p, p < s.nextFree → s'.pages p = s.pages p

end Radb

namespace Radb

/-- Concrete one-leaf store used by several witnesses: page 1 holds the
leaf `{(table 1, key [0]) ↦ [5]}`, `next_free = 2`. -/
def leafStore : PageStore :=
  { pages := fun n => if n = 1 then some (.leaf ⟨1, [0], [5]⟩ none) else none
    nextFree := 2 }

end Radb

namespace Radb

/-- First entry of a list bound to `(table, key)` (specification device
for lookup correctness). -/
def findEntry (l : List Entry) (t : Nat) (k : Bytes) : Option Entry :=
  l.find? (fun e => decide (e.tk = (t, k)))

end Radb

namespace Radb

end Radb

namespace Radb

/-- Traversal cursor of `BinarytreeRangeIter` (enum `RangeIterState` in
`binarytree.rs`): a frame per node with an owned parent pointer and the
direction flag. -/
inductive RangeIterState where
  | initialState (page : Nat) (reversed : Bool)
  | leafLeft (page : Nat) (parent : Option RangeIterState) (reversed : Bool)
  | leafRight (page : Nat) (parent : Option RangeIterState) (reversed : Bool)
  | internalLeft (page : Nat) (parent : Option RangeIterState) (reversed : Bool)
  | internalRight (page : Nat) (parent : Option RangeIterState) (reversed : Bool)

/-- Direction flag of a state (the `reversed` field of each variant). -/
def RangeIterState.rev : RangeIterState → Bool
  | .initialState _ r => r
  | .leafLeft _ _ r => r
  | .leafRight _ _ r => r
  | .internalLeft _ _ r => r
  | .internalRight _ _ r => r

/-- RangeIterState::forward_next.  The Rust frames own `Page` views; here a
frame holds the page number and the store is consulted, which is
equivalent while the store is unchanged during iteration.  Outer `none`
models the panics (`unreachable!` on a bad node byte, a failed page
assertion, or a frame whose page does not have the variant's node type —
the latter cannot arise for reachable frames); `some none` is the end of
the iteration (`parent.map(|x| *x)` returning `None`). -/
def RangeIterState.forward_next (s : PageStore) :
    RangeIterState → Option (Option RangeIterState)
  | .initialState n _ =>
    match s.getNode n with
    | some (.leaf _ _) => some (some (.leafLeft n none false))
    | some (.internal _ _ _ _) => some (some (.internalLeft n none false))
    | none => none
  | .leafLeft p par _ => some (some (.leafRight p par false))
  | .leafRight _ par _ => some par
  | .internalLeft p par _ =>
    match s.getNode p with
    | some (.internal _ _ lte _) =>
      match s.getNode lte with
      | some (.leaf _ _) =>
        some (some (.leafLeft lte (some (.internalRight p par false)) false))
      | some (.internal _ _ _ _) =>
        some (some (.internalLeft lte (some (.internalRight p par false)) false))
      | none => none
    | _ => none
  | .internalRight p par _ =>
    match s.getNode p with
    | some (.internal _ _ _ gtp) =>
      match s.getNode gtp with
      | some (.leaf _ _) => some (some (.leafLeft gtp par false))
      | some (.internal _ _ _ _) => some (some (.internalLeft gtp par false))
      | none => none
    | _ => none

/-- RangeIterState::backward_next. -/
def RangeIterState.backward_next (s : PageStore) :
    RangeIterState → Option (Option RangeIterState)
  | .initialState n _ =>
    match s.getNode n with
    | some (.leaf _ _) => some (some (.leafRight n none true))
    | some (.internal _ _ _ _) => some (some (.internalRight n none true))
    | none => none
  | .leafLeft _ par _ => some par
  | .leafRight p par _ => some (some (.leafLeft p par true))
  | .internalLeft p par _ =>
    match s.getNode p with
    | some (.internal _ _ lte _) =>
      match s.getNode lte with
      | some (.leaf _ _) => some (some (.leafRight lte par true))
      | some (.internal _ _ _ _) => some (some (.internalRight lte par true))
      | none => none
    | _ => none
  | .internalRight p par _ =>
    match s.getNode p with
    | some (.internal _ _ _ gtp) =>
      match s.getNode gtp with
      | some (.leaf _ _) =>
        some (some (.leafRight gtp (some (.internalLeft p par true)) true))
      | some (.internal _ _ _ _) =>
        some (some (.internalRight gtp (some (.internalLeft p par true)) true))
      | none => none
    | _ => none

/-- RangeIterState::next: dispatch on the state's direction flag. -/
def RangeIterState.next (s : PageStore) (st : RangeIterState) :
    Option (Option RangeIterState) :=
  if st.rev then st.backward_next s else st.forward_next s

/-- RangeIterState::get_entry: only the two leaf states yield an entry. -/
def RangeIterState.get_entry (s : PageStore) : RangeIterState → Option Entry
  | .leafLeft p _ _ =>
    match s.getNode p with
    | some (.leaf l _) => some l
    | _ => none
  | .leafRight p _ _ =>
    match s.getNode p with
    | some (.leaf _ g) => g
    | _ => none
  | _ => none

/-- Rust `Bound<&[u8]>` as used by the iterator's query range. -/
inductive RBound where
  | unbounded
  | included (key : Bytes)
  | excluded (key : Bytes)

/-- The `RangeBounds` pair held by `BinarytreeRangeIter`. -/
structure QueryRange where
  startB : RBound
  endB : RBound

/-- RangeBounds::contains over byte-wise lexicographic key order. -/
def rangeContains (r : QueryRange) (k : Bytes) : Bool :=
  (match r.startB with
   | .unbounded => true
   | .included a => decide (a ≤ k)
   | .excluded a => decide (a < k)) &&
  (match r.endB with
   | .unbounded => true
   | .included b => decide (k ≤ b)
   | .excluded b => decide (k < b))

/-- Configuration of a `BinarytreeRangeIter`: its table id, query range
and direction. -/
structure IterCfg where
  table_id : Nat
  query_range : QueryRange
  reversed : Bool

/-- Observable output stream of a `BinarytreeRangeIter`: the sequence of
entries produced by repeatedly calling `next()` (whose inner loop steps
the state machine, yields an in-range entry of the iterator's table,
skips other entries, and terminates once an entry lies beyond the far
bound in the iteration direction), up to `fuel` state transitions. -/
def iterRun (s : PageStore) (cfg : IterCfg) :
    Nat → Option RangeIterState → List Entry
  | 0, _ => []
  | _ + 1, none => []
  | fuel + 1, some st =>
    match st.next s with
    | none => []
    | some none => []
    | some (some st') =>
      match st'.get_entry s with
      | some e =>
        if cfg.table_id = e.table ∧ rangeContains cfg.query_range e.key then
          e :: iterRun s cfg fuel (some st')
        else if cfg.reversed then
          match cfg.query_range.startB with
          | .included a =>
            if tkLt e.tk (cfg.table_id, a) then []
            else iterRun s cfg fuel (some st')
          | .excluded a =>
            if tkLe e.tk (cfg.table_id, a) then []
            else iterRun s cfg fuel (some st')
          | .unbounded => iterRun s cfg fuel (some st')
        else
          match cfg.query_range.endB with
          | .included b =>
            if tkLt (cfg.table_id, b) e.tk then []
            else iterRun s cfg fuel (some st')
          | .excluded b =>
            if tkLe (cfg.table_id, b) e.tk then []
            else iterRun s cfg fuel (some st')
          | .unbounded => iterRun s cfg fuel (some st')
      | none => iterRun s cfg fuel (some st')

/-- Unfiltered entry stream of the raw state machine (specification
device): every entry the cursor passes over, in visitation order. -/
def orbit (s : PageStore) : Nat → RangeIterState → List Entry
  | 0, _ => []
  | fuel + 1, st =>
    match st.next s with
    | some (some st') => (st'.get_entry s).toList ++ orbit s fuel st'
    | _ => []

end Radb

namespace Radb

mutual

/-- Entries still to be emitted by a forward cursor strictly after the
given state (specification device for the iterator proofs). -/
def stRemF (s : PageStore) (f : Nat) : RangeIterState → Option (List Entry)
  | .initialState n _ => treeEntries f s n
  | .leafLeft p par _ =>
    match s.getNode p with
    | some (.leaf _ g) =>
      match parentRemF s f par with
      | some pe => some (g.toList ++ pe)
      | none => none
    | _ => none
  | .leafRight _ par _ => parentRemF s f par
  | .internalLeft p par _ =>
    match s.getNode p with
    | some (.internal _ _ lte gtp) =>
      match treeEntries f s lte, treeEntries f s gtp, parentRemF s f par with
      | some ls, some gs, some pe => some (ls ++ (gs ++ pe))
      | _, _, _ => none
    | _ => none
  | .internalRight p par _ =>
    match s.getNode p with
    | some (.internal _ _ _ gtp) =>
      match treeEntries f s gtp, parentRemF s f par with
      | some gs, some pe => some (gs ++ pe)
      | _, _ => none
    | _ => none

/-- Remaining entries contributed by a forward parent chain. -/
def parentRemF (s : PageStore) (f : Nat) :
    Option RangeIterState → Option (List Entry)
  | none => some []
  | some q => stRemF s f q

end

/-- Test that a page holds a leaf node. -/
def leafAt (s : PageStore) (p : Nat) : Bool :=
  match s.getNode p with
  | some (.leaf _ _) => true
  | _ => false

/-- Test that a page holds an internal node. -/
def internalAt (s : PageStore) (p : Nat) : Bool :=
  match s.getNode p with
  | some (.internal _ _ _ _) => true
  | _ => false

mutual

/-- Shape discipline of forward-reachable cursor states: direction flags
are all `false`, every ancestor frame is an `internalRight` over an
internal page, and the current frame's page has the matching node
variant. -/
def fwdOK (s : PageStore) : RangeIterState → Bool
  | .initialState _ r => !r
  | .leafLeft p par r => !r && leafAt s p && parOKF s par
  | .leafRight p par r => !r && leafAt s p && parOKF s par
  | .internalLeft p par r => !r && internalAt s p && parOKF s par
  | .internalRight p par r => !r && internalAt s p && parOKF s par

/-- Ancestors of a forward cursor are `internalRight` frames. -/
def parOKF (s : PageStore) : Option RangeIterState → Bool
  | none => true
  | some (.internalRight p par false) => internalAt s p && parOKF s par
  | some _ => false

end

end Radb

namespace Radb

end Radb

namespace Radb

end Radb

namespace Radb

mutual

/-- Entries still to be emitted by a backward (reversed) cursor strictly
after the given state. -/
def stRemB (s : PageStore) (f : Nat) : RangeIterState → Option (List Entry)
  | .initialState n _ =>
    match treeEntries f s n with
    | some l => some l.reverse
    | none => none
  | .leafRight p par _ =>
    match s.getNode p with
    | some (.leaf l _) =>
      match parentRemB s f par with
      | some pe => some (l :: pe)
      | none => none
    | _ => none
  | .leafLeft _ par _ => parentRemB s f par
  | .internalRight p par _ =>
    match s.getNode p with
    | some (.internal _ _ lte gtp) =>
      match treeEntries f s lte, treeEntries f s gtp, parentRemB s f par with
      | some ls, some gs, some pe => some (gs.reverse ++ (ls.reverse ++ pe))
      | _, _, _ => none
    | _ => none
  | .internalLeft p par _ =>
    match s.getNode p with
    | some (.internal _ _ lte _) =>
      match treeEntries f s lte, parentRemB s f par with
      | some ls, some pe => some (ls.reverse ++ pe)
      | _, _ => none
    | _ => none

/-- Remaining entries contributed by a backward parent chain. -/
def parentRemB (s : PageStore) (f : Nat) :
    Option RangeIterState → Option (List Entry)
  | none => some []
  | some q => stRemB s f q

end

mutual

/-- Shape discipline of backward-reachable cursor states: direction flags
are all `true` and every ancestor frame is an `internalLeft` over an
internal page. -/
def bwdOK (s : PageStore) : RangeIterState → Bool
  | .initialState _ r => r
  | .leafLeft p par r => r && leafAt s p && parOKB s par
  | .leafRight p par r => r && leafAt s p && parOKB s par
  | .internalLeft p par r => r && internalAt s p && parOKB s par
  | .internalRight p par r => r && internalAt s p && parOKB s par

/-- Ancestors of a backward cursor are `internalLeft` frames. -/
def parOKB (s : PageStore) : Option RangeIterState → Bool
  | none => true
  | some (.internalLeft p par true) => internalAt s p && parOKB s par
  | some _ => false

end

end Radb

namespace Radb

/-- Concrete two-entry leaf store used by the iterator witness. -/
def leafStore2 : PageStore :=
  { pages := fun n =>
      if n = 1 then some (.leaf ⟨1, [0], [5]⟩ (some ⟨1, [1], [6]⟩)) else none
    nextFree := 2 }

end Radb

namespace BTreeModel

/-- Minimum degree of the in-RAM B-tree (`const B: usize = 3` in
`btree.rs`). -/
def B : Nat := 3

/-- In-RAM B-tree node: parallel key/value vectors plus the child vector
(empty at leaves). -/
inductive BNode (K V : Type) where
  | mk (keys : List K) (values : List V) (children : List (BNode K V))

variable {K V : Type}

/-- Node keys. -/
def BNode.keys : BNode K V → List K
  | .mk ks _ _ => ks

/-- Node values. -/
def BNode.values : BNode K V → List V
  | .mk _ vs _ => vs

/-- Node children. -/
def BNode.children : BNode K V → List (BNode K V)
  | .mk _ _ cs => cs

/-- Node::is_full (`keys.len() >= 2 * B - 1`). -/
def BNode.is_full (n : BNode K V) : Bool :=
  2 * B - 1 ≤ n.keys.length

/-- Result of Rust `slice::binary_search`. -/
inductive SearchResult where
  | found (i : Nat)
  | notFound (i : Nat)
deriving DecidableEq, Repr

/-- Rust `slice::binary_search` on the node's key vector.  On a sorted
slice (the only way the B-tree ever calls it) `binary_search` returns
`Ok` of the matching index or `Err` of the insertion index, which is
computed here by a scan. -/
def binSearch [LinearOrder K] (ks : List K) (k : K) : SearchResult :=
  go 0 ks
where
  go : Nat → List K → SearchResult
    | i, [] => .notFound i
    | i, x :: xs => if x < k then go (i + 1) xs else if x = k then .found i else .notFound i

/-- Node::split_child: split the full child at `index` around its median
key, promoting the median into this node.  `none` models the panics
(vector indexing / `split_off` out of range). -/
def splitChild : BNode K V → Nat → Option (BNode K V)
  | .mk ks vs cs, index =>
    match cs[index]? with
    | none => none
    | some c =>
      if B ≤ c.keys.length ∧ B ≤ c.values.length ∧
          (c.children.isEmpty ∨ B ≤ c.children.length) then
        match c.keys[B - 1]?, c.values[B - 1]? with
        | some splitKey, some splitValue =>
          let left := BNode.mk (c.keys.take (B - 1)) (c.values.take (B - 1))
            (if c.children.isEmpty then c.children else c.children.take B)
          let right := BNode.mk (c.keys.drop B) (c.values.drop B)
            (if c.children.isEmpty then [] else c.children.drop B)
          some (BNode.mk (ks.insertIdx index splitKey)
            (vs.insertIdx index splitValue)
            ((cs.set index left).insertIdx (index + 1) right))
        | _, _ => none
      else none

/-- Node::insert_non_full.  A key already present returns the node
unchanged (`Ok(_) => return`); a full child on the descent is split
first. -/
def insertNonFull [LinearOrder K] : Nat → BNode K V → K → V → Option (BNode K V)
  | 0, _, _, _ => none
  | fuel + 1, .mk ks vs cs, k, v =>
    match binSearch ks k with
    | .found _ => some (.mk ks vs cs)
    | .notFound index =>
      if cs.isEmpty then
        if index ≤ ks.length ∧ index ≤ vs.length then
          some (.mk (ks.insertIdx index k) (vs.insertIdx index v) cs)
        else none
      else
        match cs[index]? with
        | none => none
        | some c =>
          if c.is_full then
            match splitChild (.mk ks vs cs) index with
            | none => none
            | some n' =>
              match n' with
              | .mk ks' vs' cs' =>
                match ks'[index]? with
                | none => none
                | some kx =>
                  let index' := if kx < k then index + 1 else index
                  match cs'[index']? with
                  | none => none
                  | some c' =>
                    match insertNonFull fuel c' k v with
                    | none => none
                    | some c'' => some (.mk ks' vs' (cs'.set index' c''))
          else
            match insertNonFull fuel c k v with
            | none => none
            | some c'' => some (.mk ks vs (cs.set index c''))

/-- The in-RAM B-tree handle. -/
structure BTree (K V : Type) where
  root : Option (BNode K V)

/-- BTree::new. -/
def BTree.new : BTree K V := ⟨none⟩

/-- BTree::insert: split a full root before descending. -/
def BTree.insert [LinearOrder K] (fuel : Nat) (t : BTree K V) (k : K) (v : V) :
    Option (BTree K V) :=
  match t.root with
  | some root =>
    if root.is_full then
      match splitChild (.mk [] [] [root]) 0 with
      | none => none
      | some nr =>
        match insertNonFull fuel nr k v with
        | none => none
        | some nr' => some ⟨some nr'⟩
    else
      match insertNonFull fuel root k v with
      | none => none
      | some r' => some ⟨some r'⟩
  | none =>
    match insertNonFull fuel (.mk [] [] []) k v with
    | none => none
    | some r => some ⟨some r⟩

/-- Node::search: binary search in the node, then recurse into the
selected child. -/
def BNode.search [LinearOrder K] : Nat → BNode K V → K → Option (Option V)
  | 0, _, _ => none
  | fuel + 1, .mk ks vs cs, k =>
    match binSearch ks k with
    | .found i =>
      match vs[i]? with
      | some v => some (some v)
      | none => none
    | .notFound i =>
      if cs.isEmpty then some none
      else
        match cs[i]? with
        | some c => BNode.search fuel c k
        | none => none

/-- BTree::search. -/
def BTree.search [LinearOrder K] (fuel : Nat) (t : BTree K V) (k : K) :
    Option (Option V) :=
  match t.root with
  | some r => r.search fuel k
  | none => some none

/-- Shared encoding of the mutually recursive `dfs` walk of
`BTree::traverse`: `.inl` visits a node (loop over its keys, then the
last child), `.inr (cs, i, ks, vs)` is the loop at index `i` with the
remaining keys and values. -/
def dfsF : Nat → (BNode K V ⊕ List (BNode K V) × Nat × List K × List V) →
    Option (List (K × V))
  | 0, _ => none
  | fuel + 1, .inl (.mk ks vs cs) =>
    match dfsF fuel (.inr (cs, 0, ks, vs)) with
    | none => none
    | some body =>
      match cs.getLast? with
      | some c =>
        match dfsF fuel (.inl c) with
        | none => none
        | some tail0 => some (body ++ tail0)
      | none => some body
  | fuel + 1, .inr (cs, i, ks, vs) =>
    match ks with
    | [] => some []
    | k :: ks' =>
      match vs with
      | [] => none
      | v :: vs' =>
        match (match cs[i]? with
               | some c => dfsF fuel (.inl c)
               | none => some []) with
        | none => none
        | some sub =>
          match dfsF fuel (.inr (cs, i + 1, ks', vs')) with
          | none => none
          | some rest => some (sub ++ (k, v) :: rest)

/-- BTree::traverse. -/
def BTree.traverse (fuel : Nat) (t : BTree K V) : Option (List (K × V)) :=
  match t.root with
  | some r => dfsF fuel (.inl r)
  | none => some []

/-- Node::find_predecessor: rightmost descent, then the last key/value. -/
def findPredecessor : Nat → BNode K V → Option (K × V)
  | 0, _ => none
  | fuel + 1, .mk ks vs cs =>
    if cs.isEmpty then
      match ks.getLast?, vs.getLast? with
      | some k, some v => some (k, v)
      | _, _ => none
    else
      match cs.getLast? with
      | some c => findPredecessor fuel c
      | none => none

/-- Node::find_successor: leftmost descent, then the first key/value. -/
def findSuccessor : Nat → BNode K V → Option (K × V)
  | 0, _ => none
  | fuel + 1, .mk ks vs cs =>
    if cs.isEmpty then
      match ks.head?, vs.head? with
      | some k, some v => some (k, v)
      | _, _ => none
    else
      match cs.head? with
      | some c => findSuccessor fuel c
      | none => none

/-- Node::merge_with_left: fold the separator at `index - 1` and the
drained node at `index` into the left sibling; the drained node is left
empty for the caller's `children.remove`. -/
def mergeWithLeft : BNode K V → Nat → Option (BNode K V)
  | .mk ks vs cs, index =>
    if index = 0 then none
    else
      match ks[index - 1]?, vs[index - 1]? with
      | some pk, some pv =>
        match cs[index - 1]?, cs[index]? with
        | some ls, some cur =>
          let ls' := BNode.mk (ls.keys ++ pk :: cur.keys)
            (ls.values ++ pv :: cur.values)
            (if cur.children.isEmpty then ls.children
             else ls.children ++ cur.children)
          some (BNode.mk (ks.eraseIdx (index - 1)) (vs.eraseIdx (index - 1))
            ((cs.set (index - 1) ls').set index (BNode.mk [] [] [])))
        | _, _ => none
      | _, _ => none

/-- Node::merge_with_right: fold the separator at `index` and the right
sibling into the node at `index`; the drained sibling is left empty for
the caller's `children.remove`. -/
def mergeWithRight : BNode K V → Nat → Option (BNode K V)
  | .mk ks vs cs, index =>
    match ks[index]?, vs[index]? with
    | some pk, some pv =>
      match cs[index]?, cs[index + 1]? with
      | some cur, some rs =>
        let cur' := BNode.mk (cur.keys ++ pk :: rs.keys)
          (cur.values ++ pv :: rs.values)
          (if rs.children.isEmpty then cur.children
           else cur.children ++ rs.children)
        some (BNode.mk (ks.eraseIdx index) (vs.eraseIdx index)
          ((cs.set index cur').set (index + 1) (BNode.mk [] [] [])))
      | _, _ => none
    | _, _ => none

/-- Node::borrow_from_left: move the left sibling's largest key/value up
into this node at `index - 1` (and its last child across, when it has
children). -/
def borrowFromLeft : BNode K V → Nat → Option (BNode K V)
  | .mk ks vs cs, index =>
    if index = 0 then none
    else
      match cs[index - 1]?, cs[index]? with
      | some ls, some cur =>
        match ls.keys.getLast?, ls.values.getLast? with
        | some lk, some lv =>
          if ls.children.isEmpty then
            let ls' := BNode.mk ls.keys.dropLast ls.values.dropLast ls.children
            some (BNode.mk (ks.insertIdx (index - 1) lk)
              (vs.insertIdx (index - 1) lv) (cs.set (index - 1) ls'))
          else
            match ls.children.getLast? with
            | none => none
            | some lc =>
              let ls' := BNode.mk ls.keys.dropLast ls.values.dropLast
                ls.children.dropLast
              let cur' := BNode.mk cur.keys cur.values (lc :: cur.children)
              some (BNode.mk (ks.insertIdx (index - 1) lk)
                (vs.insertIdx (index - 1) lv)
                ((cs.set (index - 1) ls').set index cur'))
        | _, _ => none
      | _, _ => none

/-- Node::borrow_from_right: move the right sibling's smallest key/value
up into this node at `index` (and its first child across, when it has
children). -/
def borrowFromRight : BNode K V → Nat → Option (BNode K V)
  | .mk ks vs cs, index =>
    match cs[index]?, cs[index + 1]? with
    | some cur, some rs =>
      match rs.keys.head?, rs.values.head? with
      | some rk, some rv =>
        if rs.children.isEmpty then
          let rs' := BNode.mk rs.keys.tail rs.values.tail rs.children
          some (BNode.mk (ks.insertIdx index rk) (vs.insertIdx index rv)
            (cs.set (index + 1) rs'))
        else
          match rs.children.head? with
          | none => none
          | some rc0 =>
            let rs' := BNode.mk rs.keys.tail rs.values.tail rs.children.tail
            let cur' := BNode.mk cur.keys cur.values (cur.children ++ [rc0])
            some (BNode.mk (ks.insertIdx index rk) (vs.insertIdx index rv)
              ((cs.set index cur').set (index + 1) rs'))
      | _, _ => none
    | _, _ => none

end BTreeModel

namespace BTreeModel

variable {K V : Type}

/-- Does an optional sibling have at least `B` keys (the borrow guards of
case 3b)? -/
def sibHasB : Option (BNode K V) → Bool
  | some sib => B ≤ sib.keys.length
  | none => false

/-- Node::delete.  The eight cases of the source are transcribed
directly; the returned pair is (the `Option<V>` returned by the Rust
method, the updated node).  Note that when a key is found in an internal
node, the Rust code returns the value deleted from the recursive
predecessor/successor deletion, not the value that was bound to the key
being removed. -/
def nodeDelete [LinearOrder K] : Nat → BNode K V → K → Option (Option V × BNode K V)
  | 0, _, _ => none
  | fuel + 1, .mk ks vs cs, k =>
    match binSearch ks k with
    | .found index =>
      if cs.isEmpty then
        match vs[index]? with
        | some v => some (some v, .mk (ks.eraseIdx index) (vs.eraseIdx index) cs)
        | none => none
      else
        match cs[index]? with
        | none => none
        | some lc =>
          if B ≤ lc.keys.length then
            match findPredecessor fuel lc with
            | none => none
            | some (pk, pv) =>
              match nodeDelete fuel lc pk with
              | none => none
              | some (dv, lc') =>
                some (dv, .mk (ks.set index pk) (vs.set index pv) (cs.set index lc'))
          else
            match cs[index + 1]? with
            | none => none
            | some rc =>
              if B ≤ rc.keys.length then
                match findSuccessor fuel rc with
                | none => none
                | some (sk, sv) =>
                  match nodeDelete fuel rc sk with
                  | none => none
                  | some (dv, rc') =>
                    some (dv, .mk (ks.set index sk) (vs.set index sv)
                      (cs.set (index + 1) rc'))
              else
                match mergeWithLeft (.mk ks vs cs) (index + 1) with
                | none => none
                | some m =>
                  match m with
                  | .mk ks2 vs2 cs2 =>
                    match (cs2.eraseIdx (index + 1))[index]? with
                    | none => none
                    | some mc =>
                      match nodeDelete fuel mc k with
                      | none => none
                      | some (dv, mc') =>
                        some (dv, .mk ks2 vs2
                          ((cs2.eraseIdx (index + 1)).set index mc'))
    | .notFound index =>
      if cs.isEmpty then some (none, .mk ks vs cs)
      else
        match cs[index]? with
        | none => none
        | some tc =>
          if tc.keys.length < B then
            if 0 < index ∧ sibHasB cs[index - 1]? then
              match borrowFromLeft (.mk ks vs cs) index with
              | none => none
              | some m =>
                match m with
                | .mk ks2 vs2 cs2 =>
                  match ks2[index]?, vs2[index]? with
                  | some bk, some bv =>
                    match cs2[index]? with
                    | none => none
                    | some c2 =>
                      match c2 with
                      | .mk cks cvs ccs =>
                        let c3 := BNode.mk (bk :: cks) (bv :: cvs) ccs
                        match nodeDelete fuel c3 k with
                        | none => none
                        | some (dv, c4) =>
                          some (dv, .mk (ks2.eraseIdx index) (vs2.eraseIdx index)
                            ((cs2.set index c3).set index c4))
                  | _, _ => none
            else if index < cs.length - 1 ∧ sibHasB cs[index + 1]? then
              match borrowFromRight (.mk ks vs cs) index with
              | none => none
              | some m =>
                match m with
                | .mk ks2 vs2 cs2 =>
                  match ks2[index + 1]?, vs2[index + 1]? with
                  | some bk, some bv =>
                    match cs2[index]? with
                    | none => none
                    | some c2 =>
                      match c2 with
                      | .mk cks cvs ccs =>
                        let c3 := BNode.mk (cks ++ [bk]) (cvs ++ [bv]) ccs
                        match nodeDelete fuel c3 k with
                        | none => none
                        | some (dv, c4) =>
                          some (dv, .mk (ks2.eraseIdx (index + 1))
                            (vs2.eraseIdx (index + 1))
                            ((cs2.set index c3).set index c4))
                  | _, _ => none
            else if 0 < index then
              match mergeWithLeft (.mk ks vs cs) index with
              | none => none
              | some m =>
                match m with
                | .mk ks2 vs2 cs2 =>
                  match (cs2.eraseIdx index)[index - 1]? with
                  | none => none
                  | some mc =>
                    match nodeDelete fuel mc k with
                    | none => none
                    | some (dv, mc') =>
                      some (dv, .mk ks2 vs2 ((cs2.eraseIdx index).set (index - 1) mc'))
            else
              match mergeWithRight (.mk ks vs cs) index with
              | none => none
              | some m =>
                match m with
                | .mk ks2 vs2 cs2 =>
                  match (cs2.eraseIdx (index + 1))[index]? with
                  | none => none
                  | some mc =>
                    match nodeDelete fuel mc k with
                    | none => none
                    | some (dv, mc') =>
                      some (dv, .mk ks2 vs2 ((cs2.eraseIdx (index + 1)).set index mc'))
          else
            match nodeDelete fuel tc k with
            | none => none
            | some (dv, tc') => some (dv, .mk ks vs (cs.set index tc'))

/-- BTree::delete: delete from the root, then collapse an emptied root
onto its first child (or to the empty tree). -/
def BTree.delete [LinearOrder K] (fuel : Nat) (t : BTree K V) (k : K) :
    Option (Option V × BTree K V) :=
  match t.root with
  | none => some (none, t)
  | some root =>
    match nodeDelete fuel root k with
    | none => none
    | some (dv, root') =>
      if root'.keys.isEmpty then
        if root'.children.isEmpty then some (dv, ⟨none⟩)
        else
          match root'.children.head? with
          | some c => some (dv, ⟨some c⟩)
          | none => none
      else some (dv, ⟨some root'⟩)

end BTreeModel

namespace BTreeModel

variable {K V : Type}

/-- Fold a list of insertions into the tree (the shape of the repository
tests' insert loops). -/
def runInserts [LinearOrder K] (fuel : Nat) (t : BTree K V) :
    List (K × V) → Option (BTree K V)
  | [] => some t
  | (k, v) :: rest =>
    match BTree.insert fuel t k v with
    | some t' => runInserts fuel t' rest
    | none => none

/-- Fold a list of deletions into the tree. -/
def runDeletes [LinearOrder K] (fuel : Nat) (t : BTree K V) :
    List K → Option (BTree K V)
  | [] => some t
  | k :: rest =>
    match BTree.delete fuel t k with
    | some (_, t') => runDeletes fuel t' rest
    | none => none

/-- The descent of `insert_non_full` towards `k` finds `k` before ever
meeting a full child (so no split would occur). -/
def noSplitPath [LinearOrder K] : Nat → BNode K V → K → Bool
  | 0, _, _ => false
  | fuel + 1, .mk ks vs cs, k =>
    match binSearch ks k with
    | .found _ => true
    | .notFound i =>
      if cs.isEmpty then false
      else
        match cs[i]? with
        | some c => !c.is_full && noSplitPath fuel c k
        | none => false

end BTreeModel

namespace BTreeModel

variable {K V : Type}

/-- In-order key/value list of a node (specification device): recursion
along the leading key/child spine. -/
def nodeList : BNode K V → List (K × V)
  | .mk ks vs cs =>
    match cs with
    | [] => ks.zip vs
    | c :: cs' =>
      match ks, vs with
      | [], _ => nodeList c
      | k :: ks', v :: vs' => nodeList c ++ (k, v) :: nodeList (.mk ks' vs' cs')
      | _ :: _, [] => []
decreasing_by
  all_goals simp_wf
  all_goals (try simp only [BNode.mk.sizeOf_spec, List.cons.sizeOf_spec])
  all_goals omega

/-- Key/value list of the whole tree. -/
def treeList (t : BTree K V) : List (K × V) :=
  match t.root with
  | some r => nodeList r
  | none => []

/-- Lookup in an association list (specification device). -/
def listFind [DecidableEq K] (l : List (K × V)) (k : K) : Option V :=
  (l.find? (fun p => p.1 = k)).map Prod.snd

/-- Remove every binding of a key (with distinct keys, the single
binding). -/
def eraseKey [DecidableEq K] (k : K) (l : List (K × V)) : List (K × V) :=
  l.filter (fun p => ¬ p.1 = k)

/-- Sorted insertion of a binding (specification device). -/
def insertSorted [LinearOrder K] (k : K) (v : V) : List (K × V) → List (K × V)
  | [] => [(k, v)]
  | (k', v') :: rest =>
    if k < k' then (k, v) :: (k', v') :: rest
    else (k', v') :: insertSorted k v rest

/-- Lower-bound constraint of an optional bound. -/
def ltLo [LT K] (lo : Option K) (k : K) : Prop :=
  ∀ a, lo = some a → a < k

/-- Upper-bound constraint of an optional bound. -/
def ltHi [LT K] (hi : Option K) (k : K) : Prop :=
  ∀ b, hi = some b → k < b

/-- Keys strictly increasing and inside the open interval `(lo, hi)`. -/
def boundedChain [LT K] (lo hi : Option K) (ks : List K) : Prop :=
  List.Pairwise (· < ·) ks ∧ ∀ k ∈ ks, ltLo lo k ∧ ltHi hi k

mutual

/-- Well-formedness of a B-tree node at height `h` over the open key
interval `(lo, hi)` with at least `minK` keys: parallel vectors, arity
bounds, strictly increasing keys, and children separated by the keys,
all leaves at depth `h`. -/
inductive WF [LinearOrder K] : Nat → Option K → Option K → Nat → BNode K V → Prop where
  | leaf {lo hi : Option K} {minK : Nat} {ks : List K} {vs : List V} :
      vs.length = ks.length → minK ≤ ks.length → ks.length ≤ 2 * B - 1 →
      boundedChain lo hi ks → WF 0 lo hi minK (.mk ks vs [])
  | node {h : Nat} {lo hi : Option K} {minK : Nat} {ks : List K} {vs : List V}
      {cs : List (BNode K V)} :
      vs.length = ks.length → minK ≤ ks.length → ks.length ≤ 2 * B - 1 →
      boundedChain lo hi ks → LoopWF h lo hi ks vs cs →
      WF (h + 1) lo hi minK (.mk ks vs cs)

/-- Interleaving invariant of the key/value/child spine of an internal
node: child, separator, child, …, child, with matching bounds. -/
inductive LoopWF [LinearOrder K] : Nat → Option K → Option K → List K → List V →
    List (BNode K V) → Prop where
  | last {h : Nat} {lo hi : Option K} {c : BNode K V} :
      WF h lo hi (B - 1) c → LoopWF h lo hi [] [] [c]
  | cons {h : Nat} {lo hi : Option K} {k : K} {v : V} {ks : List K} {vs : List V}
      {c : BNode K V} {cs : List (BNode K V)} :
      WF h lo (some k) (B - 1) c → LoopWF h (some k) hi ks vs cs →
      LoopWF h lo hi (k :: ks) (v :: vs) (c :: cs)

end

end BTreeModel

namespace BTreeModel

variable {K V : Type}

/-- Key bounds and strict sortedness of an entry list. -/
def entriesOK [LinearOrder K] (lo hi : Option K) (l : List (K × V)) : Prop :=
  (∀ p ∈ l, ltLo lo p.1 ∧ ltHi hi p.1) ∧
    List.Pairwise (fun p q : K × V => p.1 < q.1) l

end BTreeModel

namespace BTreeModel

variable {K V : Type}

end BTreeModel

namespace BTreeModel

variable {K V : Type}

end BTreeModel

namespace BTreeModel

variable {K V : Type}

/-- Entry list contributed by the first keys/children of an internal
spine (the part the dfs loop emits). -/
def spinePre : List K → List V → List (BNode K V) → List (K × V)
  | [], _, _ => []
  | _ :: _, [], _ => []
  | _ :: _, _ :: _, [] => []
  | k :: ks, v :: vs, c :: cs => nodeList c ++ (k, v) :: spinePre ks vs cs

end BTreeModel

namespace BTreeModel

variable {K V : Type}

end BTreeModel

namespace BTreeModel

variable {K V : Type}

end BTreeModel

namespace BTreeModel

variable {K V : Type}

end BTreeModel

namespace BTreeModel

variable {K V : Type}

end BTreeModel

namespace BTreeModel

variable {K V : Type}

end BTreeModel

namespace BTreeModel

variable {K V : Type}

end BTreeModel

namespace BTreeModel

variable {K V : Type}

end BTreeModel

namespace BTreeModel

variable {K V : Type}

end BTreeModel

namespace BTreeModel

variable {K V : Type}

end BTreeModel

namespace BTreeModel

variable {K V : Type}

end BTreeModel

namespace BTreeModel

variable {K V : Type}

end BTreeModel

namespace BTreeModel

variable {K V : Type}

end BTreeModel

namespace BTreeModel

variable {K V : Type}

end BTreeModel

namespace BTreeModel

variable {K V : Type}

end BTreeModel

namespace BTreeModel

variable {K V : Type}

/-- The induction statement for Node::delete at a fixed height. -/
def DeleteOK [LinearOrder K] (V : Type) (h : Nat) : Prop :=
  ∀ (fuel : Nat) (n : BNode K V) (lo hi : Option K) (k : K),
    WF h lo hi 0 n → h < fuel → 1 ≤ n.keys.length →
    ltLo lo k → ltHi hi k →
    ∃ (dv : Option V) (n' : BNode K V), nodeDelete fuel n k = some (dv, n') ∧
      nodeList n' = eraseKey k (nodeList n) ∧ WF h lo hi 0 n' ∧
      n.keys.length - 1 ≤ n'.keys.length ∧ n'.keys.length ≤ n.keys.length

end BTreeModel

namespace BTreeModel

variable {K V : Type}

end BTreeModel

namespace BTreeModel

variable {K V : Type}

end BTreeModel

namespace BTreeModel

variable {K V : Type}

end BTreeModel

namespace BTreeModel

variable {K V : Type}

end BTreeModel

namespace BTreeModel

variable {K V : Type}

end BTreeModel

namespace BTreeModel

variable {K V : Type}

end BTreeModel

namespace BTreeModel

variable {K V : Type}

end BTreeModel

namespace BTreeModel

variable {K V : Type}

end BTreeModel

namespace BTreeModel

variable {K V : Type}

end BTreeModel

namespace BTreeModel

variable {K V : Type}

/-- A tree is well-formed below height bound `h`: an empty tree, or a
root with at least one key whose node invariant holds at some height
`h' ≤ h`. -/
def TreeWF [LinearOrder K] (h : Nat) (t : BTree K V) : Prop :=
  match t.root with
  | none => True
  | some r => ∃ h', h' ≤ h ∧ WF h' none none 1 r

end BTreeModel

namespace BTreeModel

variable {K V : Type}

end BTreeModel

namespace BTreeModel

variable {K V : Type}

end BTreeModel

namespace BTreeModel

variable {K V : Type}

end BTreeModel

namespace BTreeModel

end BTreeModel

/-!
Verification development for the radarbase storage engine.

The Rust sources are embedded shallowly:

* `src/binarytree.rs` — the copy-on-write page tree.  Pages are modelled at
  node granularity: a `NodePage` is the decoded content that the zero-copy
  accessors (`LeafAccessor`, `InternalAccessor`) expose and that the builders
  (`LeafBuilder`, `InternalBuilder`) write.  Byte strings (`&[u8]` /
  `Vec<u8>`) are `List Nat`; `u64` values are `Nat` (no arithmetic in the
  embedded code can overflow a `u64` short of exhausting the address space).
  Recursive traversals take an explicit fuel argument; exhausted fuel, a
  failed page-bounds assertion and an unrecognised node type byte
  (`unreachable!`) are all modelled as `none`.
* `src/page_manager.rs` — `PageManager::get_page` is embedded byte-exactly
  (an mmap of bytes, a bump pointer, the `ALL_MEMORY_HACK` branch).
* `src/transactions.rs` — `WriteTransaction`'s staging maps; the committed
  storage that `WriteTransaction::get` delegates to is abstracted as a
  function from keys to optional values (`Storage::get` against the
  committed root).
* `src/btree.rs` — the in-RAM B-tree, embedded with fuel and with every
  panicking operation (vector indexing, `unwrap`) returning `Option`.
-/

namespace Radb

theorem tkLt_irrefl (a : Nat × Bytes) : ¬ tkLt a a :=
  lt_irrefl _

theorem tkLt_trans {a b c : Nat × Bytes} (h₁ : tkLt a b) (h₂ : tkLt b c) :
    tkLt a c :=
  lt_trans h₁ h₂

theorem tkLe_trans {a b c : Nat × Bytes} (h₁ : tkLe a b) (h₂ : tkLe b c) :
    tkLe a c :=
  le_trans h₁ h₂

theorem tkLt_of_tkLe_of_tkLt {a b c : Nat × Bytes} (h₁ : tkLe a b)
    (h₂ : tkLt b c) : tkLt a c :=
  lt_of_le_of_lt h₁ h₂

theorem tkLt_of_tkLt_of_tkLe {a b c : Nat × Bytes} (h₁ : tkLt a b)
    (h₂ : tkLe b c) : tkLt a c :=
  lt_of_lt_of_le h₁ h₂

theorem tkLe_of_tkLt {a b : Nat × Bytes} (h : tkLt a b) : tkLe a b :=
  le_of_lt h

theorem tkLt_of_not_tkLe {a b : Nat × Bytes} (h : ¬ tkLe a b) : tkLt b a :=
  lt_of_not_le h

theorem tkLt_ne {a b : Nat × Bytes} (h : tkLt a b) : a ≠ b := by
  intro he; subst he; exact tkLt_irrefl a h

theorem tkLe_of_eq {a b : Nat × Bytes} (h : a = b) : tkLe a b := by
  subst h; exact le_refl _

theorem tkLt_asymm {a b : Nat × Bytes} (h : tkLt a b) : ¬ tkLt b a :=
  lt_asymm h

namespace BinarytreeBuilder

end BinarytreeBuilder

end Radb

namespace PageManagerModel

end PageManagerModel

namespace TxnModel

open Radb (Bytes)

end TxnModel

namespace TxnModel

open Radb (Bytes)

theorem applyOp_added_none {w : WriteTxn} {k : Bytes} (op : TxnOp)
    (h : w.added k = none) (hni : ∀ v, op ≠ .ins k v) :
    (applyOp w op).added k = none := by
  cases op with
  | ins k' v =>
    simp only [applyOp, WriteTxn.insert]
    by_cases hk : k = k'
    · exact absurd (hk ▸ rfl) (hni v)
    · simp [hk, h]
  | rem k' =>
    simp only [applyOp, WriteTxn.remove]
    by_cases hk : k = k'
    · simp [hk]
    · simp [hk, h]

theorem applyOps_added_none {w : WriteTxn} {k : Bytes} (ops : List TxnOp)
    (h : w.added k = none) (hni : ∀ v, TxnOp.ins k v ∉ ops) :
    (applyOps w ops).added k = none := by
  induction ops generalizing w with
  | nil => exact h
  | cons op ops ih =>
    refine ih (applyOp_added_none op h ?_) ?_
    · intro v he
      exact hni v (he ▸ List.mem_cons_self op ops)
    · intro v hv
      exact hni v (List.mem_cons_of_mem op hv)

end TxnModel

/-- C9: staged removals are invisible to `WriteTransaction::get`.  After
`remove(k)` and any further staging that never inserts `k` again, `get(k)`
does not report `k` absent: it returns exactly what the committed snapshot
holds for `k`, because `get` consults only the `added` map before
delegating to storage. -/
theorem write_txn_staged_removal_invisible
    (committed : Radb.Bytes → Option Radb.Bytes) (w : TxnModel.WriteTxn)
    (k : Radb.Bytes) (ops : List TxnModel.TxnOp)
    (hni : ∀ v, TxnModel.TxnOp.ins k v ∉ ops) :
    TxnModel.WriteTxn.get committed
      (TxnModel.applyOps (TxnModel.WriteTxn.remove w k) ops) k = committed k := by
  have h0 : (TxnModel.WriteTxn.remove w k).added k = none := by
    simp [TxnModel.WriteTxn.remove]
  have h := TxnModel.applyOps_added_none ops h0 hni
  simp [TxnModel.WriteTxn.get, h]

/-- C9 witness: a key staged into the transaction, then staged for
removal, still reads back its committed value. -/
theorem write_txn_staged_removal_invisible_witness :
    TxnModel.WriteTxn.get (fun k => if k = [1] then some [7] else none)
      (TxnModel.applyOps
        (TxnModel.WriteTxn.remove
          (TxnModel.WriteTxn.insert TxnModel.WriteTxn.new [1] [9]) [1])
        [TxnModel.TxnOp.ins [2] [5]]) [1] =
      some [7] :=
  (write_txn_staged_removal_invisible
      (fun k => if k = [1] then some [7] else none)
      (TxnModel.WriteTxn.insert TxnModel.WriteTxn.new [1] [9]) [1]
      [TxnModel.TxnOp.ins [2] [5]]
      (by intro v hv; simp at hv)).trans (by decide)

/-- C7 counterexample: `get_page(u64::MAX)` takes the `ALL_MEMORY_HACK`
branch and returns a view even though `u64::MAX ≥ next_free`, so the claim
that every `n ≥ next_free` fails the assertion is false as stated. -/
theorem get_page_bounds_counterexample :
    (PageManagerModel.PageManager.mk 1 [] 1).nextFreePage ≤
        PageManagerModel.ALL_MEMORY_HACK ∧
      (PageManagerModel.PageManager.mk 1 [] 1).get_page
          PageManagerModel.ALL_MEMORY_HACK ≠ none := by
  constructor
  · show (1 : Nat) ≤ 2 ^ 64 - 1
    norm_num
  · intro h
    simp only [PageManagerModel.PageManager.get_page, if_pos rfl] at h
    exact Option.noConfusion h

/-- C7 (amended): for every page number other than the `ALL_MEMORY_HACK`
sentinel `u64::MAX`, `get_page(n)` with `n ≥ next_free` fails the
assertion rather than returning a view. -/
theorem get_page_bounds_check (m : PageManagerModel.PageManager) (n : Nat)
    (hword : n < 2 ^ 64) (hhack : n ≠ PageManagerModel.ALL_MEMORY_HACK)
    (hge : m.nextFreePage ≤ n) :
    m.get_page n = none := by
  unfold PageManagerModel.PageManager.get_page
  rw [if_neg hhack, if_neg (by omega)]

/-- C7 witness: page 5 of a manager with `next_free = 3` is rejected. -/
theorem get_page_bounds_check_witness :
    (PageManagerModel.PageManager.mk 3 [0, 0, 0] 1).get_page 5 = none :=
  get_page_bounds_check (PageManagerModel.PageManager.mk 3 [0, 0, 0] 1) 5
    (by norm_num) (by norm_num [PageManagerModel.ALL_MEMORY_HACK]) (by norm_num)

namespace Radb

/-- C6 counterexample: a three-element batch containing the pair
`(table 1, key [1])` twice; sorting places the two duplicates in different
chunks of two, so `build` returns a tree instead of panicking. -/
theorem builder_duplicate_counterexample :
    (Entry.mk 1 [1] [0]).tk = (Entry.mk 1 [1] [1]).tk ∧
      BinarytreeBuilder.build
          [Entry.mk 1 [1] [0], Entry.mk 1 [1] [1], Entry.mk 1 [0] []] ≠
        none := by
  decide

/-- C6 (amended): the duplicate check of `BinarytreeBuilder::build` is
chunk-local — a batch of exactly two entries sharing `(table_id, key)`
always panics, but duplicates that sort into different chunks of two
escape detection (see the counterexample). -/
theorem builder_duplicate_pair_panics (a b : Entry) (h : a.tk = b.tk) :
    BinarytreeBuilder.build [a, b] = none := by
  unfold BinarytreeBuilder.build
  simp only [List.isEmpty_cons, sortPairs, List.insertionSort, List.orderedInsert]
  by_cases hle : entryLe a b
  · rw [if_pos hle]
    simp [mkLeaves, h]
  · rw [if_neg hle]
    simp [mkLeaves, h.symm]

/-- C6 witness: a two-element batch with a duplicated `(table_id, key)`
panics. -/
theorem builder_duplicate_pair_panics_witness :
    BinarytreeBuilder.build [Entry.mk 1 [1] [0], Entry.mk 1 [1] [1]] = none :=
  builder_duplicate_pair_panics (Entry.mk 1 [1] [0]) (Entry.mk 1 [1] [1]) rfl

end Radb

namespace Radb

theorem StoreE.rfl (s : PageStore) : StoreE s s :=
  ⟨le_refl _, fun _ _ => Eq.refl _⟩

theorem StoreE.trans {s₁ s₂ s₃ : PageStore} (h₁ : StoreE s₁ s₂)
    (h₂ : StoreE s₂ s₃) : StoreE s₁ s₃ :=
  ⟨le_trans h₁.1 h₂.1, fun p hp => (h₂.2 p (lt_of_lt_of_le hp h₁.1)).trans (h₁.2 p hp)⟩

theorem allocWrite_storeE (s : PageStore) (d : NodePage) :
    StoreE s (s.allocWrite d).2 := by
  refine ⟨by simp [PageStore.allocWrite], fun p hp => ?_⟩
  simp only [PageStore.allocWrite]
  rw [if_neg (by omega)]

theorem to_bytes_storeE (n : Node) (s : PageStore) :
    StoreE s (n.to_bytes s).2 := by
  induction n generalizing s with
  | leaf l g => exact allocWrite_storeE s _
  | internal left t k right ihl ihr =>
    exact ((ihl s).trans (ihr _)).trans (allocWrite_storeE _ _)

theorem tree_insert_storeE {fuel : Nat} {s : PageStore} {pg t : Nat}
    {k v : Bytes} {r : Nat} {s' : PageStore}
    (h : tree_insert fuel s pg t k v = some (r, s')) : StoreE s s' := by
  induction fuel generalizing s pg r s' with
  | zero => exact absurd h (by simp [tree_insert])
  | succ fuel ih =>
    rw [tree_insert] at h
    match hn : s.getNode pg with
    | none => rw [hn] at h; simp only [] at h; exact Option.noConfusion h
    | some (.leaf lesser greater) =>
      rw [hn] at h; simp only [] at h
      match hb : BinarytreeBuilder.build (insertLeafPairs t k v lesser greater) with
      | none => rw [hb] at h; simp only [] at h; exact Option.noConfusion h
      | some node =>
        rw [hb] at h; simp only [] at h
        have he : (node.to_bytes s).2 = s' := congrArg (·.2) (Option.some.inj h)
        exact he ▸ to_bytes_storeE node s
    | some (.internal t0 k0 lp gp) =>
      rw [hn] at h; simp only [] at h
      by_cases hle : tkLe (t, k) (t0, k0)
      · rw [if_pos hle] at h
        match hrec : tree_insert fuel s lp t k v with
        | none => rw [hrec] at h; simp only [] at h; exact Option.noConfusion h
        | some (nl, s₁) =>
          rw [hrec] at h; simp only [] at h
          have he : (s₁.allocWrite (.internal t0 k0 nl gp)).2 = s' :=
            congrArg (·.2) (Option.some.inj h)
          exact he ▸ (ih hrec).trans (allocWrite_storeE _ _)
      · rw [if_neg hle] at h
        match hrec : tree_insert fuel s gp t k v with
        | none => rw [hrec] at h; simp only [] at h; exact Option.noConfusion h
        | some (nr, s₁) =>
          rw [hrec] at h; simp only [] at h
          have he : (s₁.allocWrite (.internal t0 k0 lp nr)).2 = s' :=
            congrArg (·.2) (Option.some.inj h)
          exact he ▸ (ih hrec).trans (allocWrite_storeE _ _)

theorem tree_delete_storeE {fuel : Nat} {s : PageStore} {pg t : Nat}
    {k : Bytes} {res : Option Nat} {s' : PageStore}
    (h : tree_delete fuel s pg t k = some (res, s')) : StoreE s s' := by
  induction fuel generalizing s pg res s' with
  | zero => exact absurd h (by simp [tree_delete])
  | succ fuel ih =>
    rw [tree_delete] at h
    match hn : s.getNode pg with
    | none => rw [hn] at h; simp only [] at h; exact Option.noConfusion h
    | some (.leaf lesser greater) =>
      rw [hn] at h; simp only [] at h
      match greater with
      | some g =>
        simp only [] at h
        by_cases hne : (t, k) ≠ lesser.tk ∧ (t, k) ≠ g.tk
        · rw [if_pos hne] at h
          have he : s = s' := congrArg (·.2) (Option.some.inj h)
          exact he ▸ StoreE.rfl s
        · rw [if_neg hne] at h
          have he : ((if (t, k) = lesser.tk then Node.leaf g none
              else Node.leaf lesser none).to_bytes s).2 = s' :=
            congrArg (·.2) (Option.some.inj h)
          exact he ▸ to_bytes_storeE _ s
      | none =>
        simp only [] at h
        by_cases heq : (t, k) = lesser.tk
        · rw [if_pos heq] at h
          have he : s = s' := congrArg (·.2) (Option.some.inj h)
          exact he ▸ StoreE.rfl s
        · rw [if_neg heq] at h
          have he : s = s' := congrArg (·.2) (Option.some.inj h)
          exact he ▸ StoreE.rfl s
    | some (.internal t0 k0 lp gp) =>
      rw [hn] at h; simp only [] at h
      by_cases hle : tkLe (t, k) (t0, k0)
      · rw [if_pos hle] at h
        match hrec : tree_delete fuel s lp t k with
        | none => rw [hrec] at h; simp only [] at h; exact Option.noConfusion h
        | some (some nl, s₁) =>
          rw [hrec] at h; simp only [] at h
          by_cases hsame : nl = lp
          · rw [if_pos hsame] at h
            have he : s₁ = s' := congrArg (·.2) (Option.some.inj h)
            exact he ▸ ih hrec
          · rw [if_neg hsame] at h
            have he : (s₁.allocWrite (.internal t0 k0 nl gp)).2 = s' :=
              congrArg (·.2) (Option.some.inj h)
            exact he ▸ (ih hrec).trans (allocWrite_storeE _ _)
        | some (none, s₁) =>
          rw [hrec] at h; simp only [] at h
          have he : s₁ = s' := congrArg (·.2) (Option.some.inj h)
          exact he ▸ ih hrec
      · rw [if_neg hle] at h
        match hrec : tree_delete fuel s gp t k with
        | none => rw [hrec] at h; simp only [] at h; exact Option.noConfusion h
        | some (some nr, s₁) =>
          rw [hrec] at h; simp only [] at h
          by_cases hsame : nr = gp
          · rw [if_pos hsame] at h
            have he : s₁ = s' := congrArg (·.2) (Option.some.inj h)
            exact he ▸ ih hrec
          · rw [if_neg hsame] at h
            have he : (s₁.allocWrite (.internal t0 k0 lp nr)).2 = s' :=
              congrArg (·.2) (Option.some.inj h)
            exact he ▸ (ih hrec).trans (allocWrite_storeE _ _)
        | some (none, s₁) =>
          rw [hrec] at h; simp only [] at h
          have he : s₁ = s' := congrArg (·.2) (Option.some.inj h)
          exact he ▸ ih hrec

theorem getNode_storeE {s s' : PageStore} (h : StoreE s s') {n : Nat}
    {x : NodePage} (hx : s.getNode n = some x) : s'.getNode n = some x := by
  unfold PageStore.getNode at hx ⊢
  by_cases hh : n = ALL_MEMORY_HACK
  · rw [if_pos hh] at hx; exact absurd hx (by simp)
  · rw [if_neg hh] at hx ⊢
    by_cases hlt : n < s.nextFree
    · rw [if_pos (lt_of_lt_of_le hlt h.1)]
      rw [if_pos hlt] at hx
      rw [h.2 n hlt]; exact hx
    · rw [if_neg hlt] at hx; exact absurd hx (by simp)

theorem lookup_storeE {s s' : PageStore} (he : StoreE s s') :
    ∀ (h g root : Nat), closedTree g s root = true →
      ∀ (t : Nat) (k : Bytes),
        lookup_in_raw h s' root t k = lookup_in_raw h s root t k := by
  intro h
  induction h with
  | zero => intro g root _ t k; simp [lookup_in_raw]
  | succ h ih =>
    intro g root hc t k
    match g with
    | 0 => exact absurd hc (by simp [closedTree])
    | g + 1 =>
      rw [closedTree] at hc
      match hn : s.getNode root with
      | none => rw [hn] at hc; simp only [] at hc; exact absurd hc (by simp)
      | some (.leaf lesser greater) =>
        rw [lookup_in_raw, lookup_in_raw, hn, getNode_storeE he hn]
      | some (.internal t0 k0 lp gp) =>
        rw [hn] at hc; simp only [] at hc
        rw [Bool.and_eq_true] at hc
        rw [lookup_in_raw, lookup_in_raw, hn, getNode_storeE he hn]
        simp only []
        by_cases hle : tkLe (t, k) (t0, k0)
        · rw [if_pos hle, if_pos hle]; exact ih g lp hc.1 t k
        · rw [if_neg hle, if_neg hle]; exact ih g gp hc.2 t k

end Radb

namespace Radb

/-- C1: COW snapshot isolation.  Whenever `tree_insert` or `tree_delete`
succeeds, every page allocated before the call (`p < next_free` at entry)
is byte-for-byte unchanged and `next_free` only grows; consequently
`lookup_in_raw` against any root of a closed page tree of the old store
returns the same result before and after the mutation. -/
theorem cow_snapshot_isolation (fuel g h : Nat) (s : PageStore)
    (pg t : Nat) (k v : Bytes) (root t' : Nat) (k' : Bytes) :
    (∀ r s', tree_insert fuel s pg t k v = some (r, s') →
      (∀ p, p < s.nextFree → s'.pages p = s.pages p) ∧
      s.nextFree ≤ s'.nextFree ∧
      (closedTree g s root = true →
        lookup_in_raw h s' root t' k' = lookup_in_raw h s root t' k')) ∧
    (∀ res s', tree_delete fuel s pg t k = some (res, s') →
      (∀ p, p < s.nextFree → s'.pages p = s.pages p) ∧
      s.nextFree ≤ s'.nextFree ∧
      (closedTree g s root = true →
        lookup_in_raw h s' root t' k' = lookup_in_raw h s root t' k')) := by
  constructor
  · intro r s' hi
    have he := tree_insert_storeE hi
    exact ⟨he.2, he.1, fun hc => lookup_storeE he h g root hc t' k'⟩
  · intro res s' hd
    have he := tree_delete_storeE hd
    exact ⟨he.2, he.1, fun hc => lookup_storeE he h g root hc t' k'⟩

/-- C1 witness: inserting `(1, [1] ↦ [6])` into the one-leaf store leaves
page 1 untouched, grows `next_free`, and preserves the lookup of `[0]`
against the old root. -/
theorem cow_snapshot_isolation_witness :
    (∀ p, p < leafStore.nextFree →
        ((tree_insert 1 leafStore 1 1 [1] [6]).getD (0, leafStore)).2.pages p =
          leafStore.pages p) ∧
      leafStore.nextFree ≤
        ((tree_insert 1 leafStore 1 1 [1] [6]).getD (0, leafStore)).2.nextFree ∧
      (closedTree 1 leafStore 1 = true →
        lookup_in_raw 1 ((tree_insert 1 leafStore 1 1 [1] [6]).getD (0, leafStore)).2
            1 1 [0] =
          lookup_in_raw 1 leafStore 1 1 [0]) :=
  (cow_snapshot_isolation 1 1 1 leafStore 1 1 [1] [6] 1 1 [0]).1
    ((tree_insert 1 leafStore 1 1 [1] [6]).getD (0, leafStore)).1
    ((tree_insert 1 leafStore 1 1 [1] [6]).getD (0, leafStore)).2
    rfl

/-- C4: deleting a key that is bound nowhere in the tree is a no-op
without allocation: `tree_delete` returns the original root page number
and the store unchanged (in the internal arm this happens because both
recursively returned child page numbers equal the originals). -/
theorem tree_delete_absent_noop (fuel : Nat) (s : PageStore) (p t : Nat)
    (k : Bytes) (l : List Entry) (he : treeEntries fuel s p = some l)
    (habs : ∀ e ∈ l, e.tk ≠ (t, k)) :
    tree_delete fuel s p t k = some (some p, s) := by
  induction fuel generalizing p l with
  | zero => exact absurd he (by simp [treeEntries])
  | succ fuel ih =>
    rw [treeEntries] at he
    match hn : s.getNode p with
    | none => rw [hn] at he; simp only [] at he; exact Option.noConfusion he
    | some (.leaf lesser greater) =>
      rw [hn] at he; simp only [] at he
      have hl : l = lesser :: greater.toList := (Option.some.inj he).symm
      have hles : lesser.tk ≠ (t, k) := habs lesser (hl ▸ List.mem_cons_self _ _)
      rw [tree_delete, hn]; simp only []
      match greater with
      | some g =>
        have hg : g.tk ≠ (t, k) := by
          refine habs g (hl ▸ ?_)
          simp
        simp only []
        rw [if_pos (And.intro (fun hh => hles hh.symm) (fun hh => hg hh.symm))]
      | none =>
        simp only []
        rw [if_neg (fun hh => hles hh.symm)]
    | some (.internal t0 k0 lp gp) =>
      rw [hn] at he; simp only [] at he
      match hel : treeEntries fuel s lp, heg : treeEntries fuel s gp with
      | some ls, some gs =>
        rw [hel, heg] at he; simp only [] at he
        have hl : l = ls ++ gs := (Option.some.inj he).symm
        have habl : ∀ e ∈ ls, e.tk ≠ (t, k) := fun e hm =>
          habs e (hl ▸ List.mem_append_left _ hm)
        have habg : ∀ e ∈ gs, e.tk ≠ (t, k) := fun e hm =>
          habs e (hl ▸ List.mem_append_right _ hm)
        rw [tree_delete, hn]; simp only []
        by_cases hle : tkLe (t, k) (t0, k0)
        · rw [if_pos hle, ih lp ls hel habl]; simp
        · rw [if_neg hle, ih gp gs heg habg]; simp
      | some ls, none =>
        rw [hel, heg] at he; simp only [] at he; exact Option.noConfusion he
      | none, some gs =>
        rw [hel, heg] at he; simp only [] at he; exact Option.noConfusion he
      | none, none =>
        rw [hel, heg] at he; simp only [] at he; exact Option.noConfusion he

/-- C4 witness: deleting the absent key `[9]` from the one-leaf store
returns the original page number 1 and the unchanged store. -/
theorem tree_delete_absent_noop_witness :
    tree_delete 1 leafStore 1 1 [9] = some (some 1, leafStore) :=
  tree_delete_absent_noop 1 leafStore 1 1 [9] [⟨1, [0], [5]⟩] rfl
    (by decide)

end Radb

namespace Radb

/-- C2: lookup correctness.  Over any page tree satisfying the ordering
invariants, `lookup_in_raw` succeeds and returns the stored value slice
(modelled as the holding page number paired with the value bytes) exactly
when the tree binds `(table, key)`, and reports absence otherwise. -/
theorem lookup_in_raw_correct (fuel : Nat) (s : PageStore) (root t : Nat)
    (k : Bytes) (l : List Entry) (hs : sortedTree fuel s root = true)
    (he : treeEntries fuel s root = some l) :
    ∃ r, lookup_in_raw fuel s root t k = some r ∧
      r.map Prod.snd = (findEntry l t k).map Entry.value := by
  induction fuel generalizing root l with
  | zero => exact absurd he (by simp [treeEntries])
  | succ fuel ih =>
    rw [treeEntries] at he
    rw [sortedTree] at hs
    match hn : s.getNode root with
    | none => rw [hn] at he; simp only [] at he; exact Option.noConfusion he
    | some (.leaf lesser greater) =>
      rw [hn] at he; simp only [] at he
      rw [hn] at hs; simp only [] at hs
      have hl : l = lesser :: greater.toList := (Option.some.inj he).symm
      rw [lookup_in_raw, hn]; simp only []
      by_cases heq : (t, k) = lesser.tk
      · rw [if_pos heq]
        refine ⟨some (root, lesser.value), Eq.refl _, ?_⟩
        have : findEntry l t k = some lesser := by
          rw [hl, findEntry, List.find?_cons_of_pos _ (by simp [heq.symm])]
        rw [this]; rfl
      · rw [if_neg heq]
        by_cases hlt : tkLt (t, k) lesser.tk
        · rw [if_pos hlt]
          refine ⟨none, Eq.refl _, ?_⟩
          have : findEntry l t k = none := by
            rw [hl, findEntry]
            match greater with
            | none =>
              simp only [Option.toList]
              rw [List.find?_cons_of_neg _ (by simp; exact fun hh => heq hh.symm)]
              rfl
            | some g =>
              have hgl : tkLt lesser.tk g.tk := by simpa using hs
              have hgne : (t, k) ≠ g.tk := tkLt_ne (tkLt_trans hlt hgl)
              simp only [Option.toList]
              rw [List.find?_cons_of_neg _ (by simp; exact fun hh => heq hh.symm),
                List.find?_cons_of_neg _ (by simp; exact fun hh => hgne hh.symm)]
              rfl
          rw [this]; rfl
        · rw [if_neg hlt]
          match greater with
          | none =>
            refine ⟨none, Eq.refl _, ?_⟩
            have : findEntry l t k = none := by
              rw [hl, findEntry]
              simp only [Option.toList]
              rw [List.find?_cons_of_neg _ (by simp; exact fun hh => heq hh.symm)]
              rfl
            rw [this]; rfl
          | some g =>
            simp only []
            by_cases hge : (t, k) = g.tk
            · rw [if_pos hge]
              refine ⟨some (root, g.value), Eq.refl _, ?_⟩
              have : findEntry l t k = some g := by
                rw [hl, findEntry]
                simp only [Option.toList]
                rw [List.find?_cons_of_neg _ (by simp; exact fun hh => heq hh.symm),
                  List.find?_cons_of_pos _ (by simp [hge.symm])]
              rw [this]; rfl
            · rw [if_neg hge]
              refine ⟨none, Eq.refl _, ?_⟩
              have : findEntry l t k = none := by
                rw [hl, findEntry]
                simp only [Option.toList]
                rw [List.find?_cons_of_neg _ (by simp; exact fun hh => heq hh.symm),
                  List.find?_cons_of_neg _ (by simp; exact fun hh => hge hh.symm)]
                rfl
              rw [this]; rfl
    | some (.internal t0 k0 lp gp) =>
      rw [hn] at he; simp only [] at he
      rw [hn] at hs; simp only [] at hs
      match hel : treeEntries fuel s lp, heg : treeEntries fuel s gp with
      | some ls, some gs =>
        rw [hel, heg] at he; simp only [] at he
        rw [hel, heg] at hs; simp only [] at hs
        rw [Bool.and_eq_true, Bool.and_eq_true] at hs
        obtain ⟨⟨hsl, hsg⟩, hbd⟩ := hs
        have hbd' := of_decide_eq_true hbd
        obtain ⟨hlle, hggt⟩ := hbd'
        have hl : l = ls ++ gs := (Option.some.inj he).symm
        rw [lookup_in_raw, hn]; simp only []
        by_cases hle : tkLe (t, k) (t0, k0)
        · rw [if_pos hle]
          obtain ⟨r, hr, hv⟩ := ih lp ls hsl hel
          refine ⟨r, hr, ?_⟩
          have : findEntry l t k = findEntry ls t k := by
            rw [hl, findEntry, List.find?_append]
            have : List.find? (fun e => decide (e.tk = (t, k))) gs = none := by
              rw [List.find?_eq_none]
              intro e hm
              simp only [decide_eq_true_eq]
              intro hh
              exact tkLt_irrefl _ (tkLt_of_tkLe_of_tkLt (hh ▸ hle) (hggt e hm))
            rw [this, Option.or_none]
            rfl
          rw [this]; exact hv
        · rw [if_neg hle]
          have hgt : tkLt (t0, k0) (t, k) := tkLt_of_not_tkLe hle
          obtain ⟨r, hr, hv⟩ := ih gp gs hsg heg
          refine ⟨r, hr, ?_⟩
          have : findEntry l t k = findEntry gs t k := by
            rw [hl, findEntry, List.find?_append]
            have : List.find? (fun e => decide (e.tk = (t, k))) ls = none := by
              rw [List.find?_eq_none]
              intro e hm
              simp only [decide_eq_true_eq]
              intro hh
              exact tkLt_irrefl _ (tkLt_of_tkLe_of_tkLt (hh ▸ hlle e hm) hgt)
            rw [this, Option.none_or]
            rfl
          rw [this]; exact hv
      | some ls, none =>
        rw [hel, heg] at he; simp only [] at he; exact Option.noConfusion he
      | none, some gs =>
        rw [hel, heg] at he; simp only [] at he; exact Option.noConfusion he
      | none, none =>
        rw [hel, heg] at he; simp only [] at he; exact Option.noConfusion he

/-- C2 witness: looking up the present key `[0]` and the absent key `[9]`
in the one-leaf store. -/
theorem lookup_in_raw_correct_witness :
    (∃ r, lookup_in_raw 1 leafStore 1 1 [0] = some r ∧
        r.map Prod.snd = (findEntry [⟨1, [0], [5]⟩] 1 [0]).map Entry.value) ∧
      (∃ r, lookup_in_raw 1 leafStore 1 1 [9] = some r ∧
        r.map Prod.snd = (findEntry [⟨1, [0], [5]⟩] 1 [9]).map Entry.value) :=
  ⟨lookup_in_raw_correct 1 leafStore 1 1 [0] [⟨1, [0], [5]⟩] rfl rfl,
   lookup_in_raw_correct 1 leafStore 1 1 [9] [⟨1, [0], [5]⟩] rfl rfl⟩

end Radb

namespace Radb

theorem entryLe_tkLt {a b : Entry} (hle : entryLe a b) (hne : a.tk ≠ b.tk) :
    tkLt a.tk b.tk := by
  unfold entryLe at hle
  rw [Prod.Lex.le_iff] at hle
  unfold tkLt Entry.tk
  rw [Prod.Lex.lt_iff]
  rcases hle with h | ⟨ht, hkv⟩
  · exact Or.inl h
  · rw [Prod.Lex.le_iff] at hkv
    rcases hkv with h | ⟨hk, _⟩
    · exact Or.inr ⟨ht, h⟩
    · refine absurd ?_ hne
      unfold Entry.tk
      simp only [] at ht hk
      rw [ht, hk]

theorem insertLeafPairs_pairwise_ne (t : Nat) (k v : Bytes) (lesser : Entry)
    (greater : Option Entry)
    (hwf : ∀ g, greater = some g → tkLt lesser.tk g.tk) :
    List.Pairwise (fun a b => a.tk ≠ b.tk)
      (insertLeafPairs t k v lesser greater) := by
  unfold insertLeafPairs
  have hnew : (Entry.mk t k v).tk = (t, k) := Eq.refl _
  match greater with
  | none =>
    simp only []
    by_cases hc : (t, k) ≠ lesser.tk
    · rw [if_pos hc]
      simp only [List.cons_append, List.append_nil, List.nil_append, List.pairwise_cons]
      exact ⟨fun e hm => by
        simp at hm
        rw [hnew, hm]; exact hc, by simp⟩
    · rw [if_neg hc]; simp
  | some g =>
    have hlg : lesser.tk ≠ g.tk := tkLt_ne (hwf g (Eq.refl _))
    simp only []
    by_cases hc1 : (t, k) ≠ lesser.tk
    · rw [if_pos hc1]
      by_cases hc2 : (t, k) ≠ g.tk
      · rw [if_pos hc2]
        simp only [List.cons_append, List.append_nil, List.nil_append, List.pairwise_cons]
        refine ⟨fun e hm => ?_, fun e hm => ?_, by simp⟩
        · simp at hm
          rcases hm with hm | hm <;> rw [hnew, hm]
          · exact hc1
          · exact hc2
        · simp at hm
          rw [hm]; exact hlg
      · rw [if_neg hc2]
        simp only [List.cons_append, List.append_nil, List.nil_append, List.pairwise_cons]
        exact ⟨fun e hm => by
          simp at hm
          rw [hnew, hm]; exact hc1, by simp⟩
    · rw [if_neg hc1]
      by_cases hc2 : (t, k) ≠ g.tk
      · rw [if_pos hc2]
        simp only [List.cons_append, List.append_nil, List.nil_append, List.pairwise_cons]
        exact ⟨fun e hm => by
          simp at hm
          rw [hnew, hm]; exact hc2, by simp⟩
      · rw [if_neg hc2]; simp

theorem sortPairs_perm (ps : List Entry) : (sortPairs ps).Perm ps :=
  List.perm_insertionSort entryLe ps

theorem sortPairs_pairwise_tkLt (ps : List Entry)
    (hne : List.Pairwise (fun a b => a.tk ≠ b.tk) ps) :
    List.Pairwise (fun a b => tkLt a.tk b.tk) (sortPairs ps) := by
  have hsorted : List.Pairwise entryLe (sortPairs ps) :=
    List.sorted_insertionSort entryLe ps
  have hne' : List.Pairwise (fun a b => a.tk ≠ b.tk) (sortPairs ps) :=
    ((sortPairs_perm ps).pairwise_iff (fun h => h.symm)).mpr hne
  exact (hsorted.and hne').imp fun h => entryLe_tkLt h.1 h.2

theorem build_sorted_one {ps : List Entry} {e0 : Entry}
    (hs : sortPairs ps = [e0]) :
    BinarytreeBuilder.build ps = some (.leaf e0 none) := by
  have hlen : ps.length = 1 := by
    rw [← (sortPairs_perm ps).length_eq, hs]
    rfl
  unfold BinarytreeBuilder.build
  rw [if_neg (by simp [List.isEmpty_iff]; intro hh; rw [hh] at hlen; simp at hlen)]
  rw [hs]
  simp [mkLeaves, combineLoop]

theorem build_sorted_two {ps : List Entry} {e0 e1 : Entry}
    (hs : sortPairs ps = [e0, e1]) (hne : e0.tk ≠ e1.tk) :
    BinarytreeBuilder.build ps = some (.leaf e0 (some e1)) := by
  have hlen : ps.length = 2 := by
    rw [← (sortPairs_perm ps).length_eq, hs]
    rfl
  unfold BinarytreeBuilder.build
  rw [if_neg (by simp [List.isEmpty_iff]; intro hh; rw [hh] at hlen; simp at hlen)]
  rw [hs]
  rw [mkLeaves]
  rw [dif_neg hne]
  simp [mkLeaves, combineLoop]

theorem build_sorted_three {ps : List Entry} {e0 e1 e2 : Entry}
    (hs : sortPairs ps = [e0, e1, e2]) (hne : e0.tk ≠ e1.tk) :
    BinarytreeBuilder.build ps =
      some (.internal (.leaf e0 (some e1)) e1.table e1.key (.leaf e2 none)) := by
  have hlen : ps.length = 3 := by
    rw [← (sortPairs_perm ps).length_eq, hs]
    rfl
  unfold BinarytreeBuilder.build
  rw [if_neg (by simp [List.isEmpty_iff]; intro hh; rw [hh] at hlen; simp at hlen)]
  rw [hs]
  rw [mkLeaves]
  rw [dif_neg hne]
  simp [mkLeaves, combineLoop, combineLevel, Node.get_max_key, Entry.tk]

/-- C3: single-key insert at a leaf.  `tree_insert` merges the new entry
with the existing 1–2 leaf entries, deduplicating on `(table_id, key)`
with the new value overwriting; writing the sorted merged set `es`: with
at most 2 entries the result is one fresh leaf carrying exactly `es`, and
with 3 entries it is two leaves — the left with `es`'s first two entries,
the right with the third — joined by a fresh internal node whose pivot is
the max key of the left leaf (`es`'s second entry). -/
theorem tree_insert_leaf_split (fuel : Nat) (s : PageStore) (p t : Nat)
    (k v : Bytes) (lesser : Entry) (greater : Option Entry)
    (hn : s.getNode p = some (.leaf lesser greater))
    (hwf : ∀ g, greater = some g → tkLt lesser.tk g.tk) :
    List.Pairwise (fun a b => tkLt a.tk b.tk)
        (sortPairs (insertLeafPairs t k v lesser greater)) ∧
      (sortPairs (insertLeafPairs t k v lesser greater)).Perm
        (insertLeafPairs t k v lesser greater) ∧
      1 ≤ (sortPairs (insertLeafPairs t k v lesser greater)).length ∧
      (sortPairs (insertLeafPairs t k v lesser greater)).length ≤ 3 ∧
      (∀ e0, sortPairs (insertLeafPairs t k v lesser greater) = [e0] →
        tree_insert (fuel + 1) s p t k v =
          some ((Node.leaf e0 none).to_bytes s)) ∧
      (∀ e0 e1, sortPairs (insertLeafPairs t k v lesser greater) = [e0, e1] →
        tree_insert (fuel + 1) s p t k v =
          some ((Node.leaf e0 (some e1)).to_bytes s)) ∧
      (∀ e0 e1 e2,
        sortPairs (insertLeafPairs t k v lesser greater) = [e0, e1, e2] →
        tree_insert (fuel + 1) s p t k v =
          some ((Node.internal (.leaf e0 (some e1)) e1.table e1.key
            (.leaf e2 none)).to_bytes s)) := by
  have hne := insertLeafPairs_pairwise_ne t k v lesser greater hwf
  have hpw := sortPairs_pairwise_tkLt _ hne
  have hperm := sortPairs_perm (insertLeafPairs t k v lesser greater)
  have hlen : 1 ≤ (sortPairs (insertLeafPairs t k v lesser greater)).length ∧
      (sortPairs (insertLeafPairs t k v lesser greater)).length ≤ 3 := by
    rw [hperm.length_eq]
    unfold insertLeafPairs
    constructor
    · simp
    · match greater with
      | none => by_cases hc1 : (t, k) ≠ lesser.tk <;> simp [hc1]
      | some g =>
        by_cases hc1 : (t, k) ≠ lesser.tk <;> by_cases hc2 : (t, k) ≠ g.tk <;>
          simp [hc1, hc2]
  refine ⟨hpw, hperm, hlen.1, hlen.2, ?_, ?_, ?_⟩
  · intro e0 hs
    rw [tree_insert, hn]; simp only []
    rw [build_sorted_one hs]
  · intro e0 e1 hs
    have hne01 : e0.tk ≠ e1.tk := by
      have := hpw
      rw [hs] at this
      exact tkLt_ne (by simpa using (List.pairwise_cons.mp this).1 e1 (by simp))
    rw [tree_insert, hn]; simp only []
    rw [build_sorted_two hs hne01]
  · intro e0 e1 e2 hs
    have hne01 : e0.tk ≠ e1.tk := by
      have := hpw
      rw [hs] at this
      exact tkLt_ne ((List.pairwise_cons.mp this).1 e1 (by simp))
    rw [tree_insert, hn]; simp only []
    rw [build_sorted_three hs hne01]

/-- C3 witness: inserting `(1, [1] ↦ [6])` into the one-entry leaf of the
one-leaf store yields a two-entry leaf. -/
theorem tree_insert_leaf_split_witness :
    tree_insert 1 leafStore 1 1 [1] [6] =
      some ((Node.leaf ⟨1, [0], [5]⟩ (some ⟨1, [1], [6]⟩)).to_bytes leafStore) :=
  ((tree_insert_leaf_split 0 leafStore 1 1 [1] [6] ⟨1, [0], [5]⟩ none rfl
      (fun g hg => Option.noConfusion hg)).2.2.2.2.2.1)
    ⟨1, [0], [5]⟩ ⟨1, [1], [6]⟩ (by decide)

end Radb

namespace Radb

end Radb

namespace Radb

theorem treeEntries_mono {f₁ f₂ : Nat} (hf : f₁ ≤ f₂) {s : PageStore}
    {root : Nat} {l : List Entry} (he : treeEntries f₁ s root = some l) :
    treeEntries f₂ s root = some l := by
  induction f₁ generalizing f₂ root l with
  | zero => exact absurd he (by simp [treeEntries])
  | succ f₁ ih =>
    obtain ⟨f₂', rfl⟩ : ∃ k, f₂ = k + 1 := ⟨f₂ - 1, by omega⟩
    have hf' : f₁ ≤ f₂' := by omega
    rw [treeEntries] at he ⊢
    match hn : s.getNode root with
    | none => rw [hn] at he; simp only [] at he; exact Option.noConfusion he
    | some (.leaf l0 g0) => rw [hn] at he; exact he
    | some (.internal t0 k0 lp gp) =>
      rw [hn] at he
      simp only [] at he
      simp only []
      cases hel : treeEntries f₁ s lp with
      | none => rw [hel] at he; simp only [] at he; exact Option.noConfusion he
      | some ls =>
        cases heg : treeEntries f₁ s gp with
        | none =>
          rw [hel, heg] at he; simp only [] at he; exact Option.noConfusion he
        | some gs =>
          rw [hel, heg] at he
          rw [ih hf' hel, ih hf' heg]
          exact he

theorem treeEntries_pairwise (fuel : Nat) (s : PageStore) (root : Nat)
    (l : List Entry) (hs : sortedTree fuel s root = true)
    (he : treeEntries fuel s root = some l) :
    List.Pairwise (fun a b => tkLt a.tk b.tk) l := by
  induction fuel generalizing root l with
  | zero => exact absurd he (by simp [treeEntries])
  | succ fuel ih =>
    rw [treeEntries] at he
    rw [sortedTree] at hs
    match hn : s.getNode root with
    | none => rw [hn] at he; simp only [] at he; exact Option.noConfusion he
    | some (.leaf l0 g0) =>
      rw [hn] at he hs; simp only [] at he hs
      have hl : l = l0 :: g0.toList := (Option.some.inj he).symm
      subst hl
      match g0 with
      | none => simp
      | some g =>
        simp only [] at hs
        simp only [Option.toList, List.pairwise_cons]
        exact ⟨fun e hm => by
          simp at hm
          rw [hm]
          exact of_decide_eq_true hs, by simp⟩
    | some (.internal t0 k0 lp gp) =>
      rw [hn] at he hs; simp only [] at he hs
      match hel : treeEntries fuel s lp, heg : treeEntries fuel s gp with
      | some ls, some gs =>
        rw [hel, heg] at he hs; simp only [] at he hs
        rw [Bool.and_eq_true, Bool.and_eq_true] at hs
        obtain ⟨⟨hsl, hsg⟩, hbd⟩ := hs
        obtain ⟨hlle, hggt⟩ := of_decide_eq_true hbd
        have hl : l = ls ++ gs := (Option.some.inj he).symm
        subst hl
        rw [List.pairwise_append]
        exact ⟨ih lp ls hsl hel, ih gp gs hsg heg,
          fun a ha b hb => tkLt_of_tkLe_of_tkLt (hlle a ha) (hggt b hb)⟩
      | some ls, none =>
        rw [hel, heg] at he; simp only [] at he; exact Option.noConfusion he
      | none, some gs =>
        rw [hel, heg] at he; simp only [] at he; exact Option.noConfusion he
      | none, none =>
        rw [hel, heg] at he; simp only [] at he; exact Option.noConfusion he

theorem leafAt_true {s : PageStore} {p : Nat} (h : leafAt s p = true) :
    ∃ a b, s.getNode p = some (.leaf a b) := by
  unfold leafAt at h
  match hn : s.getNode p with
  | some (.leaf a b) => exact ⟨a, b, rfl⟩
  | some (.internal _ _ _ _) => rw [hn] at h; exact absurd h (by simp)
  | none => rw [hn] at h; exact absurd h (by simp)

theorem internalAt_true {s : PageStore} {p : Nat} (h : internalAt s p = true) :
    ∃ t0 k0 lp gp, s.getNode p = some (.internal t0 k0 lp gp) := by
  unfold internalAt at h
  match hn : s.getNode p with
  | some (.leaf a b) => rw [hn] at h; exact absurd h (by simp)
  | some (.internal t0 k0 lp gp) => exact ⟨t0, k0, lp, gp, rfl⟩
  | none => rw [hn] at h; exact absurd h (by simp)

theorem leafAt_of {s : PageStore} {p : Nat} {a : Entry} {b : Option Entry}
    (hn : s.getNode p = some (.leaf a b)) : leafAt s p = true := by
  simp [leafAt, hn]

theorem internalAt_of {s : PageStore} {p : Nat} {t0 : Nat} {k0 : Bytes}
    {lp gp : Nat} (hn : s.getNode p = some (.internal t0 k0 lp gp)) :
    internalAt s p = true := by
  simp [internalAt, hn]

end Radb

namespace Radb

theorem treeEntries_some_getNode {f : Nat} {s : PageStore} {n : Nat}
    {l : List Entry} (he : treeEntries f s n = some l) :
    ∃ nd, s.getNode n = some nd := by
  match f with
  | 0 => exact absurd he (by simp [treeEntries])
  | f + 1 =>
    rw [treeEntries] at he
    match hn : s.getNode n with
    | some nd => exact ⟨nd, rfl⟩
    | none => rw [hn] at he; simp only [] at he; exact Option.noConfusion he

theorem treeEntries_at_leaf {f : Nat} {s : PageStore} {n : Nat} {l0 : Entry}
    {g0 : Option Entry} {l : List Entry}
    (hn : s.getNode n = some (.leaf l0 g0)) (he : treeEntries f s n = some l) :
    l = l0 :: g0.toList := by
  match f with
  | 0 => exact absurd he (by simp [treeEntries])
  | f + 1 =>
    rw [treeEntries, hn] at he
    exact (Option.some.inj he).symm

theorem treeEntries_at_internal {f : Nat} {s : PageStore} {n t0 : Nat}
    {k0 : Bytes} {lp gp : Nat} {l : List Entry}
    (hn : s.getNode n = some (.internal t0 k0 lp gp))
    (he : treeEntries f s n = some l) :
    ∃ ls gs, treeEntries f s lp = some ls ∧ treeEntries f s gp = some gs ∧
      l = ls ++ gs := by
  match f with
  | 0 => exact absurd he (by simp [treeEntries])
  | f + 1 =>
    rw [treeEntries, hn] at he
    simp only [] at he
    match hel : treeEntries f s lp, heg : treeEntries f s gp with
    | some ls, some gs =>
      rw [hel, heg] at he
      exact ⟨ls, gs, treeEntries_mono (Nat.le_succ f) hel,
        treeEntries_mono (Nat.le_succ f) heg, (Option.some.inj he).symm⟩
    | some ls, none =>
      rw [hel, heg] at he; simp only [] at he; exact Option.noConfusion he
    | none, some gs =>
      rw [hel, heg] at he; simp only [] at he; exact Option.noConfusion he
    | none, none =>
      rw [hel, heg] at he; simp only [] at he; exact Option.noConfusion he

theorem orbitF_sublist (s : PageStore) (f : Nat) :
    ∀ (fuel : Nat) (st : RangeIterState) (rem : List Entry),
      fwdOK s st = true → stRemF s f st = some rem →
      (orbit s fuel st).Sublist rem := by
  intro fuel
  induction fuel with
  | zero => intro st rem _ _; simp [orbit]
  | succ fuel ih =>
    intro st rem hok hrem
    match st with
    | .initialState n r =>
      have hr : r = false := by simpa [fwdOK] using hok
      subst hr
      rw [stRemF] at hrem
      obtain ⟨nd, hn⟩ := treeEntries_some_getNode hrem
      rw [orbit]
      simp only [RangeIterState.next, RangeIterState.rev, Bool.false_eq_true,
        if_false, RangeIterState.forward_next, hn]
      match nd with
      | .leaf l0 g0 =>
        have hl := treeEntries_at_leaf hn hrem
        subst hl
        simp only [RangeIterState.get_entry, hn]
        have hok' : fwdOK s (.leafLeft n none false) = true := by
          simp [fwdOK, parOKF, leafAt_of hn]
        have hrem' : stRemF s f (.leafLeft n none false) =
            some (g0.toList ++ []) := by
          rw [stRemF, hn]
          simp [parentRemF]
        have hsub := ih _ _ hok' hrem'
        rw [List.append_nil] at hsub
        exact List.Sublist.cons₂ l0 hsub
      | .internal t0 k0 lp gp =>
        obtain ⟨ls, gs, hel, heg, hl⟩ := treeEntries_at_internal hn hrem
        subst hl
        simp only [RangeIterState.get_entry]
        have hok' : fwdOK s (.internalLeft n none false) = true := by
          simp [fwdOK, parOKF, internalAt_of hn]
        have hrem' : stRemF s f (.internalLeft n none false) =
            some (ls ++ (gs ++ [])) := by
          rw [stRemF, hn]
          simp [parentRemF, hel, heg]
        have hsub := ih _ _ hok' hrem'
        rw [List.append_nil] at hsub
        simpa using hsub
    | .leafLeft p par r =>
      rw [fwdOK] at hok
      rw [Bool.and_eq_true, Bool.and_eq_true] at hok
      obtain ⟨⟨hr, hleaf⟩, hpar⟩ := hok
      have hr : r = false := by simpa using hr
      subst hr
      obtain ⟨l0, g0, hn⟩ := leafAt_true hleaf
      rw [stRemF, hn] at hrem
      simp only [] at hrem
      match hpe : parentRemF s f par with
      | none => rw [hpe] at hrem; simp only [] at hrem; exact Option.noConfusion hrem
      | some pe =>
        rw [hpe] at hrem; simp only [] at hrem
        have hl : rem = g0.toList ++ pe := (Option.some.inj hrem).symm
        subst hl
        rw [orbit]
        simp only [RangeIterState.next, RangeIterState.rev, Bool.false_eq_true,
          if_false, RangeIterState.forward_next]
        simp only [RangeIterState.get_entry, hn]
        have hok' : fwdOK s (.leafRight p par false) = true := by
          simp [fwdOK, leafAt_of hn, hpar]
        have hrem' : stRemF s f (.leafRight p par false) = some pe := by
          rw [stRemF]; exact hpe
        exact List.Sublist.append_left (ih _ _ hok' hrem') g0.toList
    | .leafRight p par r =>
      rw [fwdOK] at hok
      rw [Bool.and_eq_true, Bool.and_eq_true] at hok
      obtain ⟨⟨hr, hleaf⟩, hpar⟩ := hok
      have hr : r = false := by simpa using hr
      subst hr
      rw [stRemF] at hrem
      rw [orbit]
      simp only [RangeIterState.next, RangeIterState.rev, Bool.false_eq_true,
        if_false, RangeIterState.forward_next]
      match par with
      | none => simp
      | some q =>
        match q with
        | .initialState n2 r2 => exact absurd hpar (by simp [parOKF])
        | .leafLeft p2 par2 r2 => exact absurd hpar (by simp [parOKF])
        | .leafRight p2 par2 r2 => exact absurd hpar (by simp [parOKF])
        | .internalLeft p2 par2 r2 => exact absurd hpar (by simp [parOKF])
        | .internalRight p2 par2 r2 =>
          match r2 with
          | true => exact absurd hpar (by simp [parOKF])
          | false =>
            rw [parOKF] at hpar
            rw [Bool.and_eq_true] at hpar
            simp only [RangeIterState.get_entry]
            have hok' : fwdOK s (.internalRight p2 par2 false) = true := by
              simp [fwdOK, hpar.1, hpar.2]
            have hrem' : stRemF s f (.internalRight p2 par2 false) = some rem := by
              rw [parentRemF] at hrem; exact hrem
            simpa using ih _ _ hok' hrem'
    | .internalLeft p par r =>
      rw [fwdOK] at hok
      rw [Bool.and_eq_true, Bool.and_eq_true] at hok
      obtain ⟨⟨hr, hint⟩, hpar⟩ := hok
      have hr : r = false := by simpa using hr
      subst hr
      obtain ⟨t0, k0, lp, gp, hn⟩ := internalAt_true hint
      rw [stRemF, hn] at hrem
      simp only [] at hrem
      match hel : treeEntries f s lp, heg : treeEntries f s gp,
          hpe : parentRemF s f par with
      | some ls, some gs, some pe =>
        rw [hel, heg, hpe] at hrem; simp only [] at hrem
        have hl : rem = ls ++ (gs ++ pe) := (Option.some.inj hrem).symm
        subst hl
        obtain ⟨child, hcn⟩ := treeEntries_some_getNode hel
        rw [orbit]
        simp only [RangeIterState.next, RangeIterState.rev, Bool.false_eq_true,
          if_false, RangeIterState.forward_next, hn, hcn]
        match child, hcn with
        | .leaf l0 g0, hcn =>
          have hls := treeEntries_at_leaf hcn hel
          subst hls
          simp only [RangeIterState.get_entry, hcn]
          have hok' : fwdOK s
              (.leafLeft lp (some (.internalRight p par false)) false) = true := by
            simp [fwdOK, parOKF, leafAt_of hcn, internalAt_of hn, hpar]
          have hrem' : stRemF s f
              (.leafLeft lp (some (.internalRight p par false)) false) =
              some (g0.toList ++ (gs ++ pe)) := by
            rw [stRemF, hcn]
            simp only [parentRemF]
            rw [stRemF, hn]
            simp only [heg, hpe]
          have hsub := ih _ _ hok' hrem'
          rw [List.cons_append]
          exact List.Sublist.cons₂ l0 hsub
        | .internal t1 k1 lp1 gp1, hcn =>
          obtain ⟨ls1, gs1, hel1, heg1, hls⟩ := treeEntries_at_internal hcn hel
          subst hls
          simp only [RangeIterState.get_entry]
          have hok' : fwdOK s
              (.internalLeft lp (some (.internalRight p par false)) false) = true := by
            simp [fwdOK, parOKF, internalAt_of hcn, internalAt_of hn, hpar]
          have hrem' : stRemF s f
              (.internalLeft lp (some (.internalRight p par false)) false) =
              some (ls1 ++ (gs1 ++ (gs ++ pe))) := by
            rw [stRemF, hcn]
            simp only [hel1, heg1, parentRemF]
            rw [stRemF, hn]
            simp only [heg, hpe]
          have hsub := ih _ _ hok' hrem'
          rw [List.append_assoc]
          simpa using hsub
      | some ls, some gs, none =>
        rw [hel, heg, hpe] at hrem; simp only [] at hrem
        exact Option.noConfusion hrem
      | some ls, none, _ =>
        rw [hel, heg] at hrem; simp only [] at hrem
        exact Option.noConfusion hrem
      | none, _, _ =>
        rw [hel] at hrem; simp only [] at hrem
        exact Option.noConfusion hrem
    | .internalRight p par r =>
      rw [fwdOK] at hok
      rw [Bool.and_eq_true, Bool.and_eq_true] at hok
      obtain ⟨⟨hr, hint⟩, hpar⟩ := hok
      have hr : r = false := by simpa using hr
      subst hr
      obtain ⟨t0, k0, lp, gp, hn⟩ := internalAt_true hint
      rw [stRemF, hn] at hrem
      simp only [] at hrem
      match heg : treeEntries f s gp, hpe : parentRemF s f par with
      | some gs, some pe =>
        rw [heg, hpe] at hrem; simp only [] at hrem
        have hl : rem = gs ++ pe := (Option.some.inj hrem).symm
        subst hl
        obtain ⟨child, hcn⟩ := treeEntries_some_getNode heg
        rw [orbit]
        simp only [RangeIterState.next, RangeIterState.rev, Bool.false_eq_true,
          if_false, RangeIterState.forward_next, hn, hcn]
        match child, hcn with
        | .leaf l0 g0, hcn =>
          have hls := treeEntries_at_leaf hcn heg
          subst hls
          simp only [RangeIterState.get_entry, hcn]
          have hok' : fwdOK s (.leafLeft gp par false) = true := by
            simp [fwdOK, leafAt_of hcn, hpar]
          have hrem' : stRemF s f (.leafLeft gp par false) =
              some (g0.toList ++ pe) := by
            rw [stRemF, hcn]
            simp only [hpe]
          have hsub := ih _ _ hok' hrem'
          rw [List.cons_append]
          exact List.Sublist.cons₂ l0 hsub
        | .internal t1 k1 lp1 gp1, hcn =>
          obtain ⟨ls1, gs1, hel1, heg1, hls⟩ := treeEntries_at_internal hcn heg
          subst hls
          simp only [RangeIterState.get_entry]
          have hok' : fwdOK s (.internalLeft gp par false) = true := by
            simp [fwdOK, internalAt_of hcn, hpar]
          have hrem' : stRemF s f (.internalLeft gp par false) =
              some (ls1 ++ (gs1 ++ pe)) := by
            rw [stRemF, hcn]
            simp only [hel1, heg1, hpe]
          have hsub := ih _ _ hok' hrem'
          rw [List.append_assoc]
          simpa using hsub
      | some gs, none =>
        rw [heg, hpe] at hrem; simp only [] at hrem
        exact Option.noConfusion hrem
      | none, _ =>
        rw [heg] at hrem; simp only [] at hrem
        exact Option.noConfusion hrem

end Radb

namespace Radb

theorem iterRun_sublist (s : PageStore) (cfg : IterCfg) :
    ∀ (fuel : Nat) (st : RangeIterState),
      (iterRun s cfg fuel (some st)).Sublist (orbit s fuel st) := by
  intro fuel
  induction fuel with
  | zero => intro st; simp [iterRun, orbit]
  | succ fuel ih =>
    intro st
    rw [iterRun, orbit]
    match st.next s with
    | none => simp
    | some none => simp
    | some (some st') =>
      simp only []
      match st'.get_entry s with
      | none => simpa using ih st'
      | some e =>
        simp only [Option.toList]
        by_cases hc : cfg.table_id = e.table ∧ rangeContains cfg.query_range e.key
        · rw [if_pos hc]
          exact List.Sublist.cons₂ e (ih st')
        · rw [if_neg hc]
          split
          · split
            · split
              · exact List.nil_sublist _
              · exact (ih st').cons e
            · split
              · exact List.nil_sublist _
              · exact (ih st').cons e
            · exact (ih st').cons e
          · split
            · split
              · exact List.nil_sublist _
              · exact (ih st').cons e
            · split
              · exact List.nil_sublist _
              · exact (ih st').cons e
            · exact (ih st').cons e

theorem iterRun_mem (s : PageStore) (cfg : IterCfg) :
    ∀ (fuel : Nat) (ost : Option RangeIterState) (e : Entry),
      e ∈ iterRun s cfg fuel ost →
      cfg.table_id = e.table ∧ rangeContains cfg.query_range e.key = true := by
  intro fuel
  induction fuel with
  | zero => intro ost e hm; simp [iterRun] at hm
  | succ fuel ih =>
    intro ost e hm
    match ost with
    | none => simp [iterRun] at hm
    | some st =>
      rw [iterRun] at hm
      match hnx : st.next s with
      | none => rw [hnx] at hm; simp at hm
      | some none => rw [hnx] at hm; simp at hm
      | some (some st') =>
        rw [hnx] at hm
        simp only [] at hm
        match hge : st'.get_entry s with
        | none => rw [hge] at hm; simp only [] at hm; exact ih _ e hm
        | some e0 =>
          rw [hge] at hm
          simp only [] at hm
          by_cases hc : cfg.table_id = e0.table ∧ rangeContains cfg.query_range e0.key
          · rw [if_pos hc] at hm
            rcases List.mem_cons.mp hm with he | hm'
            · subst he; exact ⟨hc.1, hc.2⟩
            · exact ih _ e hm'
          · rw [if_neg hc] at hm
            split at hm
            · split at hm
              · split at hm
                · simp at hm
                · exact ih _ e hm
              · split at hm
                · simp at hm
                · exact ih _ e hm
              · exact ih _ e hm
            · split at hm
              · split at hm
                · simp at hm
                · exact ih _ e hm
              · split at hm
                · simp at hm
                · exact ih _ e hm
              · exact ih _ e hm

end Radb

namespace Radb

theorem optToList_reverse (g : Option Entry) : g.toList.reverse = g.toList := by
  cases g <;> rfl

theorem orbitB_sublist (s : PageStore) (f : Nat) :
    ∀ (fuel : Nat) (st : RangeIterState) (rem : List Entry),
      bwdOK s st = true → stRemB s f st = some rem →
      (orbit s fuel st).Sublist rem := by
  intro fuel
  induction fuel with
  | zero => intro st rem _ _; simp [orbit]
  | succ fuel ih =>
    intro st rem hok hrem
    match st with
    | .initialState n r =>
      have hr : r = true := by simpa [bwdOK] using hok
      subst hr
      rw [stRemB] at hrem
      match he : treeEntries f s n with
      | none => rw [he] at hrem; simp only [] at hrem; exact Option.noConfusion hrem
      | some l =>
        rw [he] at hrem; simp only [] at hrem
        have hl : rem = l.reverse := (Option.some.inj hrem).symm
        subst hl
        obtain ⟨nd, hn⟩ := treeEntries_some_getNode he
        rw [orbit]
        simp only [RangeIterState.next, RangeIterState.rev, if_true,
          RangeIterState.backward_next, hn]
        match nd with
        | .leaf l0 g0 =>
          have hle := treeEntries_at_leaf hn he
          subst hle
          simp only [RangeIterState.get_entry, hn]
          have hok' : bwdOK s (.leafRight n none true) = true := by
            simp [bwdOK, parOKB, leafAt_of hn]
          have hrem' : stRemB s f (.leafRight n none true) = some (l0 :: []) := by
            rw [stRemB, hn]
            simp [parentRemB]
          have hsub := ih _ _ hok' hrem'
          rw [List.reverse_cons, optToList_reverse g0]
          exact List.Sublist.append_left hsub g0.toList
        | .internal t0 k0 lp gp =>
          obtain ⟨ls, gs, hel, heg, hle⟩ := treeEntries_at_internal hn he
          subst hle
          simp only [RangeIterState.get_entry]
          have hok' : bwdOK s (.internalRight n none true) = true := by
            simp [bwdOK, parOKB, internalAt_of hn]
          have hrem' : stRemB s f (.internalRight n none true) =
              some (gs.reverse ++ (ls.reverse ++ [])) := by
            rw [stRemB, hn]
            simp [parentRemB, hel, heg]
          have hsub := ih _ _ hok' hrem'
          rw [List.append_nil] at hsub
          rw [List.reverse_append]
          simpa using hsub
    | .leafRight p par r =>
      rw [bwdOK] at hok
      rw [Bool.and_eq_true, Bool.and_eq_true] at hok
      obtain ⟨⟨hr, hleaf⟩, hpar⟩ := hok
      subst hr
      obtain ⟨l0, g0, hn⟩ := leafAt_true hleaf
      rw [stRemB, hn] at hrem
      simp only [] at hrem
      match hpe : parentRemB s f par with
      | none => rw [hpe] at hrem; simp only [] at hrem; exact Option.noConfusion hrem
      | some pe =>
        rw [hpe] at hrem; simp only [] at hrem
        have hl : rem = l0 :: pe := (Option.some.inj hrem).symm
        subst hl
        rw [orbit]
        simp only [RangeIterState.next, RangeIterState.rev, if_true,
          RangeIterState.backward_next]
        simp only [RangeIterState.get_entry, hn]
        have hok' : bwdOK s (.leafLeft p par true) = true := by
          simp [bwdOK, leafAt_of hn, hpar]
        have hrem' : stRemB s f (.leafLeft p par true) = some pe := by
          rw [stRemB]; exact hpe
        exact List.Sublist.cons₂ l0 (ih _ _ hok' hrem')
    | .leafLeft p par r =>
      rw [bwdOK] at hok
      rw [Bool.and_eq_true, Bool.and_eq_true] at hok
      obtain ⟨⟨hr, hleaf⟩, hpar⟩ := hok
      subst hr
      rw [stRemB] at hrem
      rw [orbit]
      simp only [RangeIterState.next, RangeIterState.rev, if_true,
        RangeIterState.backward_next]
      match par with
      | none => simp
      | some q =>
        match q with
        | .initialState n2 r2 => exact absurd hpar (by simp [parOKB])
        | .leafLeft p2 par2 r2 => exact absurd hpar (by simp [parOKB])
        | .leafRight p2 par2 r2 => exact absurd hpar (by simp [parOKB])
        | .internalRight p2 par2 r2 => exact absurd hpar (by simp [parOKB])
        | .internalLeft p2 par2 r2 =>
          match r2 with
          | false => exact absurd hpar (by simp [parOKB])
          | true =>
            rw [parOKB] at hpar
            rw [Bool.and_eq_true] at hpar
            simp only [RangeIterState.get_entry]
            have hok' : bwdOK s (.internalLeft p2 par2 true) = true := by
              simp [bwdOK, hpar.1, hpar.2]
            have hrem' : stRemB s f (.internalLeft p2 par2 true) = some rem := by
              rw [parentRemB] at hrem; exact hrem
            simpa using ih _ _ hok' hrem'
    | .internalRight p par r =>
      rw [bwdOK] at hok
      rw [Bool.and_eq_true, Bool.and_eq_true] at hok
      obtain ⟨⟨hr, hint⟩, hpar⟩ := hok
      subst hr
      obtain ⟨t0, k0, lp, gp, hn⟩ := internalAt_true hint
      rw [stRemB, hn] at hrem
      simp only [] at hrem
      match hel : treeEntries f s lp, heg : treeEntries f s gp,
          hpe : parentRemB s f par with
      | some ls, some gs, some pe =>
        rw [hel, heg, hpe] at hrem; simp only [] at hrem
        have hl : rem = gs.reverse ++ (ls.reverse ++ pe) :=
          (Option.some.inj hrem).symm
        subst hl
        obtain ⟨child, hcn⟩ := treeEntries_some_getNode heg
        rw [orbit]
        simp only [RangeIterState.next, RangeIterState.rev, if_true,
          RangeIterState.backward_next, hn, hcn]
        match child, hcn with
        | .leaf l0 g0, hcn =>
          have hgs := treeEntries_at_leaf hcn heg
          subst hgs
          simp only [RangeIterState.get_entry, hcn]
          have hok' : bwdOK s
              (.leafRight gp (some (.internalLeft p par true)) true) = true := by
            simp [bwdOK, parOKB, leafAt_of hcn, internalAt_of hn, hpar]
          have hrem' : stRemB s f
              (.leafRight gp (some (.internalLeft p par true)) true) =
              some (l0 :: (ls.reverse ++ pe)) := by
            rw [stRemB, hcn]
            simp only [parentRemB]
            rw [stRemB, hn]
            simp only [hel, hpe]
          have hsub := ih _ _ hok' hrem'
          rw [List.reverse_cons, optToList_reverse g0, List.append_assoc]
          exact List.Sublist.append_left hsub g0.toList
        | .internal t1 k1 lp1 gp1, hcn =>
          obtain ⟨ls1, gs1, hel1, heg1, hgs⟩ := treeEntries_at_internal hcn heg
          subst hgs
          simp only [RangeIterState.get_entry]
          have hok' : bwdOK s
              (.internalRight gp (some (.internalLeft p par true)) true) = true := by
            simp [bwdOK, parOKB, internalAt_of hcn, internalAt_of hn, hpar]
          have hrem' : stRemB s f
              (.internalRight gp (some (.internalLeft p par true)) true) =
              some (gs1.reverse ++ (ls1.reverse ++ (ls.reverse ++ pe))) := by
            rw [stRemB, hcn]
            simp only [hel1, heg1, parentRemB]
            rw [stRemB, hn]
            simp only [hel, hpe]
          have hsub := ih _ _ hok' hrem'
          rw [List.reverse_append, List.append_assoc]
          simpa using hsub
      | some ls, some gs, none =>
        rw [hel, heg, hpe] at hrem; simp only [] at hrem
        exact Option.noConfusion hrem
      | some ls, none, _ =>
        rw [hel, heg] at hrem; simp only [] at hrem
        exact Option.noConfusion hrem
      | none, _, _ =>
        rw [hel] at hrem; simp only [] at hrem
        exact Option.noConfusion hrem
    | .internalLeft p par r =>
      rw [bwdOK] at hok
      rw [Bool.and_eq_true, Bool.and_eq_true] at hok
      obtain ⟨⟨hr, hint⟩, hpar⟩ := hok
      subst hr
      obtain ⟨t0, k0, lp, gp, hn⟩ := internalAt_true hint
      rw [stRemB, hn] at hrem
      simp only [] at hrem
      match hel : treeEntries f s lp, hpe : parentRemB s f par with
      | some ls, some pe =>
        rw [hel, hpe] at hrem; simp only [] at hrem
        have hl : rem = ls.reverse ++ pe := (Option.some.inj hrem).symm
        subst hl
        obtain ⟨child, hcn⟩ := treeEntries_some_getNode hel
        rw [orbit]
        simp only [RangeIterState.next, RangeIterState.rev, if_true,
          RangeIterState.backward_next, hn, hcn]
        match child, hcn with
        | .leaf l0 g0, hcn =>
          have hls := treeEntries_at_leaf hcn hel
          subst hls
          simp only [RangeIterState.get_entry, hcn]
          have hok' : bwdOK s (.leafRight lp par true) = true := by
            simp [bwdOK, leafAt_of hcn, hpar]
          have hrem' : stRemB s f (.leafRight lp par true) =
              some (l0 :: pe) := by
            rw [stRemB, hcn]
            simp only [hpe]
          have hsub := ih _ _ hok' hrem'
          rw [List.reverse_cons, optToList_reverse g0, List.append_assoc]
          exact List.Sublist.append_left hsub g0.toList
        | .internal t1 k1 lp1 gp1, hcn =>
          obtain ⟨ls1, gs1, hel1, heg1, hls⟩ := treeEntries_at_internal hcn hel
          subst hls
          simp only [RangeIterState.get_entry]
          have hok' : bwdOK s (.internalRight lp par true) = true := by
            simp [bwdOK, internalAt_of hcn, hpar]
          have hrem' : stRemB s f (.internalRight lp par true) =
              some (gs1.reverse ++ (ls1.reverse ++ pe)) := by
            rw [stRemB, hcn]
            simp only [hel1, heg1, hpe]
          have hsub := ih _ _ hok' hrem'
          rw [List.reverse_append, List.append_assoc]
          simpa using hsub
      | some ls, none =>
        rw [hel, hpe] at hrem; simp only [] at hrem
        exact Option.noConfusion hrem
      | none, _ =>
        rw [hel] at hrem; simp only [] at hrem
        exact Option.noConfusion hrem

end Radb

namespace Radb

/-- C5: range iteration order.  Against any page tree satisfying the
ordering invariants, repeatedly calling `next()` on a forward
`BinarytreeRangeIter` yields entries with strictly increasing
`(table_id, key)` (hence no duplicates), all carrying the iterator's
table id and keys inside the query range; a reversed iterator yields them
strictly decreasing. -/
theorem range_iter_ordered (f : Nat) (s : PageStore) (root : Nat)
    (l : List Entry) (tid : Nat) (qr : QueryRange)
    (hs : sortedTree f s root = true) (he : treeEntries f s root = some l) :
    ∀ fuel : Nat,
      (List.Pairwise (fun a b => tkLt a.tk b.tk)
          (iterRun s ⟨tid, qr, false⟩ fuel (some (.initialState root false))) ∧
        ∀ e ∈ iterRun s ⟨tid, qr, false⟩ fuel (some (.initialState root false)),
          tid = e.table ∧ rangeContains qr e.key = true) ∧
      (List.Pairwise (fun a b => tkLt b.tk a.tk)
          (iterRun s ⟨tid, qr, true⟩ fuel (some (.initialState root true))) ∧
        ∀ e ∈ iterRun s ⟨tid, qr, true⟩ fuel (some (.initialState root true)),
          tid = e.table ∧ rangeContains qr e.key = true) := by
  intro fuel
  have hpw := treeEntries_pairwise f s root l hs he
  refine ⟨⟨?_, ?_⟩, ⟨?_, ?_⟩⟩
  · have h1 := iterRun_sublist s ⟨tid, qr, false⟩ fuel (.initialState root false)
    have h2 := orbitF_sublist s f fuel (.initialState root false) l
      (by simp [fwdOK]) (by rw [stRemF]; exact he)
    exact List.Pairwise.sublist (h1.trans h2) hpw
  · intro e hm
    exact iterRun_mem s _ fuel _ e hm
  · have h1 := iterRun_sublist s ⟨tid, qr, true⟩ fuel (.initialState root true)
    have h2 := orbitB_sublist s f fuel (.initialState root true) l.reverse
      (by simp [bwdOK]) (by rw [stRemB, he])
    have hpw' : List.Pairwise (fun a b => tkLt b.tk a.tk) l.reverse :=
      List.pairwise_reverse.mpr hpw
    exact List.Pairwise.sublist (h1.trans h2) hpw'
  · intro e hm
    exact iterRun_mem s _ fuel _ e hm

/-- C5 witness: the forward and reversed unbounded iterations over the
two-entry leaf store are strictly ordered and stay within the table. -/
theorem range_iter_ordered_witness :
    (List.Pairwise (fun a b => tkLt a.tk b.tk)
        (iterRun leafStore2 ⟨1, ⟨RBound.unbounded, RBound.unbounded⟩, false⟩ 10
          (some (.initialState 1 false))) ∧
      ∀ e ∈ iterRun leafStore2 ⟨1, ⟨RBound.unbounded, RBound.unbounded⟩, false⟩ 10
          (some (.initialState 1 false)),
        1 = e.table ∧
          rangeContains ⟨RBound.unbounded, RBound.unbounded⟩ e.key = true) ∧
    (List.Pairwise (fun a b => tkLt b.tk a.tk)
        (iterRun leafStore2 ⟨1, ⟨RBound.unbounded, RBound.unbounded⟩, true⟩ 10
          (some (.initialState 1 true))) ∧
      ∀ e ∈ iterRun leafStore2 ⟨1, ⟨RBound.unbounded, RBound.unbounded⟩, true⟩ 10
          (some (.initialState 1 true)),
        1 = e.table ∧
          rangeContains ⟨RBound.unbounded, RBound.unbounded⟩ e.key = true) :=
  range_iter_ordered 1 leafStore2 1 [⟨1, [0], [5]⟩, ⟨1, [1], [6]⟩] 1
    ⟨RBound.unbounded, RBound.unbounded⟩ (by decide) rfl 10

end Radb

namespace BTreeModel

variable {K V : Type}

end BTreeModel

namespace BTreeModel

variable {K V : Type}

end BTreeModel

namespace BTreeModel

variable {K V : Type}

theorem list_set_self {α : Type} {l : List α} {i : Nat} {a : α}
    (h : l[i]? = some a) : l.set i a = l := by
  induction l generalizing i with
  | nil => simp at h
  | cons x xs ih =>
    match i with
    | 0 => simp at h; simp [h]
    | i + 1 =>
      simp at h
      simp [List.set_cons_succ, ih h]

theorem insertNonFull_existing_noop [LinearOrder K] :
    ∀ (fuel : Nat) (n : BNode K V) (k : K) (v : V),
      noSplitPath fuel n k = true → insertNonFull fuel n k v = some n := by
  intro fuel
  induction fuel with
  | zero => intro n k v hp; simp [noSplitPath] at hp
  | succ fuel ih =>
    intro n k v hp
    match n with
    | .mk ks vs cs =>
      rw [noSplitPath] at hp
      rw [insertNonFull]
      match hb : binSearch ks k with
      | .found i => rfl
      | .notFound i =>
        rw [hb] at hp
        simp only [] at hp
        by_cases hemp : cs.isEmpty
        · rw [if_pos hemp] at hp; exact absurd hp (by simp)
        · rw [if_neg hemp] at hp
          simp only []
          rw [if_neg hemp]
          match hc : cs[i]? with
          | none => rw [hc] at hp; exact absurd hp (by simp)
          | some c =>
            rw [hc] at hp
            rw [Bool.and_eq_true] at hp
            have hnf : c.is_full = false := by
              have h1 := hp.1
              simp at h1
              exact h1
            simp only []
            rw [hnf]
            simp only [Bool.false_eq_true, if_false]
            rw [ih c k v hp.2]
            simp only []
            rw [list_set_self hc]

/-- C10 counterexample: a fresh tree filled with keys 1–5 has a full
root `[1,2,3,4,5]` binding 1 ↦ 10; inserting `(1, 99)` splits the root
(the new root holds only the promoted median 3), so the tree is not left
unchanged, although the stored value for 1 remains 10 (no overwrite). -/
theorem btree_insert_existing_restructures :
    ((runInserts 10 BTree.new
        [(1, 10), (2, 20), (3, 30), (4, 40), (5, 50)]).map
      (fun t => t.root.map BNode.keys)) = some (some [1, 2, 3, 4, 5]) ∧
    ((runInserts 10 BTree.new
        [(1, 10), (2, 20), (3, 30), (4, 40), (5, 50)]).bind
      (fun t => BTree.search 10 t 1)) = some (some 10) ∧
    (((runInserts 10 BTree.new
        [(1, 10), (2, 20), (3, 30), (4, 40), (5, 50)]).bind
      (fun t => BTree.insert 10 t 1 99)).map
        (fun t => t.root.map BNode.keys)) = some (some [3]) ∧
    (((runInserts 10 BTree.new
        [(1, 10), (2, 20), (3, 30), (4, 40), (5, 50)]).bind
      (fun t => BTree.insert 10 t 1 99)).bind
        (fun t => BTree.search 10 t 1)) = some (some 10) := by
  decide

/-- C10 (amended): inserting an existing key never overwrites its value,
and the tree is wholly unchanged provided the descent reaches the key
without meeting a full node: if the root is not full and no full child
occurs on the search path before `k` is found, `insert(k, v₂)` is the
identity.  (When a full node lies on the path — e.g. a full root — the
preparatory split restructures the tree, as the counterexample shows,
though no stored value is overwritten there either.) -/
theorem btree_insert_existing_noop [LinearOrder K] (fuel : Nat)
    (r : BNode K V) (k : K) (v : V) (hfull : r.is_full = false)
    (hpath : noSplitPath fuel r k = true) :
    BTree.insert fuel (⟨some r⟩ : BTree K V) k v = some ⟨some r⟩ := by
  rw [BTree.insert]
  simp only [hfull, Bool.false_eq_true, if_false]
  rw [insertNonFull_existing_noop fuel r k v hpath]

/-- C10 witness: re-inserting key 2 into the three-key root `[1,2,3]`
leaves the tree untouched. -/
theorem btree_insert_existing_noop_witness :
    BTree.insert 5 (⟨some (.mk [1, 2, 3] [10, 20, 30] [])⟩ : BTree Nat Nat)
        2 99 =
      some ⟨some (.mk [1, 2, 3] [10, 20, 30] [])⟩ :=
  btree_insert_existing_noop 5 (.mk [1, 2, 3] [10, 20, 30] []) 2 99
    (by decide) (by decide)

end BTreeModel

namespace BTreeModel

variable {K V : Type}

/-- Rust `binary_search` scan: characterization of the `go` helper. -/
theorem binSearch_go_spec [LinearOrder K] (k : K) :
    ∀ (xs : List K) (i : Nat),
      (match binSearch.go k i xs with
       | .found j => ∃ j', j = i + j' ∧ xs[j']? = some k
       | .notFound j => ∃ j', j = i + j' ∧ j' ≤ xs.length ∧
           (∀ x ∈ xs.take j', x < k) ∧
           (∀ x, (xs.drop j').head? = some x → ¬ x < k ∧ x ≠ k)) := by
  intro xs
  induction xs with
  | nil =>
    intro i
    simp [binSearch.go]
  | cons x xs ih =>
    intro i
    rw [binSearch.go]
    by_cases hlt : x < k
    · rw [if_pos hlt]
      have h := ih (i + 1)
      match hgo : binSearch.go k (i + 1) xs with
      | .found j =>
        rw [hgo] at h
        obtain ⟨j', hj, hx⟩ := h
        exact ⟨j' + 1, by omega, by simpa using hx⟩
      | .notFound j =>
        rw [hgo] at h
        obtain ⟨j', hj, hle, htk, hdr⟩ := h
        refine ⟨j' + 1, by omega, by simp; omega, ?_, ?_⟩
        · intro y hy
          rw [List.take_succ_cons] at hy
          rcases List.mem_cons.mp hy with hy | hy
          · exact hy ▸ hlt
          · exact htk y hy
        · intro y hy
          rw [List.drop_succ_cons] at hy
          exact hdr y hy
    · rw [if_neg hlt]
      by_cases heq : x = k
      · rw [if_pos heq]
        exact ⟨0, by omega, by simp [heq]⟩
      · rw [if_neg heq]
        refine ⟨0, by omega, by simp, by simp, ?_⟩
        intro y hy
        rw [List.drop_zero, List.head?_cons, Option.some_inj] at hy
        exact hy ▸ ⟨hlt, heq⟩

/-- `binary_search` on a sorted slice: `found` is a true hit, `notFound`
is the insertion point separating the keys strictly below from those
strictly above. -/
theorem binSearch_spec [LinearOrder K] (k : K) (ks : List K)
    (hs : List.Pairwise (· < ·) ks) :
    (match binSearch ks k with
     | .found i => ks[i]? = some k
     | .notFound i => i ≤ ks.length ∧
         (∀ x ∈ ks.take i, x < k) ∧ (∀ x ∈ ks.drop i, k < x)) := by
  have h := binSearch_go_spec k ks 0
  rw [binSearch]
  match hgo : binSearch.go k 0 ks with
  | .found j =>
    rw [hgo] at h
    obtain ⟨j', hj, hx⟩ := h
    simpa [hj] using hx
  | .notFound j =>
    rw [hgo] at h
    obtain ⟨j', hj, hle, htk, hdr⟩ := h
    subst hj
    simp only [Nat.zero_add]
    refine ⟨hle, htk, ?_⟩
    have hpw : List.Pairwise (· < ·) (ks.drop j') :=
      hs.sublist (List.drop_sublist j' ks)
    intro y hy
    match hhd : (ks.drop j').head? with
    | none => rw [List.head?_eq_none_iff] at hhd; rw [hhd] at hy; simp at hy
    | some x =>
      obtain ⟨hnlt, hne⟩ := hdr x hhd
      have hkx : k < x := lt_of_le_of_ne (not_lt.mp hnlt) (Ne.symm hne)
      obtain ⟨t, ht⟩ := List.head?_eq_some_iff.mp hhd
      rw [ht] at hy hpw
      rcases List.mem_cons.mp hy with hy | hy
      · exact hy ▸ hkx
      · exact hkx.trans ((List.pairwise_cons.mp hpw).1 y hy)

end BTreeModel

namespace BTreeModel

variable {K V : Type}

theorem nodeList_leaf (ks : List K) (vs : List V) :
    nodeList (.mk ks vs []) = ks.zip vs := by
  rw [nodeList]

theorem nodeList_nil_keys (vs : List V) (c : BNode K V) (cs' : List (BNode K V)) :
    nodeList (.mk [] vs (c :: cs')) = nodeList c := by
  rw [nodeList]

theorem nodeList_cons_spine (k : K) (v : V) (ks' : List K) (vs' : List V)
    (c : BNode K V) (cs' : List (BNode K V)) :
    nodeList (.mk (k :: ks') (v :: vs') (c :: cs')) =
      nodeList c ++ (k, v) :: nodeList (.mk ks' vs' cs') := by
  rw [nodeList]

theorem loopWF_lengths [LinearOrder K] {h : Nat} {hi : Option K} :
    ∀ {ks : List K} {vs : List V} {cs : List (BNode K V)} {lo : Option K},
      LoopWF h lo hi ks vs cs → vs.length = ks.length ∧ cs.length = ks.length + 1 := by
  intro ks
  induction ks with
  | nil =>
    intro vs cs lo hl
    cases hl
    simp
  | cons k ks ih =>
    intro vs cs lo hl
    cases hl with
    | cons hc hrest =>
      have h2 := ih hrest
      simp [h2.1, h2.2]

theorem wf_node_inv [LinearOrder K] {h : Nat} {lo hi : Option K} {minK : Nat}
    {ks : List K} {vs : List V} {cs : List (BNode K V)}
    (hw : WF (h + 1) lo hi minK (.mk ks vs cs)) :
    vs.length = ks.length ∧ minK ≤ ks.length ∧ ks.length ≤ 2 * B - 1 ∧
      boundedChain lo hi ks ∧ LoopWF h lo hi ks vs cs := by
  cases hw with
  | node h1 h2 h3 h4 h5 => exact ⟨h1, h2, h3, h4, h5⟩

theorem wf_leaf_inv [LinearOrder K] {lo hi : Option K} {minK : Nat}
    {ks : List K} {vs : List V} {cs : List (BNode K V)}
    (hw : WF 0 lo hi minK (.mk ks vs cs)) :
    cs = [] ∧ vs.length = ks.length ∧ minK ≤ ks.length ∧ ks.length ≤ 2 * B - 1 ∧
      boundedChain lo hi ks := by
  cases hw with
  | leaf h1 h2 h3 h4 => exact ⟨rfl, h1, h2, h3, h4⟩

theorem ltLo_some [LT K] {a x : K} : ltLo (some a) x ↔ a < x := by
  constructor
  · intro h
    exact h a rfl
  · intro h b hb
    injection hb with hb
    exact hb ▸ h

theorem ltHi_some [LT K] {b x : K} : ltHi (some b) x ↔ x < b := by
  constructor
  · intro h
    exact h b rfl
  · intro h a ha
    injection ha with ha
    exact ha ▸ h

theorem ltLo_none [LT K] {x : K} : ltLo (none : Option K) x := by
  intro a ha
  exact absurd ha (by simp)

theorem ltHi_none [LT K] {x : K} : ltHi (none : Option K) x := by
  intro a ha
  exact absurd ha (by simp)

theorem boundedChain_peel [LinearOrder K] {lo hi : Option K} {k : K} {ks : List K}
    (h : boundedChain lo hi (k :: ks)) :
    boundedChain (some k) hi ks ∧ ltLo lo k ∧ ltHi hi k := by
  obtain ⟨hpw, hb⟩ := h
  rw [List.pairwise_cons] at hpw
  refine ⟨⟨hpw.2, ?_⟩, (hb k (by simp)).1, (hb k (by simp)).2⟩
  intro x hx
  exact ⟨ltLo_some.mpr (hpw.1 x hx), (hb x (by simp [hx])).2⟩

theorem pairwise_zip [LinearOrder K] {ks : List K} :
    ∀ {vs : List V}, List.Pairwise (· < ·) ks →
      List.Pairwise (fun p q : K × V => p.1 < q.1) (ks.zip vs) := by
  induction ks with
  | nil => intro vs _; simp
  | cons k ks ih =>
    intro vs hpw
    match vs with
    | [] => simp
    | v :: vs =>
      rw [List.pairwise_cons] at hpw
      rw [List.zip_cons_cons, List.pairwise_cons]
      refine ⟨?_, ih hpw.2⟩
      intro q hq
      exact hpw.1 q.1 (List.of_mem_zip hq).1

theorem spine_bounds_of [LinearOrder K] {h : Nat}
    (wfb : ∀ (n : BNode K V) (lo hi : Option K) (minK : Nat),
      WF h lo hi minK n → entriesOK lo hi (nodeList n)) :
    ∀ (ks : List K) (vs : List V) (cs : List (BNode K V)) (lo hi : Option K),
      LoopWF h lo hi ks vs cs → boundedChain lo hi ks →
      entriesOK lo hi (nodeList (.mk ks vs cs)) := by
  intro ks
  induction ks with
  | nil =>
    intro vs cs lo hi hl hbc
    cases hl with
    | last hc =>
      rw [nodeList_nil_keys]
      exact wfb _ _ _ _ hc
  | cons k ks' ihk =>
    intro vs cs lo hi hl hbc
    cases hl with
    | cons hc hrest =>
      obtain ⟨hbc', hlok, hhik⟩ := boundedChain_peel hbc
      obtain ⟨bndC, pwC⟩ := wfb _ _ _ _ hc
      obtain ⟨bndR, pwR⟩ := ihk _ _ _ _ hrest hbc'
      rw [nodeList_cons_spine]
      constructor
      · intro p hp
        rcases List.mem_append.mp hp with hp | hp
        · have hk : p.1 < k := ltHi_some.mp (bndC p hp).2
          exact ⟨(bndC p hp).1, fun b hb => (hk.trans (hhik b hb))⟩
        · rcases List.mem_cons.mp hp with hp | hp
          · rw [hp]
            exact ⟨hlok, hhik⟩
          · have hk : k < p.1 := ltLo_some.mp (bndR p hp).1
            exact ⟨fun a ha => (hlok a ha).trans hk, (bndR p hp).2⟩
      · rw [List.pairwise_append]
        refine ⟨pwC, ?_, ?_⟩
        · rw [List.pairwise_cons]
          refine ⟨?_, pwR⟩
          intro q hq
          exact ltLo_some.mp (bndR q hq).1
        · intro p hp q hq
          have hpk : p.1 < k := ltHi_some.mp (bndC p hp).2
          rcases List.mem_cons.mp hq with hq | hq
          · rw [hq]
            exact hpk
          · exact hpk.trans (ltLo_some.mp (bndR q hq).1)

/-- Bounds and strict sortedness of the in-order list of a well-formed
node. -/
theorem wf_bounds [LinearOrder K] :
    ∀ (h : Nat) (n : BNode K V) (lo hi : Option K) (minK : Nat),
      WF h lo hi minK n → entriesOK lo hi (nodeList n) := by
  intro h
  induction h with
  | zero =>
    intro n lo hi minK hw
    match n with
    | .mk ks vs cs =>
      obtain ⟨hcs, hvl, _, _, hbc⟩ := wf_leaf_inv hw
      subst hcs
      rw [nodeList_leaf]
      constructor
      · intro p hp
        exact hbc.2 p.1 (List.of_mem_zip hp).1
      · exact pairwise_zip hbc.1
  | succ h ih =>
    intro n lo hi minK hw
    match n with
    | .mk ks vs cs =>
      obtain ⟨hvl, hmin, hmax, hbc, hl⟩ := wf_node_inv hw
      exact spine_bounds_of (fun n lo hi minK hw => ih n lo hi minK hw) ks vs cs lo hi hl hbc

theorem spine_bounds [LinearOrder K] {h : Nat} {lo hi : Option K} {ks : List K}
    {vs : List V} {cs : List (BNode K V)}
    (hl : LoopWF h lo hi ks vs cs) (hbc : boundedChain lo hi ks) :
    entriesOK lo hi (nodeList (.mk ks vs cs)) :=
  spine_bounds_of (fun n lo hi minK hw => wf_bounds h n lo hi minK hw) ks vs cs lo hi hl hbc

end BTreeModel

namespace BTreeModel

variable {K V : Type}

theorem find?_keys_ne [LinearOrder K] {l : List (K × V)} {k : K}
    (h : ∀ p ∈ l, p.1 ≠ k) : l.find? (fun p => p.1 = k) = none := by
  rw [List.find?_eq_none]
  intro p hp
  simp [h p hp]

theorem listFind_keys_ne [LinearOrder K] {l : List (K × V)} {k : K}
    (h : ∀ p ∈ l, p.1 ≠ k) : listFind l k = none := by
  simp only [listFind, find?_keys_ne h, Option.map_none']

theorem listFind_append_left_ne [LinearOrder K] {l₁ l₂ : List (K × V)} {k : K}
    (h : ∀ p ∈ l₁, p.1 ≠ k) : listFind (l₁ ++ l₂) k = listFind l₂ k := by
  simp only [listFind, List.find?_append, find?_keys_ne h, Option.none_or]

theorem listFind_append_right_ne [LinearOrder K] {l₁ l₂ : List (K × V)} {k : K}
    (h : ∀ p ∈ l₂, p.1 ≠ k) : listFind (l₁ ++ l₂) k = listFind l₁ k := by
  simp only [listFind, List.find?_append, find?_keys_ne h, Option.or_none]

theorem listFind_cons_self [LinearOrder K] {l : List (K × V)} {k : K} {v : V} :
    listFind ((k, v) :: l) k = some v := by
  simp [listFind, List.find?_cons_of_pos]

theorem listFind_cons_ne [LinearOrder K] {l : List (K × V)} {k k' : K} {v : V}
    (h : k' ≠ k) : listFind ((k', v) :: l) k = listFind l k := by
  simp only [listFind]
  rw [List.find?_cons_of_neg]
  simp [h]

theorem loopWF_child [LinearOrder K] {h : Nat} {hi : Option K} :
    ∀ (i : Nat) {ks : List K} {vs : List V} {cs : List (BNode K V)} {lo : Option K},
      LoopWF h lo hi ks vs cs → ∀ c, cs[i]? = some c →
      ∃ lo' hi', WF h lo' hi' (B - 1) c := by
  intro i
  induction i with
  | zero =>
    intro ks vs cs lo hl c hc
    cases hl with
    | last hcw =>
      simp only [List.getElem?_cons_zero, Option.some_inj] at hc
      exact ⟨_, _, hc ▸ hcw⟩
    | cons hcw hrest =>
      simp only [List.getElem?_cons_zero, Option.some_inj] at hc
      exact ⟨_, _, hc ▸ hcw⟩
  | succ i ih =>
    intro ks vs cs lo hl c hc
    cases hl with
    | last hcw =>
      simp at hc
    | cons hcw hrest =>
      rw [List.getElem?_cons_succ] at hc
      exact ih hrest c hc

theorem listFind_zip_found [LinearOrder K] {k : K} :
    ∀ (i : Nat) (ks : List K) (vs : List V), List.Pairwise (· < ·) ks →
      ks[i]? = some k → ∀ v, vs[i]? = some v →
      listFind (ks.zip vs) k = some v := by
  intro i
  induction i with
  | zero =>
    intro ks vs hpw hki v hvi
    match ks, vs with
    | [], _ => simp at hki
    | _ :: _, [] => simp at hvi
    | k0 :: ks', v0 :: vs' =>
      simp only [List.getElem?_cons_zero, Option.some_inj] at hki hvi
      subst hki hvi
      rw [List.zip_cons_cons]
      exact listFind_cons_self
  | succ i ih =>
    intro ks vs hpw hki v hvi
    match ks, vs with
    | [], _ => simp at hki
    | _ :: _, [] => simp at hvi
    | k0 :: ks', v0 :: vs' =>
      rw [List.getElem?_cons_succ] at hki hvi
      rw [List.pairwise_cons] at hpw
      have hk0 : k0 < k := hpw.1 k (List.getElem?_mem hki)
      rw [List.zip_cons_cons, listFind_cons_ne (ne_of_lt hk0)]
      exact ih ks' vs' hpw.2 hki v hvi

theorem listFind_spine_found [LinearOrder K] {hF : Nat} {hi : Option K} {k : K} :
    ∀ (i : Nat) (ks : List K) (vs : List V) (cs : List (BNode K V)) (lo : Option K),
      LoopWF hF lo hi ks vs cs → boundedChain lo hi ks →
      ks[i]? = some k → ∀ v, vs[i]? = some v →
      listFind (nodeList (.mk ks vs cs)) k = some v := by
  intro i
  induction i with
  | zero =>
    intro ks vs cs lo hl hbc hki v hvi
    cases hl with
    | last hcw => simp at hki
    | cons hcw hrest =>
      simp only [List.getElem?_cons_zero, Option.some_inj] at hki hvi
      subst hki hvi
      rw [nodeList_cons_spine]
      have hcb := wf_bounds _ _ _ _ _ hcw
      rw [listFind_append_left_ne ?_]
      · exact listFind_cons_self
      · intro p hp
        exact ne_of_lt (ltHi_some.mp ((hcb.1 p hp).2))
  | succ i ih =>
    intro ks vs cs lo hl hbc hki v hvi
    cases hl with
    | last hcw => simp at hki
    | cons hcw hrest =>
      rw [List.getElem?_cons_succ] at hki hvi
      obtain ⟨hbc', hlok, hhik⟩ := boundedChain_peel hbc
      rename_i k0 v0 ks' vs' c cs'
      have hk0 : k0 < k := by
        have hpw := hbc.1
        rw [List.pairwise_cons] at hpw
        exact hpw.1 k (List.getElem?_mem hki)
      rw [nodeList_cons_spine]
      have hcb := wf_bounds _ _ _ _ _ hcw
      rw [listFind_append_left_ne ?_]
      · rw [listFind_cons_ne (ne_of_lt hk0)]
        exact ih ks' vs' cs' (some k0) hrest hbc' hki v hvi
      · intro p hp
        exact ne_of_lt ((ltHi_some.mp ((hcb.1 p hp).2)).trans hk0)

end BTreeModel

namespace BTreeModel

variable {K V : Type}

theorem listFind_spine_absent [LinearOrder K] {hF : Nat} {hi : Option K} {k : K} :
    ∀ (i : Nat) (ks : List K) (vs : List V) (cs : List (BNode K V)) (lo : Option K),
      LoopWF hF lo hi ks vs cs → boundedChain lo hi ks →
      (∀ x ∈ ks.take i, x < k) → (∀ x ∈ ks.drop i, k < x) →
      ∀ c, cs[i]? = some c →
      listFind (nodeList (.mk ks vs cs)) k = listFind (nodeList c) k := by
  intro i
  induction i with
  | zero =>
    intro ks vs cs lo hl hbc htk hdr c hc
    cases hl with
    | last hcw =>
      simp only [List.getElem?_cons_zero, Option.some_inj] at hc
      rw [nodeList_nil_keys, hc]
    | cons hcw hrest =>
      rename_i k0 v0 ks' vs' c0 cs'
      simp only [List.getElem?_cons_zero, Option.some_inj] at hc
      subst hc
      obtain ⟨hbc', hlok, hhik⟩ := boundedChain_peel hbc
      have hk0 : k < k0 := hdr k0 (by simp)
      rw [nodeList_cons_spine]
      rw [listFind_append_right_ne ?_]
      intro p hp
      rcases List.mem_cons.mp hp with hp | hp
      · rw [hp]
        exact (ne_of_lt hk0).symm
      · have := (spine_bounds hrest hbc').1 p hp
        exact (ne_of_lt (hk0.trans (ltLo_some.mp this.1))).symm
  | succ i ih =>
    intro ks vs cs lo hl hbc htk hdr c hc
    cases hl with
    | last hcw => simp at hc
    | cons hcw hrest =>
      rename_i k0 v0 ks' vs' c0 cs'
      rw [List.getElem?_cons_succ] at hc
      obtain ⟨hbc', hlok, hhik⟩ := boundedChain_peel hbc
      have hk0 : k0 < k := htk k0 (by simp)
      have hcb := wf_bounds _ _ _ _ _ hcw
      rw [nodeList_cons_spine]
      rw [listFind_append_left_ne ?_]
      · rw [listFind_cons_ne (ne_of_lt hk0)]
        refine ih ks' vs' cs' (some k0) hrest hbc' ?_ ?_ c hc
        · intro x hx
          exact htk x (by rw [List.take_succ_cons]; exact List.mem_cons_of_mem k0 hx)
        · intro x hx
          exact hdr x (by rwa [List.drop_succ_cons])
      · intro p hp
        exact ne_of_lt ((ltHi_some.mp ((hcb.1 p hp).2)).trans hk0)

/-- Node::search returns exactly the association-list lookup of the
node's in-order entry list. -/
theorem search_correct [LinearOrder K] :
    ∀ (h : Nat) (fuel : Nat) (n : BNode K V) (lo hi : Option K) (minK : Nat) (k : K),
      WF h lo hi minK n → h < fuel →
      BNode.search fuel n k = some (listFind (nodeList n) k) := by
  intro h
  induction h with
  | zero =>
    intro fuel n lo hi minK k hw hf
    match fuel, n with
    | fuel + 1, .mk ks vs cs =>
      obtain ⟨hcs, hvl, _, _, hbc⟩ := wf_leaf_inv hw
      subst hcs
      have hbs := binSearch_spec k ks hbc.1
      rw [BNode.search]
      split
      · rename_i i hb
        rw [hb] at hbs
        simp only [] at hbs
        have hlen : i < vs.length := by
          obtain ⟨hlt, _⟩ := List.getElem?_eq_some_iff.mp hbs
          omega
        split
        · rename_i v hv
          have h2 := listFind_zip_found i ks vs hbc.1 hbs v hv
          rw [nodeList_leaf, h2]
        · rename_i hv
          rw [List.getElem?_eq_none_iff] at hv
          omega
      · rename_i i hb
        rw [hb] at hbs
        simp only [] at hbs
        simp only [List.isEmpty_nil, if_true]
        rw [nodeList_leaf, listFind_keys_ne ?_]
        intro p hp
        have hm := (List.of_mem_zip hp).1
        rw [← List.take_append_drop i ks] at hm
        rcases List.mem_append.mp hm with hm | hm
        · exact ne_of_lt (hbs.2.1 p.1 hm)
        · exact (ne_of_lt (hbs.2.2 p.1 hm)).symm
  | succ h ih =>
    intro fuel n lo hi minK k hw hf
    match fuel, n with
    | fuel + 1, .mk ks vs cs =>
      obtain ⟨hvl, hmin, hmax, hbc, hl⟩ := wf_node_inv hw
      have hbs := binSearch_spec k ks hbc.1
      rw [BNode.search]
      split
      · rename_i i hb
        rw [hb] at hbs
        simp only [] at hbs
        have hlen : i < vs.length := by
          obtain ⟨hlt, _⟩ := List.getElem?_eq_some_iff.mp hbs
          omega
        split
        · rename_i v hv
          rw [listFind_spine_found i ks vs cs lo hl hbc hbs v hv]
        · rename_i hv
          rw [List.getElem?_eq_none_iff] at hv
          omega
      · rename_i i hb
        rw [hb] at hbs
        simp only [] at hbs
        have hcs : cs.isEmpty = false := by
          have h2 := (loopWF_lengths hl).2
          match cs with
          | [] => simp at h2
          | _ :: _ => simp
        rw [hcs]
        simp only [Bool.false_eq_true, if_false]
        have hic : i < cs.length := by
          have h2 := (loopWF_lengths hl).2
          omega
        split
        · rename_i c hc
          obtain ⟨lo', hi', hcw⟩ := loopWF_child i hl c hc
          have h1 := ih fuel c lo' hi' (B - 1) k hcw (by omega)
          have h2 := listFind_spine_absent i ks vs cs lo hl hbc hbs.2.1 hbs.2.2 c hc
          rw [h1, h2]
        · rename_i hc
          rw [List.getElem?_eq_none_iff] at hc
          omega

end BTreeModel

namespace BTreeModel

variable {K V : Type}

theorem spinePre_last [LinearOrder K] {h : Nat} {hi : Option K} :
    ∀ {ks : List K} {vs : List V} {cs : List (BNode K V)} {lo : Option K},
      LoopWF h lo hi ks vs cs →
      ∃ c lo', cs.getLast? = some c ∧ WF h lo' hi (B - 1) c ∧
        nodeList (.mk ks vs cs) = spinePre ks vs cs ++ nodeList c := by
  intro ks
  induction ks with
  | nil =>
    intro vs cs lo hl
    cases hl with
    | last hcw =>
      exact ⟨_, _, rfl, hcw, by rw [nodeList_nil_keys]; simp [spinePre]⟩
  | cons k ks' ih =>
    intro vs cs lo hl
    cases hl with
    | cons hcw hrest =>
      rename_i v0 vs' c0 cs'
      obtain ⟨c, lo', hg, hw, heq⟩ := ih hrest
      have hcs' : cs' ≠ [] := by
        intro hh
        rw [hh] at hg
        simp at hg
      refine ⟨c, lo', ?_, hw, ?_⟩
      · match cs', hcs' with
        | b :: l, _ => rw [List.getLast?_cons_cons]; exact hg
      · rw [nodeList_cons_spine, heq, spinePre]
        simp [List.append_assoc]

theorem dfs_leaf_loop (ks : List K) :
    ∀ (vs : List V) (i fuel : Nat), vs.length = ks.length →
      ks.length + 1 ≤ fuel →
      dfsF fuel (.inr (([] : List (BNode K V)), i, ks, vs)) = some (ks.zip vs) := by
  induction ks with
  | nil =>
    intro vs i fuel hlen hf
    match fuel, hf with
    | f + 1, _ => rw [dfsF]; simp
  | cons k ks' ih =>
    intro vs i fuel hlen hf
    match vs with
    | v :: vs' =>
      match fuel, hf with
      | f + 1, hf2 =>
        rw [dfsF]
        simp only [List.getElem?_nil]
        rw [ih vs' (i + 1) f (by simpa using hlen) (by simp at hf2; omega)]
        simp

/-- The dfs loop over the spine of a well-formed internal node yields the
spine's entry list, given per-node correctness at the child height. -/
theorem dfs_loop_of [LinearOrder K] {h : Nat} {hi : Option K}
    (wfd : ∀ (n : BNode K V) (lo hi : Option K) (minK : Nat), WF h lo hi minK n →
      ∀ fuel, (h + 1) * (2 * B + 1) ≤ fuel → dfsF fuel (.inl n) = some (nodeList n)) :
    ∀ (ks : List K) (vs : List V) (cs : List (BNode K V)) (i : Nat) (lo : Option K)
      (fuel : Nat),
      LoopWF h lo hi ks vs (cs.drop i) →
      ks.length + (h + 1) * (2 * B + 1) + 1 ≤ fuel →
      dfsF fuel (.inr (cs, i, ks, vs)) = some (spinePre ks vs (cs.drop i)) := by
  intro ks
  induction ks with
  | nil =>
    intro vs cs i lo fuel hl hf
    match fuel, hf with
    | f + 1, _ =>
      rw [dfsF]
      simp [spinePre]
  | cons k ks' ih =>
    intro vs cs i lo fuel hl hf
    generalize hd : cs.drop i = dcs at hl
    cases hl with
    | cons hcw hrest =>
      rename_i v0 vs' c0 cs'
      match fuel, hf with
      | f + 1, hf2 =>
        have hci : cs[i]? = some c0 := by
          rw [← List.head?_drop, hd]
          rfl
        have hdrop1 : cs.drop (i + 1) = cs' := by
          have h2 : List.drop 1 (cs.drop i) = cs' := by rw [hd]; rfl
          rwa [List.drop_drop] at h2
        rw [dfsF, hci]
        simp only []
        rw [wfd c0 _ _ _ hcw f (by simp at hf2; omega)]
        simp only []
        rw [ih vs' cs (i + 1) (some k) f (by rw [hdrop1]; exact hrest)
          (by simp at hf2; omega)]
        simp only [hd, hdrop1, spinePre]

/-- BTree dfs computes the in-order entry list of a well-formed node,
for any fuel at least `(h+1)*(2B+1)`. -/
theorem dfs_correct [LinearOrder K] :
    ∀ (h : Nat) (n : BNode K V) (lo hi : Option K) (minK : Nat), WF h lo hi minK n →
      ∀ fuel, (h + 1) * (2 * B + 1) ≤ fuel → dfsF fuel (.inl n) = some (nodeList n) := by
  intro h
  induction h with
  | zero =>
    intro n lo hi minK hw fuel hf
    match n with
    | .mk ks vs cs =>
      obtain ⟨hcs, hvl, _, hmax, _⟩ := wf_leaf_inv hw
      subst hcs
      match fuel, hf with
      | f + 1, hf2 =>
        rw [dfsF]
        rw [dfs_leaf_loop ks vs 0 f hvl ?_]
        · simp [nodeList_leaf]
        · have hB : B = 3 := rfl
          rw [hB] at hmax
          rw [hB] at hf2
          simp at hf2
          omega
  | succ h ih =>
    intro n lo hi minK hw fuel hf
    match n with
    | .mk ks vs cs =>
      obtain ⟨hvl, hmin, hmax, hbc, hl⟩ := wf_node_inv hw
      match fuel, hf with
      | f + 1, hf2 =>
        rw [dfsF]
        obtain ⟨c, lo', hg, hcw, heq⟩ := spinePre_last hl
        rw [dfs_loop_of ih ks vs cs 0 lo f (by rw [List.drop_zero]; exact hl) ?_]
        · simp only [List.drop_zero]
          rw [hg]
          simp only []
          rw [ih c lo' hi (B - 1) hcw f ?_]
          · simp only []
            rw [heq]
          · have hB : B = 3 := rfl
            rw [hB] at hf2 ⊢
            omega
        · have hB : B = 3 := rfl
          rw [hB] at hmax hf2 ⊢
          omega

end BTreeModel

namespace BTreeModel

variable {K V : Type}

theorem insertIdx_eq_take_cons_drop {α : Type} (a : α) :
    ∀ (i : Nat) (l : List α), i ≤ l.length →
      l.insertIdx i a = l.take i ++ a :: l.drop i := by
  intro i
  induction i with
  | zero =>
    intro l h
    simp [List.insertIdx_zero]
  | succ i ih =>
    intro l h
    match l with
    | [] => simp at h
    | x :: l' =>
      rw [List.insertIdx_succ_cons, ih l' (by simpa using h)]
      simp

theorem boundedChain_nil [LinearOrder K] {lo hi : Option K} :
    boundedChain lo hi ([] : List K) :=
  ⟨by simp, by simp⟩

theorem boundedChain_unpeel [LinearOrder K] {lo hi : Option K} {k : K} {l : List K}
    (h : boundedChain (some k) hi l) (hlo : ltLo lo k) (hhi : ltHi hi k) :
    boundedChain lo hi (k :: l) := by
  refine ⟨List.pairwise_cons.mpr ⟨fun x hx => ltLo_some.mp ((h.2 x hx).1), h.1⟩, ?_⟩
  intro x hx
  rcases List.mem_cons.mp hx with hx | hx
  · exact hx ▸ ⟨hlo, hhi⟩
  · have hkx : k < x := ltLo_some.mp ((h.2 x hx).1)
    exact ⟨fun a ha => (hlo a ha).trans hkx, (h.2 x hx).2⟩

theorem boundedChain_weaken [LinearOrder K] {lo hi lo' hi' : Option K} {l : List K}
    (h : boundedChain lo hi l)
    (hlo : ∀ x, ltLo lo x → ltLo lo' x) (hhi : ∀ x, ltHi hi x → ltHi hi' x) :
    boundedChain lo' hi' l :=
  ⟨h.1, fun x hx => ⟨hlo x (h.2 x hx).1, hhi x (h.2 x hx).2⟩⟩

theorem wf_minK [LinearOrder K] {h : Nat} {lo hi : Option K} {m : Nat} {n : BNode K V}
    (hw : WF h lo hi m n) {m' : Nat} (hm : m' ≤ n.keys.length) : WF h lo hi m' n := by
  cases hw with
  | leaf h1 h2 h3 h4 => exact WF.leaf h1 (by simpa [BNode.keys] using hm) h3 h4
  | node h1 h2 h3 h4 h5 => exact WF.node h1 (by simpa [BNode.keys] using hm) h3 h4 h5

theorem loopWF_widen_of [LinearOrder K] {h : Nat}
    (wfw : ∀ (n : BNode K V) (lo hi lo' hi' : Option K) (m : Nat), WF h lo hi m n →
      (∀ x, ltLo lo x → ltLo lo' x) → (∀ x, ltHi hi x → ltHi hi' x) →
      WF h lo' hi' m n) :
    ∀ (ks : List K) (vs : List V) (cs : List (BNode K V)) (lo hi lo' hi' : Option K),
      LoopWF h lo hi ks vs cs →
      (∀ x, ltLo lo x → ltLo lo' x) → (∀ x, ltHi hi x → ltHi hi' x) →
      LoopWF h lo' hi' ks vs cs := by
  intro ks
  induction ks with
  | nil =>
    intro vs cs lo hi lo' hi' hl hlo hhi
    cases hl with
    | last hc => exact LoopWF.last (wfw _ _ _ _ _ _ hc hlo hhi)
  | cons k ks' ih =>
    intro vs cs lo hi lo' hi' hl hlo hhi
    cases hl with
    | cons hc hrest =>
      exact LoopWF.cons (wfw _ _ _ _ _ _ hc hlo (fun x hx => hx))
        (ih _ _ _ _ _ _ hrest (fun x hx => hx) hhi)

theorem wf_widen [LinearOrder K] :
    ∀ (h : Nat) (n : BNode K V) (lo hi lo' hi' : Option K) (m : Nat), WF h lo hi m n →
      (∀ x, ltLo lo x → ltLo lo' x) → (∀ x, ltHi hi x → ltHi hi' x) →
      WF h lo' hi' m n := by
  intro h
  induction h with
  | zero =>
    intro n lo hi lo' hi' m hw hlo hhi
    cases hw with
    | leaf h1 h2 h3 h4 => exact WF.leaf h1 h2 h3 (boundedChain_weaken h4 hlo hhi)
  | succ h ih =>
    intro n lo hi lo' hi' m hw hlo hhi
    cases hw with
    | node h1 h2 h3 h4 h5 =>
      exact WF.node h1 h2 h3 (boundedChain_weaken h4 hlo hhi)
        (loopWF_widen_of ih _ _ _ _ _ _ _ h5 hlo hhi)

theorem insertSorted_append_lt [LinearOrder K] {k : K} {v : V} :
    ∀ (A X : List (K × V)), (∀ p ∈ A, p.1 < k) →
      insertSorted k v (A ++ X) = A ++ insertSorted k v X := by
  intro A
  induction A with
  | nil => intro X _; simp
  | cons a A' ih =>
    intro X hA
    match a with
    | (k', v') =>
      rw [List.cons_append, insertSorted,
        if_neg (not_lt.mpr (le_of_lt (hA (k', v') (by simp))))]
      rw [ih X (fun p hp => hA p (by simp [hp]))]
      simp

theorem insertSorted_all_gt [LinearOrder K] {k : K} {v : V} :
    ∀ (X : List (K × V)), (∀ p ∈ X, k < p.1) →
      insertSorted k v X = (k, v) :: X := by
  intro X hX
  match X with
  | [] => rfl
  | (k', v') :: X' =>
    rw [insertSorted, if_pos (hX (k', v') (by simp))]

theorem eraseKey_append [LinearOrder K] {k : K} (A X : List (K × V)) :
    eraseKey k (A ++ X) = eraseKey k A ++ eraseKey k X := by
  simp [eraseKey, List.filter_append]

theorem eraseKey_of_ne [LinearOrder K] {k : K} {A : List (K × V)}
    (h : ∀ p ∈ A, p.1 ≠ k) : eraseKey k A = A := by
  rw [eraseKey, List.filter_eq_self]
  intro p hp
  simp [h p hp]

theorem eraseKey_cons_self [LinearOrder K] {k : K} {v : V} {l : List (K × V)} :
    eraseKey k ((k, v) :: l) = eraseKey k l := by
  simp [eraseKey]

end BTreeModel

namespace BTreeModel

variable {K V : Type}

theorem nodeList_append_spine :
    ∀ (A : List K) (Av : List V) (Ac : List (BNode K V)) (ks2 : List K) (vs2 : List V)
      (cs2 : List (BNode K V)), Av.length = A.length → Ac.length = A.length →
      nodeList (.mk (A ++ ks2) (Av ++ vs2) (Ac ++ cs2)) =
        spinePre A Av Ac ++ nodeList (.mk ks2 vs2 cs2) := by
  intro A
  induction A with
  | nil =>
    intro Av Ac ks2 vs2 cs2 h1 h2
    simp only [List.length_nil, List.length_eq_zero] at h1 h2
    subst h1 h2
    simp [spinePre]
  | cons a A' ih =>
    intro Av Ac ks2 vs2 cs2 h1 h2
    match Av, Ac with
    | v :: Av', c :: Ac' =>
      simp only [List.cons_append]
      rw [nodeList_cons_spine, ih Av' Ac' ks2 vs2 cs2 (by simpa using h1) (by simpa using h2)]
      rw [spinePre]
      simp [List.append_assoc]

/-- Focus on the spine suffix at child index `i`: the dropped suffix is a
well-formed spine over an interval `(mid, hi)`, the consumed part lies
wholly below `mid`, and any replacement suffix over `(mid, hi)` can be
glued back. -/
theorem loopWF_focus [LinearOrder K] {h : Nat} {hi : Option K} :
    ∀ (i : Nat) (ks : List K) (vs : List V) (cs : List (BNode K V)) (lo : Option K),
      LoopWF h lo hi ks vs cs → boundedChain lo hi ks → i ≤ ks.length →
      ∃ mid : Option K,
        LoopWF h mid hi (ks.drop i) (vs.drop i) (cs.drop i) ∧
        boundedChain mid hi (ks.drop i) ∧
        (∀ x, ltLo mid x → ltLo lo x) ∧
        (∀ p ∈ spinePre (ks.take i) (vs.take i) (cs.take i),
          ltLo lo p.1 ∧ ltHi hi p.1 ∧ ∀ x, ltLo mid x → p.1 < x) ∧
        (∀ (ks2 : List K) (vs2 : List V) (cs2 : List (BNode K V)),
          LoopWF h mid hi ks2 vs2 cs2 →
          LoopWF h lo hi (ks.take i ++ ks2) (vs.take i ++ vs2) (cs.take i ++ cs2)) ∧
        (∀ ks2 : List K, boundedChain mid hi ks2 →
          boundedChain lo hi (ks.take i ++ ks2)) ∧
        (∀ x, ltLo lo x → (∀ y ∈ ks.take i, y < x) → ltLo mid x) := by
  intro i
  induction i with
  | zero =>
    intro ks vs cs lo hl hbc _
    exact ⟨lo, by simpa using hl, by simpa using hbc, fun x hx => hx,
      by simp [spinePre], fun ks2 vs2 cs2 h2 => by simpa using h2,
      fun ks2 h2 => by simpa using h2, fun x hx _ => hx⟩
  | succ i ih =>
    intro ks vs cs lo hl hbc hle
    cases hl with
    | last hc => simp at hle
    | cons hc hrest =>
      rename_i k0 v0 ks' vs' c0 cs'
      obtain ⟨hbc', hlok, hhik⟩ := boundedChain_peel hbc
      obtain ⟨mid, IH1, IH2, IH3, IH4, IH5, IH6, IH7⟩ :=
        ih ks' vs' cs' (some k0) hrest hbc' (by simpa using hle)
      refine ⟨mid, by simpa using IH1, by simpa using IH2, ?_, ?_, ?_, ?_, ?_⟩
      · intro x hx
        have hk0x : k0 < x := ltLo_some.mp (IH3 x hx)
        exact fun a ha => (hlok a ha).trans hk0x
      · simp only [List.take_succ_cons]
        rw [spinePre]
        intro p hp
        rcases List.mem_append.mp hp with hp | hp
        · have hb := (wf_bounds h c0 lo (some k0) (B - 1) hc).1 p hp
          have hpk0 : p.1 < k0 := ltHi_some.mp hb.2
          refine ⟨hb.1, fun b hb2 => hpk0.trans (hhik b hb2), ?_⟩
          intro x hx
          exact hpk0.trans (ltLo_some.mp (IH3 x hx))
        · rcases List.mem_cons.mp hp with hp | hp
          · rw [hp]
            exact ⟨hlok, hhik, fun x hx => ltLo_some.mp (IH3 x hx)⟩
          · obtain ⟨hp1, hp2, hp3⟩ := IH4 p hp
            have hk0p : k0 < p.1 := ltLo_some.mp hp1
            exact ⟨fun a ha => (hlok a ha).trans hk0p, hp2, hp3⟩
      · intro ks2 vs2 cs2 h2
        simp only [List.take_succ_cons, List.cons_append]
        exact LoopWF.cons hc (IH5 ks2 vs2 cs2 h2)
      · intro ks2 h2
        simp only [List.take_succ_cons, List.cons_append]
        exact boundedChain_unpeel (IH6 ks2 h2) hlok hhik
      · intro x hx hy
        simp only [List.take_succ_cons] at hy
        refine IH7 x (ltLo_some.mpr (hy k0 (by simp))) ?_
        intro y hyy
        exact hy y (by simp [hyy])

end BTreeModel

namespace BTreeModel

variable {K V : Type}

theorem list_decomp_at {α : Type} {l : List α} {j : Nat} {a : α}
    (h : l[j]? = some a) : l = l.take j ++ a :: l.drop (j + 1) := by
  obtain ⟨hlt, hget⟩ := List.getElem?_eq_some_iff.mp h
  rw [← hget, ← List.drop_eq_getElem_cons hlt, List.take_append_drop]

theorem boundedChain_split [LinearOrder K] {lo hi : Option K} {ks : List K} {j : Nat}
    {kj : K} (hbc : boundedChain lo hi ks) (hj : ks[j]? = some kj) :
    boundedChain lo (some kj) (ks.take j) ∧
      boundedChain (some kj) hi (ks.drop (j + 1)) ∧ ltLo lo kj ∧ ltHi hi kj := by
  have hd := list_decomp_at hj
  have hpw := hbc.1
  rw [hd, List.pairwise_append] at hpw
  obtain ⟨pwT, pwD, cross⟩ := hpw
  rw [List.pairwise_cons] at pwD
  have hmem : kj ∈ ks := List.getElem?_mem hj
  refine ⟨⟨pwT, ?_⟩, ⟨pwD.2, ?_⟩, (hbc.2 kj hmem).1, (hbc.2 kj hmem).2⟩
  · intro x hx
    have hxm : x ∈ ks := by
      rw [hd]
      exact List.mem_append.mpr (Or.inl hx)
    exact ⟨(hbc.2 x hxm).1, ltHi_some.mpr (cross x hx kj (by simp))⟩
  · intro x hx
    have hxm : x ∈ ks := by
      rw [hd]
      exact List.mem_append.mpr (Or.inr (by simp [hx]))
    exact ⟨ltLo_some.mpr (pwD.1 x hx), (hbc.2 x hxm).2⟩

theorem loopWF_split [LinearOrder K] {h : Nat} {hi : Option K} :
    ∀ (j : Nat) (ks : List K) (vs : List V) (cs : List (BNode K V)) (lo : Option K),
      LoopWF h lo hi ks vs cs → ∀ kj, ks[j]? = some kj →
      LoopWF h lo (some kj) (ks.take j) (vs.take j) (cs.take (j + 1)) ∧
      LoopWF h (some kj) hi (ks.drop (j + 1)) (vs.drop (j + 1)) (cs.drop (j + 1)) := by
  intro j
  induction j with
  | zero =>
    intro ks vs cs lo hl kj hj
    cases hl with
    | last hc => simp at hj
    | cons hc hrest =>
      simp only [List.getElem?_cons_zero, Option.some_inj] at hj
      subst hj
      exact ⟨LoopWF.last hc, by simpa using hrest⟩
  | succ j ih =>
    intro ks vs cs lo hl kj hj
    cases hl with
    | last hc => simp at hj
    | cons hc hrest =>
      rw [List.getElem?_cons_succ] at hj
      obtain ⟨hL, hR⟩ := ih _ _ _ _ hrest kj hj
      exact ⟨by simpa using LoopWF.cons hc hL, by simpa using hR⟩

theorem nodeList_split_at [LinearOrder K] {h : Nat} {hi : Option K} :
    ∀ (j : Nat) (ks : List K) (vs : List V) (cs : List (BNode K V)) (lo : Option K),
      LoopWF h lo hi ks vs cs → ∀ kj vj, ks[j]? = some kj → vs[j]? = some vj →
      nodeList (.mk ks vs cs) =
        nodeList (.mk (ks.take j) (vs.take j) (cs.take (j + 1))) ++ (kj, vj) ::
          nodeList (.mk (ks.drop (j + 1)) (vs.drop (j + 1)) (cs.drop (j + 1))) := by
  intro j
  induction j with
  | zero =>
    intro ks vs cs lo hl kj vj hkj hvj
    cases hl with
    | last hc => simp at hkj
    | cons hc hrest =>
      simp only [List.getElem?_cons_zero, Option.some_inj] at hkj hvj
      subst hkj hvj
      rw [nodeList_cons_spine]
      simp only [List.take_zero, List.take_cons_succ, List.take_zero, List.drop_succ_cons,
        List.drop_zero]
      rw [nodeList_nil_keys]
  | succ j ih =>
    intro ks vs cs lo hl kj vj hkj hvj
    cases hl with
    | last hc => simp at hkj
    | cons hc hrest =>
      rw [List.getElem?_cons_succ] at hkj hvj
      rw [nodeList_cons_spine, ih _ _ _ _ hrest kj vj hkj hvj]
      simp only [List.take_succ_cons, List.drop_succ_cons]
      rw [nodeList_cons_spine]
      simp [List.append_assoc]

end BTreeModel

namespace BTreeModel

variable {K V : Type}

/-- Splitting a full node around its median key yields two well-formed
halves whose lists recompose the original. -/
theorem splitNode_parts [LinearOrder K] {h : Nat} {clo chi : Option K} {m : Nat}
    {cks : List K} {cvs : List V} {ccs : List (BNode K V)}
    (hw : WF h clo chi m (.mk cks cvs ccs)) (hfull : cks.length = 2 * B - 1) :
    ∃ sk sv,
      cks[B - 1]? = some sk ∧ cvs[B - 1]? = some sv ∧
      (B ≤ cks.length ∧ B ≤ cvs.length ∧ (ccs.isEmpty ∨ B ≤ ccs.length)) ∧
      WF h clo (some sk) (B - 1)
        (BNode.mk (cks.take (B - 1)) (cvs.take (B - 1))
          (if ccs.isEmpty then ccs else ccs.take B)) ∧
      WF h (some sk) chi (B - 1)
        (BNode.mk (cks.drop B) (cvs.drop B)
          (if ccs.isEmpty then [] else ccs.drop B)) ∧
      nodeList (BNode.mk (cks.take (B - 1)) (cvs.take (B - 1))
          (if ccs.isEmpty then ccs else ccs.take B)) ++
        (sk, sv) :: nodeList (BNode.mk (cks.drop B) (cvs.drop B)
          (if ccs.isEmpty then [] else ccs.drop B)) = nodeList (.mk cks cvs ccs) ∧
      ltLo clo sk ∧ ltHi chi sk := by
  have hB : B = 3 := rfl
  cases hw with
  | leaf hvl hmin hmax hbc =>
    have hsk1 : B - 1 < cks.length := by omega
    have hsv1 : B - 1 < cvs.length := by omega
    match hsk : cks[B - 1]?, hsv : cvs[B - 1]? with
    | none, _ => rw [List.getElem?_eq_none_iff] at hsk; omega
    | some sk, none => rw [List.getElem?_eq_none_iff] at hsv; omega
    | some sk, some sv =>
      obtain ⟨bcL, bcR, hlosk, hhisk⟩ := boundedChain_split hbc hsk
      refine ⟨sk, sv, rfl, rfl, ⟨by omega, by omega, Or.inl rfl⟩, ?_, ?_, ?_, hlosk, hhisk⟩
      · simp only [List.isEmpty_nil, if_true]
        exact WF.leaf (by simp [List.length_take]; try omega) (by simp [List.length_take]; try omega)
          (by simp [List.length_take]; try omega) bcL
      · simp only [List.isEmpty_nil, if_true]
        exact WF.leaf (by simp [List.length_drop]; try omega) (by simp [List.length_drop]; try omega)
          (by simp [List.length_drop]; try omega) bcR
      · simp only [List.isEmpty_nil, if_true]
        rw [nodeList_leaf, nodeList_leaf, nodeList_leaf]
        conv_rhs => rw [list_decomp_at hsk, list_decomp_at hsv]
        rw [List.zip_append (by simp [List.length_take]; try omega), List.zip_cons_cons]
        rfl
  | node hvl hmin hmax hbc hl =>
    have hlen := loopWF_lengths hl
    have hemp : ccs.isEmpty = false := by
      match ccs with
      | [] => simp at hlen
      | _ :: _ => simp
    have hsk1 : B - 1 < cks.length := by omega
    have hsv1 : B - 1 < cvs.length := by omega
    match hsk : cks[B - 1]?, hsv : cvs[B - 1]? with
    | none, _ => rw [List.getElem?_eq_none_iff] at hsk; omega
    | some sk, none => rw [List.getElem?_eq_none_iff] at hsv; omega
    | some sk, some sv =>
      obtain ⟨bcL, bcR, hlosk, hhisk⟩ := boundedChain_split hbc hsk
      obtain ⟨wlL, wlR⟩ := loopWF_split (B - 1) cks cvs ccs clo hl sk hsk
      have hnl := nodeList_split_at (B - 1) cks cvs ccs clo hl sk sv hsk hsv
      refine ⟨sk, sv, rfl, rfl, ⟨by omega, by omega, Or.inr (by omega)⟩, ?_, ?_, ?_,
        hlosk, hhisk⟩
      · simp only [hemp, Bool.false_eq_true, if_false]
        exact WF.node (by simp [List.length_take]; try omega) (by simp [List.length_take]; try omega)
          (by simp [List.length_take]; try omega) bcL wlL
      · simp only [hemp, Bool.false_eq_true, if_false]
        exact WF.node (by simp [List.length_drop]; try omega) (by simp [List.length_drop]; try omega)
          (by simp [List.length_drop]; try omega) bcR wlR
      · simp only [hemp, Bool.false_eq_true, if_false]
        exact hnl.symm

end BTreeModel

namespace BTreeModel

variable {K V : Type}

theorem take_len_plus {α : Type} : ∀ (A B : List α) (n : Nat),
    (A ++ B).take (A.length + n) = A ++ B.take n := by
  intro A
  induction A with
  | nil => intro B n; simp
  | cons a A' ih =>
    intro B n
    simp only [List.cons_append, List.length_cons]
    rw [Nat.succ_add, List.take_succ_cons, ih]

theorem drop_len_plus {α : Type} : ∀ (A B : List α) (n : Nat),
    (A ++ B).drop (A.length + n) = B.drop n := by
  intro A
  induction A with
  | nil => intro B n; simp
  | cons a A' ih =>
    intro B n
    simp only [List.cons_append, List.length_cons]
    rw [Nat.succ_add, List.drop_succ_cons, ih]

theorem getElem?_len_plus {α : Type} (A B : List α) (n : Nat) :
    (A ++ B)[A.length + n]? = B[n]? :=
  List.getElem?_append_right (by omega) |>.trans (by simp)

theorem list_set_decomp {α : Type} {l : List α} {i : Nat} {a : α}
    (h : l[i]? = some a) (x : α) : l.set i x = l.take i ++ x :: l.drop (i + 1) := by
  conv_lhs => rw [list_decomp_at h]
  rw [List.set_append_right _ _ (by simp [List.length_take]; try omega)]
  have hlen : (l.take i).length = i := by
    obtain ⟨hlt, _⟩ := List.getElem?_eq_some_iff.mp h
    simp [List.length_take]
    omega
  rw [hlen]
  simp

theorem insertSorted_append_gt [LinearOrder K] {k : K} {v : V} :
    ∀ (X Y : List (K × V)), (∀ p ∈ Y, k < p.1) →
      insertSorted k v (X ++ Y) = insertSorted k v X ++ Y := by
  intro X
  induction X with
  | nil =>
    intro Y hY
    rw [List.nil_append, insertSorted_all_gt Y hY]
    rfl
  | cons x X' ih =>
    intro Y hY
    match x with
    | (k', v') =>
      rw [List.cons_append, insertSorted, insertSorted]
      by_cases hk : k < k'
      · rw [if_pos hk, if_pos hk]
        simp
      · rw [if_neg hk, if_neg hk, ih Y hY]
        simp

theorem listFind_none_iff [LinearOrder K] {l : List (K × V)} {k : K} :
    listFind l k = none ↔ ∀ p ∈ l, p.1 ≠ k := by
  rw [listFind, Option.map_eq_none', List.find?_eq_none]
  constructor
  · intro h p hp
    have := h p hp
    simpa using this
  · intro h p hp
    simpa using h p hp

theorem cs_split_decomp {l : List (BNode K V)} {i : Nat} {c : BNode K V}
    (h : l[i]? = some c) (L R : BNode K V) :
    (l.set i L).insertIdx (i + 1) R = l.take i ++ L :: R :: l.drop (i + 1) := by
  rw [list_set_decomp h L]
  have hlen : (l.take i).length = i := by
    obtain ⟨hlt, _⟩ := List.getElem?_eq_some_iff.mp h
    simp [List.length_take]
    omega
  rw [insertIdx_eq_take_cons_drop R (i + 1) _ (by simp [hlen]; try omega)]
  have h1 : i + 1 = (l.take i).length + 1 := by rw [hlen]
  rw [h1, take_len_plus, drop_len_plus]
  simp

end BTreeModel

namespace BTreeModel

variable {K V : Type}

theorem wf_keylen [LinearOrder K] {h : Nat} {lo hi : Option K} {m : Nat} {n : BNode K V}
    (hw : WF h lo hi m n) : m ≤ n.keys.length ∧ n.keys.length ≤ 2 * B - 1 := by
  cases hw with
  | leaf h1 h2 h3 h4 => exact ⟨h2, h3⟩
  | node h1 h2 h3 h4 h5 => exact ⟨h2, h3⟩

theorem wf_vallen [LinearOrder K] {h : Nat} {lo hi : Option K} {m : Nat} {n : BNode K V}
    (hw : WF h lo hi m n) : n.values.length = n.keys.length := by
  cases hw with
  | leaf h1 h2 h3 h4 => exact h1
  | node h1 h2 h3 h4 h5 => exact h1

/-- Analysis of the first slot of a spine: the head child's interval,
the list contributed by the rest, and head replacement (with a possibly
narrowed lower bound). -/
theorem loopWF_head [LinearOrder K] {h : Nat} {lo hi : Option K} {ks : List K}
    {vs : List V} {c : BNode K V} {cs : List (BNode K V)}
    (hl : LoopWF h lo hi ks vs (c :: cs)) (hbc : boundedChain lo hi ks) :
    ∃ (chiC : Option K) (TAIL : List (K × V)),
      WF h lo chiC (B - 1) c ∧
      ((ks = [] ∧ chiC = hi) ∨ (∃ k1 ksR, ks = k1 :: ksR ∧ chiC = some k1)) ∧
      nodeList (.mk ks vs (c :: cs)) = nodeList c ++ TAIL ∧
      (∀ p ∈ TAIL, ∀ x, ltHi chiC x → x < p.1) ∧
      (∀ (lo' : Option K) (c' : BNode K V), WF h lo' chiC (B - 1) c' →
        LoopWF h lo' hi ks vs (c' :: cs) ∧
        nodeList (.mk ks vs (c' :: cs)) = nodeList c' ++ TAIL) := by
  cases hl with
  | last hcw =>
    refine ⟨hi, [], hcw, Or.inl ⟨rfl, rfl⟩, by rw [nodeList_nil_keys]; simp, by simp, ?_⟩
    intro lo' c' hc'
    exact ⟨LoopWF.last hc', by rw [nodeList_nil_keys]; simp⟩
  | cons hcw hrest =>
    rename_i k1 v1 ksR vsR
    obtain ⟨hbc', hlok, hhik⟩ := boundedChain_peel hbc
    refine ⟨some k1, (k1, v1) :: nodeList (.mk ksR vsR cs), hcw,
      Or.inr ⟨k1, ksR, rfl, rfl⟩, by rw [nodeList_cons_spine], ?_, ?_⟩
    · intro p hp x hx
      have hxk1 : x < k1 := ltHi_some.mp hx
      rcases List.mem_cons.mp hp with hp | hp
      · rw [hp]
        exact hxk1
      · exact hxk1.trans (ltLo_some.mp ((spine_bounds hrest hbc').1 p hp).1)
    · intro lo' c' hc'
      exact ⟨LoopWF.cons hc' hrest, by rw [nodeList_cons_spine]⟩

end BTreeModel

namespace BTreeModel

variable {K V : Type}

theorem boundedChain_insert_at [LinearOrder K] {lo hi : Option K} {ks : List K}
    {i : Nat} {k : K} (hbc : boundedChain lo hi ks)
    (htk : ∀ x ∈ ks.take i, x < k) (hdr : ∀ x ∈ ks.drop i, k < x)
    (hlok : ltLo lo k) (hhik : ltHi hi k) :
    boundedChain lo hi (ks.take i ++ k :: ks.drop i) := by
  constructor
  · rw [List.pairwise_append]
    refine ⟨hbc.1.sublist (List.take_sublist i ks), ?_, ?_⟩
    · rw [List.pairwise_cons]
      exact ⟨hdr, hbc.1.sublist (List.drop_sublist i ks)⟩
    · intro x hx y hy
      have hxk : x < k := htk x hx
      rcases List.mem_cons.mp hy with hy | hy
      · exact hy ▸ hxk
      · exact hxk.trans (hdr y hy)
  · intro x hx
    rcases List.mem_append.mp hx with hx | hx
    · exact hbc.2 x (List.take_subset i ks hx)
    · rcases List.mem_cons.mp hx with hx | hx
      · exact hx ▸ ⟨hlok, hhik⟩
      · exact hbc.2 x (List.drop_subset i ks hx)

end BTreeModel

namespace BTreeModel

variable {K V : Type}

theorem set_len_plus {α : Type} : ∀ (A B : List α) (n : Nat) (x : α),
    (A ++ B).set (A.length + n) x = A ++ B.set n x := by
  intro A
  induction A with
  | nil => intro B n x; simp
  | cons a A' ih =>
    intro B n x
    simp only [List.cons_append, List.length_cons]
    rw [Nat.succ_add, List.set_cons_succ, ih]

theorem insertSorted_cons_lt [LinearOrder K] {k k' : K} {v v' : V} {l : List (K × V)}
    (h : k' < k) : insertSorted k v ((k', v') :: l) = (k', v') :: insertSorted k v l := by
  rw [insertSorted, if_neg (not_lt.mpr (le_of_lt h))]

/-- Node::insert_non_full inserts an unbound key at its sorted position,
preserving well-formedness, when no node on the descent is full. -/
theorem insertNonFull_ok [LinearOrder K] :
    ∀ (h : Nat) (fuel : Nat) (n : BNode K V) (lo hi : Option K) (minK : Nat) (k : K)
      (v : V),
      WF h lo hi minK n → h < fuel → n.is_full = false →
      ltLo lo k → ltHi hi k → listFind (nodeList n) k = none →
      ∃ n', insertNonFull fuel n k v = some n' ∧
        nodeList n' = insertSorted k v (nodeList n) ∧ WF h lo hi minK n' := by
  intro h
  induction h with
  | zero =>
    intro fuel n lo hi minK k v hw hfu hnf hlok hhik hfind
    match fuel, hfu with
    | f + 1, _ =>
    match n with
    | .mk ks vs cs =>
      obtain ⟨hcs, hvl, hmin, hmax, hbc⟩ := wf_leaf_inv hw
      subst hcs
      have hnf2 : ¬ 2 * B - 1 ≤ ks.length := by
        simpa [BNode.is_full, BNode.keys] using hnf
      have hbs := binSearch_spec k ks hbc.1
      match hb : binSearch ks k with
      | .found i =>
        rw [hb] at hbs
        simp only [] at hbs
        have hi2 : i < vs.length := by
          obtain ⟨hlt, _⟩ := List.getElem?_eq_some_iff.mp hbs
          omega
        match hv : vs[i]? with
        | none => rw [List.getElem?_eq_none_iff] at hv; omega
        | some v0 =>
          have hff := listFind_zip_found i ks vs hbc.1 hbs v0 hv
          rw [nodeList_leaf] at hfind
          rw [hfind] at hff
          exact absurd hff (by simp)
      | .notFound i =>
        rw [hb] at hbs
        simp only [] at hbs
        have hvt : (ks.take i).length = (vs.take i).length := by
          simp [List.length_take]
          omega
        refine ⟨.mk (ks.insertIdx i k) (vs.insertIdx i v) [], ?_, ?_, ?_⟩
        · rw [insertNonFull, hb]
          simp only [List.isEmpty_nil, if_true]
          rw [if_pos ⟨hbs.1, by omega⟩]
        · rw [nodeList_leaf, nodeList_leaf,
            insertIdx_eq_take_cons_drop k i ks hbs.1,
            insertIdx_eq_take_cons_drop v i vs (by omega)]
          rw [List.zip_append hvt, List.zip_cons_cons]
          conv_rhs => rw [← List.take_append_drop i ks, ← List.take_append_drop i vs,
            List.zip_append hvt]
          rw [insertSorted_append_lt _ _ ?_, insertSorted_all_gt _ ?_]
          · intro p hp
            exact hbs.2.2 p.1 (List.of_mem_zip hp).1
          · intro p hp
            exact hbs.2.1 p.1 (List.of_mem_zip hp).1
        · rw [insertIdx_eq_take_cons_drop k i ks hbs.1,
            insertIdx_eq_take_cons_drop v i vs (by omega)]
          refine WF.leaf ?_ ?_ ?_ ?_
          · simp [List.length_take, List.length_drop]
            omega
          · simp [List.length_take, List.length_drop]
            omega
          · simp [List.length_take, List.length_drop]
            omega
          · exact boundedChain_insert_at hbc hbs.2.1 hbs.2.2 hlok hhik
  | succ h ih =>
    intro fuel n lo hi minK k v hw hfu hnf hlok hhik hfind
    match fuel, hfu with
    | f + 1, hfu2 =>
    match n with
    | .mk ks vs cs =>
      obtain ⟨hvl, hmin, hmax, hbc, hl⟩ := wf_node_inv hw
      have hlen := loopWF_lengths hl
      have hnf2 : ¬ 2 * B - 1 ≤ ks.length := by
        simpa [BNode.is_full, BNode.keys] using hnf
      have hbs := binSearch_spec k ks hbc.1
      match hb : binSearch ks k with
      | .found i =>
        rw [hb] at hbs
        simp only [] at hbs
        have hi2 : i < vs.length := by
          obtain ⟨hlt, _⟩ := List.getElem?_eq_some_iff.mp hbs
          omega
        match hv : vs[i]? with
        | none => rw [List.getElem?_eq_none_iff] at hv; omega
        | some v0 =>
          have hff := listFind_spine_found i ks vs cs lo hl hbc hbs v0 hv
          rw [hfind] at hff
          exact absurd hff (by simp)
      | .notFound i =>
        rw [hb] at hbs
        simp only [] at hbs
        have hcsne : cs.isEmpty = false := by
          match cs with
          | [] => simp at hlen
          | _ :: _ => simp
        have hic : i < cs.length := by
          have h2 := hlen.2
          omega
        match hci : cs[i]? with
        | none => rw [List.getElem?_eq_none_iff] at hci; omega
        | some c =>
          obtain ⟨mid, F1, F2, F3, F4, F5, F6, F7⟩ :=
            loopWF_focus i ks vs cs lo hl hbc hbs.1
          have hdropc : cs.drop i = c :: cs.drop (i + 1) := by
            obtain ⟨hlt, hg⟩ := List.getElem?_eq_some_iff.mp hci
            rw [List.drop_eq_getElem_cons hlt, hg]
          rw [hdropc] at F1
          have hmidk : ltLo mid k := F7 k hlok hbs.2.1
          obtain ⟨chiC, TAIL, hcw, hchiCd, hnlsuffix, hTAIL, hreplace⟩ := loopWF_head F1 F2
          have hchik : ltHi chiC k := by
            rcases hchiCd with ⟨hks0, hchi⟩ | ⟨k1, ksR, hks1, hchi⟩
            · rw [hchi]
              exact hhik
            · rw [hchi]
              exact ltHi_some.mpr (hbs.2.2 k1 (by rw [hks1]; simp))
          have hvt : (vs.take i).length = (ks.take i).length := by
            simp [List.length_take]
            omega
          have hct : (cs.take i).length = (ks.take i).length := by
            have h2 := hlen.2
            simp [List.length_take]
            omega
          have hnlfull : nodeList (.mk ks vs cs) =
              spinePre (ks.take i) (vs.take i) (cs.take i) ++ (nodeList c ++ TAIL) := by
            conv_lhs => rw [← List.take_append_drop i ks, ← List.take_append_drop i vs,
              ← List.take_append_drop i cs]
            rw [nodeList_append_spine _ _ _ _ _ _ hvt hct, hdropc, hnlsuffix]
          have hnone := listFind_none_iff.mp hfind
          have hnonec : ∀ p ∈ nodeList c, p.1 ≠ k := by
            intro p hp
            exact hnone p (by rw [hnlfull]; simp [hp])
          have hfindc : listFind (nodeList c) k = none := listFind_none_iff.mpr hnonec
          have hpre : ∀ p ∈ spinePre (ks.take i) (vs.take i) (cs.take i), p.1 < k :=
            fun p hp => (F4 p hp).2.2 k hmidk
          have htailk : ∀ p ∈ TAIL, k < p.1 := fun p hp => hTAIL p hp k hchik
          by_cases hful : c.is_full = true
          · -- the child is full: split it, then insert into the proper half
            have hcfull : c.keys.length = 2 * B - 1 := by
              have h1 := wf_keylen hcw
              have h2 : 2 * B - 1 ≤ c.keys.length := by
                simpa [BNode.is_full] using hful
              omega
            obtain ⟨cks, cvs, ccs⟩ := c
            simp only [BNode.keys] at hcfull
            obtain ⟨sk, sv, hsk, hsv, hguard, wfL, wfR, hrecomb, hlosk, hhisk⟩ :=
              splitNode_parts hcw hcfull
            set lnode := BNode.mk (cks.take (B - 1)) (cvs.take (B - 1))
              (if ccs.isEmpty then ccs else ccs.take B) with hlnode
            set rnode := BNode.mk (cks.drop B) (cvs.drop B)
              (if ccs.isEmpty then [] else ccs.drop B) with hrnode
            have hLlist := wf_bounds _ _ _ _ _ wfL
            have hRlist := wf_bounds _ _ _ _ _ wfR
            have hskne : sk ≠ k := by
              refine hnonec (sk, sv) ?_
              rw [← hrecomb]
              simp
            have hB : B = 3 := rfl
            have hsplit : splitChild (.mk ks vs cs) i =
                some (.mk (ks.insertIdx i sk) (vs.insertIdx i sv)
                  ((cs.set i lnode).insertIdx (i + 1) rnode)) := by
              rw [splitChild, hci]
              simp only [BNode.keys, BNode.values, BNode.children]
              rw [if_pos hguard]
              rw [hsk, hsv]
            have hks2 : ks.insertIdx i sk = ks.take i ++ sk :: ks.drop i :=
              insertIdx_eq_take_cons_drop sk i ks hbs.1
            have hvs2 : vs.insertIdx i sv = vs.take i ++ sv :: vs.drop i :=
              insertIdx_eq_take_cons_drop sv i vs (by omega)
            have hcs2 : (cs.set i lnode).insertIdx (i + 1) rnode =
                cs.take i ++ lnode :: rnode :: cs.drop (i + 1) :=
              cs_split_decomp hci _ _
            have htklen : (ks.take i).length = i := by
              simp [List.length_take]
              omega
            have htclen : (cs.take i).length = i := by
              have h2 := hlen.2
              simp [List.length_take]
              omega
            have hki' : (ks.take i ++ sk :: ks.drop i)[i]? = some sk := by
              have h0 := getElem?_len_plus (ks.take i) (sk :: ks.drop i) 0
              rw [htklen] at h0
              simpa using h0
            have hskhi : ltHi hi sk := by
              rcases hchiCd with ⟨hks0, hchi⟩ | ⟨k1, ksR, hks1, hchi⟩
              · rw [hchi] at hhisk
                exact hhisk
              · rw [hchi] at hhisk
                have hk1 : k1 ∈ ks := by
                  have hm : k1 ∈ ks.drop i := by rw [hks1]; simp
                  exact List.drop_subset i ks hm
                intro b hb2
                exact (ltHi_some.mp hhisk).trans ((hbc.2 k1 hk1).2 b hb2)
            have hbcSK : boundedChain (some sk) hi (ks.drop i) := by
              rcases hchiCd with ⟨hks0, hchi⟩ | ⟨k1, ksR, hks1, hchi⟩
              · rw [hks0]
                exact boundedChain_nil
              · rw [hks1]
                rw [hchi] at hhisk
                have hskk1 : sk < k1 := ltHi_some.mp hhisk
                rw [hks1] at F2
                obtain ⟨hbcT, hlok1, hhik1⟩ := boundedChain_peel F2
                exact boundedChain_unpeel hbcT (ltLo_some.mpr hskk1) hhik1
            have hbcNew : boundedChain mid hi (sk :: ks.drop i) :=
              boundedChain_unpeel hbcSK hlosk hskhi
            have hlenL : lnode.keys.length = B - 1 := by
              rw [hlnode]
              simp [BNode.keys, List.length_take]
              omega
            have hlenR : rnode.keys.length = B - 1 := by
              rw [hrnode]
              simp [BNode.keys, List.length_drop]
              omega
            by_cases hskk : sk < k
            · -- insert goes to the right half
              have hfulR : rnode.is_full = false := by
                simp [BNode.is_full, hlenR, hB]
              have hfindR : listFind (nodeList rnode) k = none := by
                rw [listFind_none_iff]
                intro p hp
                refine hnonec p ?_
                rw [← hrecomb]
                simp [hp]
              obtain ⟨c'', hrun, hlist, hwfc⟩ := ih f _ (some sk) chiC (B - 1) k v wfR
                (by omega) hfulR (ltLo_some.mpr hskk) hchik hfindR
              obtain ⟨hloop2, hnl2⟩ := hreplace (some sk) c'' hwfc
              have hcsr : (cs.take i ++ lnode :: rnode :: cs.drop (i + 1))[i + 1]? =
                  some rnode := by
                have h0 := getElem?_len_plus (cs.take i)
                  (lnode :: rnode :: cs.drop (i + 1)) 1
                rw [htclen] at h0
                simpa using h0
              have hsetr : (cs.take i ++ lnode :: rnode :: cs.drop (i + 1)).set
                    (i + 1) c'' =
                  cs.take i ++ lnode :: c'' :: cs.drop (i + 1) := by
                have h0 := set_len_plus (cs.take i)
                  (lnode :: rnode :: cs.drop (i + 1)) 1 c''
                rw [htclen] at h0
                simpa using h0
              refine ⟨.mk (ks.insertIdx i sk) (vs.insertIdx i sv)
                (cs.take i ++ lnode :: c'' :: cs.drop (i + 1)), ?_, ?_, ?_⟩
              · rw [insertNonFull, hb]
                simp only [hcsne, Bool.false_eq_true, if_false]
                rw [hci]
                simp only []
                rw [hful]
                simp only [if_true]
                rw [hsplit]
                simp only []
                rw [hks2, hki']
                simp only []
                rw [if_pos hskk, hcs2, hcsr]
                simp only []
                rw [hrun]
                exact congrArg some (congrArg (BNode.mk _ _) hsetr)
              · rw [hks2, hvs2]
                rw [nodeList_append_spine _ _ _ _ _ _
                  (by simp [List.length_take]; omega) (by simp [List.length_take]; omega)]
                rw [nodeList_cons_spine, hnl2, hlist]
                rw [hnlfull, insertSorted_append_lt _ _ hpre]
                rw [← hrecomb]
                rw [List.append_assoc, List.cons_append]
                rw [insertSorted_append_lt _ _ ?_]
                · rw [insertSorted_cons_lt hskk, insertSorted_append_gt _ _ htailk]
                · intro p hp
                  exact (ltHi_some.mp ((hLlist.1 p hp).2)).trans hskk
              · rw [hks2, hvs2]
                refine WF.node ?_ ?_ ?_ ?_ ?_
                · simp [List.length_take, List.length_drop]
                  omega
                · simp [List.length_take, List.length_drop]
                  omega
                · simp [List.length_take, List.length_drop]
                  omega
                · exact F6 _ hbcNew
                · exact F5 _ _ _ (LoopWF.cons wfL hloop2)
            · -- insert goes to the left half
              have hkl : k < sk :=
                lt_of_le_of_ne (not_lt.mp hskk) (Ne.symm hskne)
              have hfulL : lnode.is_full = false := by
                simp [BNode.is_full, hlenL, hB]
              have hfindL : listFind (nodeList lnode) k = none := by
                rw [listFind_none_iff]
                intro p hp
                refine hnonec p ?_
                rw [← hrecomb]
                simp [hp]
              obtain ⟨c'', hrun, hlist, hwfc⟩ := ih f _ mid (some sk) (B - 1) k v wfL
                (by omega) hfulL hmidk (ltHi_some.mpr hkl) hfindL
              obtain ⟨hloop2, hnl2⟩ := hreplace (some sk) _ wfR
              have hcsl : (cs.take i ++ lnode :: rnode :: cs.drop (i + 1))[i]? =
                  some lnode := by
                have h0 := getElem?_len_plus (cs.take i)
                  (lnode :: rnode :: cs.drop (i + 1)) 0
                rw [htclen] at h0
                simpa using h0
              have hsetl : (cs.take i ++ lnode :: rnode :: cs.drop (i + 1)).set i c'' =
                  cs.take i ++ c'' :: rnode :: cs.drop (i + 1) := by
                have h0 := set_len_plus (cs.take i)
                  (lnode :: rnode :: cs.drop (i + 1)) 0 c''
                rw [htclen] at h0
                simpa using h0
              refine ⟨.mk (ks.insertIdx i sk) (vs.insertIdx i sv)
                (cs.take i ++ c'' :: rnode :: cs.drop (i + 1)), ?_, ?_, ?_⟩
              · rw [insertNonFull, hb]
                simp only [hcsne, Bool.false_eq_true, if_false]
                rw [hci]
                simp only []
                rw [hful]
                simp only [if_true]
                rw [hsplit]
                simp only []
                rw [hks2, hki']
                simp only []
                rw [if_neg hskk, hcs2, hcsl]
                simp only []
                rw [hrun]
                exact congrArg some (congrArg (BNode.mk _ _) hsetl)
              · rw [hks2, hvs2]
                rw [nodeList_append_spine _ _ _ _ _ _
                  (by simp [List.length_take]; omega) (by simp [List.length_take]; omega)]
                rw [nodeList_cons_spine, hnl2, hlist]
                rw [hnlfull, insertSorted_append_lt _ _ hpre]
                rw [← hrecomb]
                rw [List.append_assoc, List.cons_append]
                rw [insertSorted_append_gt _ _ ?_]
                intro p hp
                rcases List.mem_cons.mp hp with hp | hp
                · rw [hp]
                  exact hkl
                · rcases List.mem_append.mp hp with hp | hp
                  · exact hkl.trans (ltLo_some.mp ((hRlist.1 p hp).1))
                  · exact htailk p hp
              · rw [hks2, hvs2]
                refine WF.node ?_ ?_ ?_ ?_ ?_
                · simp [List.length_take, List.length_drop]
                  omega
                · simp [List.length_take, List.length_drop]
                  omega
                · simp [List.length_take, List.length_drop]
                  omega
                · exact F6 _ hbcNew
                · exact F5 _ _ _ (LoopWF.cons hwfc hloop2)
          · -- the child is not full: plain recursive descent
            have hful' : c.is_full = false := by
              rwa [Bool.not_eq_true] at hful
            obtain ⟨c'', hrun, hlist, hwfc⟩ := ih f c mid chiC (B - 1) k v hcw
              (by omega) hful' hmidk hchik hfindc
            obtain ⟨hloop2, hnl2⟩ := hreplace mid c'' hwfc
            have hset : cs.set i c'' = cs.take i ++ c'' :: cs.drop (i + 1) :=
              list_set_decomp hci c''
            refine ⟨.mk ks vs (cs.set i c''), ?_, ?_, ?_⟩
            · rw [insertNonFull, hb]
              simp only [hcsne, Bool.false_eq_true, if_false]
              rw [hci]
              simp only []
              rw [hful']
              simp only [Bool.false_eq_true, if_false]
              rw [hrun]
            · rw [hset]
              conv_lhs => rw [← List.take_append_drop i ks, ← List.take_append_drop i vs]
              rw [nodeList_append_spine _ _ _ _ _ _ hvt hct]
              rw [hnl2, hlist]
              rw [hnlfull, insertSorted_append_lt _ _ hpre,
                insertSorted_append_gt _ _ htailk]
            · rw [hset]
              refine WF.node hvl hmin hmax hbc ?_
              have hlw := F5 (ks.drop i) (vs.drop i) (c'' :: cs.drop (i + 1)) hloop2
              rwa [List.take_append_drop, List.take_append_drop] at hlw

end BTreeModel

namespace BTreeModel

variable {K V : Type}

theorem insertSorted_mem [LinearOrder K] {k : K} {v : V} :
    ∀ (l : List (K × V)) (p : K × V), p ∈ insertSorted k v l ↔ p = (k, v) ∨ p ∈ l := by
  intro l
  induction l with
  | nil => intro p; simp [insertSorted]
  | cons q l' ih =>
    intro p
    match q with
    | (k', v') =>
      rw [insertSorted]
      by_cases hk : k < k'
      · rw [if_pos hk]
        simp
      · rw [if_neg hk]
        simp only [List.mem_cons, ih p]
        constructor
        · rintro (hp | hp | hp)
          · exact Or.inr (Or.inl hp)
          · exact Or.inl hp
          · exact Or.inr (Or.inr hp)
        · rintro (hp | hp | hp)
          · exact Or.inr (Or.inl hp)
          · exact Or.inl hp
          · exact Or.inr (Or.inr hp)

/-- BTree::insert of an unbound key on a nonempty tree: splits a full
root first, then delegates to insert_non_full. -/
theorem btreeInsert_ok [LinearOrder K] {h : Nat} {r : BNode K V}
    (hw : WF h none none 1 r) (k : K) (v : V) (fuel : Nat) (hf : h + 1 < fuel)
    (hfind : listFind (nodeList r) k = none) :
    ∃ r' h', BTree.insert fuel (⟨some r⟩ : BTree K V) k v = some ⟨some r'⟩ ∧
      nodeList r' = insertSorted k v (nodeList r) ∧ WF h' none none 1 r' ∧
      h' ≤ h + 1 := by
  by_cases hrf : r.is_full = true
  · -- split the root
    have hfull : r.keys.length = 2 * B - 1 := by
      have h1 := wf_keylen hw
      have h2 : 2 * B - 1 ≤ r.keys.length := by simpa [BNode.is_full] using hrf
      omega
    obtain ⟨rks, rvs, rcs⟩ := r
    simp only [BNode.keys] at hfull
    obtain ⟨sk, sv, hsk, hsv, hguard, wfL, wfR, hrecomb, _, _⟩ :=
      splitNode_parts hw hfull
    set lnode := BNode.mk (rks.take (B - 1)) (rvs.take (B - 1))
      (if rcs.isEmpty then rcs else rcs.take B) with hlnode
    set rnode := BNode.mk (rks.drop B) (rvs.drop B)
      (if rcs.isEmpty then [] else rcs.drop B) with hrnode
    have hsplit : splitChild (.mk [] [] [BNode.mk rks rvs rcs]) 0 =
        some (.mk [sk] [sv] [lnode, rnode]) := by
      rw [splitChild]
      simp only [List.getElem?_cons_zero]
      simp only [BNode.keys, BNode.values, BNode.children]
      rw [if_pos hguard]
      rw [hsk, hsv]
      rfl
    have hnr : nodeList (BNode.mk [sk] [sv] [lnode, rnode]) =
        nodeList (BNode.mk rks rvs rcs) := by
      rw [nodeList_cons_spine, nodeList_nil_keys]
      exact hrecomb
    have hwfnr : WF (h + 1) none none 1 (BNode.mk [sk] [sv] [lnode, rnode]) := by
      have hB : B = 3 := rfl
      refine WF.node (by simp) (by simp) (by simp [hB]) ?_ ?_
      · exact ⟨by simp, by simp [ltLo_none, ltHi_none]⟩
      · exact LoopWF.cons wfL (LoopWF.last wfR)
    have hnrf : (BNode.mk [sk] [sv] [lnode, rnode]).is_full = false := rfl
    have hfindnr : listFind (nodeList (BNode.mk [sk] [sv] [lnode, rnode])) k = none := by
      rw [hnr]
      exact hfind
    obtain ⟨n', hrun, hlist, hwf'⟩ := insertNonFull_ok (h + 1) fuel _ none none 1 k v
      hwfnr hf hnrf ltLo_none ltHi_none hfindnr
    refine ⟨n', h + 1, ?_, ?_, hwf', le_refl _⟩
    · rw [BTree.insert]
      simp only [hrf, if_true]
      rw [hsplit]
      simp only []
      rw [hrun]
    · rw [hlist, hnr]
  · -- root not full: plain insert
    have hrf' : r.is_full = false := by rwa [Bool.not_eq_true] at hrf
    obtain ⟨n', hrun, hlist, hwf'⟩ := insertNonFull_ok h fuel r none none 1 k v
      hw (by omega) hrf' ltLo_none ltHi_none hfind
    refine ⟨n', h, ?_, hlist, hwf', by omega⟩
    rw [BTree.insert]
    simp only [hrf', Bool.false_eq_true, if_false]
    rw [hrun]

theorem btreeInsert_empty [LinearOrder K] (k : K) (v : V) (fuel : Nat)
    (hf : 0 < fuel) :
    BTree.insert fuel (⟨none⟩ : BTree K V) k v =
      some ⟨some (.mk [k] [v] [])⟩ := by
  match fuel, hf with
  | f + 1, _ =>
    rw [BTree.insert]
    simp only []
    rw [insertNonFull]
    rfl

theorem wf_singleton [LinearOrder K] (k : K) (v : V) :
    WF 0 none none 1 (BNode.mk [k] [v] ([] : List (BNode K V))) := by
  have hB : B = 3 := rfl
  refine WF.leaf (by simp) (by simp) (by simp [hB]) ?_
  exact ⟨by simp, by simp [ltLo_none, ltHi_none]⟩

/-- Folding a list of distinct unbound keys into a well-formed root. -/
theorem runInserts_root_ok [LinearOrder K] :
    ∀ (ins : List (K × V)) (r : BNode K V) (h : Nat) (fuel : Nat),
      WF h none none 1 r →
      (∀ p ∈ ins, listFind (nodeList r) p.1 = none) →
      List.Pairwise (fun p q : K × V => p.1 ≠ q.1) ins →
      h + ins.length + 1 < fuel →
      ∃ r' h', runInserts fuel (⟨some r⟩ : BTree K V) ins = some ⟨some r'⟩ ∧
        WF h' none none 1 r' ∧ h' ≤ h + ins.length ∧
        nodeList r' = ins.foldl (fun l p => insertSorted p.1 p.2 l) (nodeList r) := by
  intro ins
  induction ins with
  | nil =>
    intro r h fuel hw hfind hpw hf
    exact ⟨r, h, rfl, hw, by omega, rfl⟩
  | cons p ins' ih =>
    intro r h fuel hw hfind hpw hf
    obtain ⟨r1, h1, hrun1, hlist1, hwf1, hh1⟩ := btreeInsert_ok hw p.1 p.2 fuel
      (by simp at hf; omega) (hfind p (by simp))
    rw [List.pairwise_cons] at hpw
    have hfind1 : ∀ q ∈ ins', listFind (nodeList r1) q.1 = none := by
      intro q hq
      rw [listFind_none_iff]
      intro x hx
      rw [hlist1] at hx
      rcases (insertSorted_mem _ x).mp hx with hx | hx
      · rw [hx]
        exact fun hc => (hpw.1 q hq) hc
      · exact listFind_none_iff.mp (hfind q (by simp [hq])) x hx
    obtain ⟨r', h', hrun', hwf', hh', hlist'⟩ := ih r1 h1 fuel hwf1 hfind1 hpw.2
      (by simp at hf; omega)
    refine ⟨r', h', ?_, hwf', by simp; omega, ?_⟩
    · rw [runInserts]
      match p with
      | (k, v) =>
        rw [hrun1]
        exact hrun'
    · rw [hlist', hlist1]
      simp

end BTreeModel

namespace BTreeModel

variable {K V : Type}

theorem zip_getLast {ks : List K} :
    ∀ {vs : List V}, vs.length = ks.length → ∀ {kl}, ks.getLast? = some kl →
      ∃ vl, vs.getLast? = some vl ∧ (ks.zip vs).getLast? = some (kl, vl) := by
  induction ks with
  | nil => intro vs _ kl hkl; simp at hkl
  | cons k ks' ih =>
    intro vs hlen kl hkl
    match vs with
    | v :: vs' =>
      match ks', vs' with
      | [], vs' =>
        match vs' with
        | [] =>
          simp at hkl
          exact ⟨v, by simp, by simp [hkl]⟩
        | _ :: _ => simp at hlen
      | k2 :: ks2, [] => simp at hlen
      | k2 :: ks2, v2 :: vs2 =>
        rw [List.getLast?_cons_cons] at hkl
        obtain ⟨vl, hvl, hzl⟩ := ih
          (show (v2 :: vs2).length = (k2 :: ks2).length by simp at hlen ⊢; omega) hkl
        refine ⟨vl, by rw [List.getLast?_cons_cons]; exact hvl, ?_⟩
        rw [List.zip_cons_cons] at hzl
        rw [List.zip_cons_cons, List.zip_cons_cons, List.getLast?_cons_cons]
        exact hzl

theorem zip_head {k : K} {v : V} {ks : List K} {vs : List V} :
    ((k :: ks).zip (v :: vs)).head? = some (k, v) := by
  simp

/-- Every separator key of a spine occurs in the node's entry list. -/
theorem sep_mem_nodeList [LinearOrder K] {h : Nat} {hi : Option K} :
    ∀ (ks : List K) (vs : List V) (cs : List (BNode K V)) (lo : Option K),
      LoopWF h lo hi ks vs cs →
      ∀ kx ∈ ks, ∃ vx, (kx, vx) ∈ nodeList (.mk ks vs cs) := by
  intro ks
  induction ks with
  | nil => intro vs cs lo hl kx hkx; simp at hkx
  | cons k0 ks' ih =>
    intro vs cs lo hl kx hkx
    cases hl with
    | cons hcw hrest =>
      rename_i v0 vs' c0 cs'
      rw [nodeList_cons_spine]
      rcases List.mem_cons.mp hkx with hkx | hkx
      · exact ⟨v0, by simp [hkx]⟩
      · obtain ⟨vx, hvx⟩ := ih vs' cs' (some k0) hrest kx hkx
        exact ⟨vx, by simp [hvx]⟩

theorem loop_tighten_hi_of [LinearOrder K] {h : Nat}
    (ihn : ∀ (n : BNode K V) (lo hi hi' : Option K) (m : Nat), WF h lo hi m n →
      (∀ p ∈ nodeList n, ltHi hi' p.1) → WF h lo hi' m n) :
    ∀ (ks : List K) (vs : List V) (cs : List (BNode K V)) (lo hi hi' : Option K),
      LoopWF h lo hi ks vs cs →
      (∀ p ∈ nodeList (.mk ks vs cs), ltHi hi' p.1) →
      LoopWF h lo hi' ks vs cs := by
  intro ks
  induction ks with
  | nil =>
    intro vs cs lo hi hi' hl hb
    cases hl with
    | last hcw =>
      refine LoopWF.last (ihn _ _ _ _ _ hcw ?_)
      intro p hp
      refine hb p ?_
      rwa [nodeList_nil_keys]
  | cons k0 ks' ihk =>
    intro vs cs lo hi hi' hl hb
    cases hl with
    | cons hcw hrest =>
      refine LoopWF.cons hcw (ihk _ _ _ _ _ hrest ?_)
      intro p hp
      refine hb p ?_
      rw [nodeList_cons_spine]
      simp [hp]

theorem wf_tighten_hi [LinearOrder K] :
    ∀ (h : Nat) (n : BNode K V) (lo hi hi' : Option K) (m : Nat), WF h lo hi m n →
      (∀ p ∈ nodeList n, ltHi hi' p.1) → WF h lo hi' m n := by
  intro h
  induction h with
  | zero =>
    intro n lo hi hi' m hw hb
    cases hw with
    | leaf h1 h2 h3 h4 =>
      rename_i ks vs
      refine WF.leaf h1 h2 h3 ⟨h4.1, ?_⟩
      intro x hx
      refine ⟨(h4.2 x hx).1, ?_⟩
      obtain ⟨j, hjl, hje⟩ := List.mem_iff_getElem.mp hx
      have hvj : j < vs.length := by omega
      refine hb (x, vs[j]) ?_
      rw [nodeList_leaf, List.mem_iff_getElem]
      refine ⟨j, by simp [List.length_zip]; omega, ?_⟩
      rw [List.getElem_zip, hje]
  | succ h ih =>
    intro n lo hi hi' m hw hb
    cases hw with
    | node h1 h2 h3 h4 h5 =>
      rename_i ks vs cs
      have hsep : ∀ kx ∈ ks, ltHi hi' kx := by
        intro kx hkx
        obtain ⟨vx, hvx⟩ := sep_mem_nodeList ks vs cs _ h5 kx hkx
        exact hb (kx, vx) hvx
      exact WF.node h1 h2 h3 ⟨h4.1, fun x hx => ⟨(h4.2 x hx).1, hsep x hx⟩⟩
        (loop_tighten_hi_of ih ks vs cs _ _ _ h5 hb)

theorem wf_tighten_lo [LinearOrder K] :
    ∀ (h : Nat) (n : BNode K V) (lo lo' hi : Option K) (m : Nat), WF h lo hi m n →
      (∀ p ∈ nodeList n, ltLo lo' p.1) → WF h lo' hi m n := by
  intro h
  induction h with
  | zero =>
    intro n lo lo' hi m hw hb
    cases hw with
    | leaf h1 h2 h3 h4 =>
      rename_i ks vs
      refine WF.leaf h1 h2 h3 ⟨h4.1, ?_⟩
      intro x hx
      refine ⟨?_, (h4.2 x hx).2⟩
      obtain ⟨j, hjl, hje⟩ := List.mem_iff_getElem.mp hx
      have hvj : j < vs.length := by omega
      refine hb (x, vs[j]) ?_
      rw [nodeList_leaf, List.mem_iff_getElem]
      refine ⟨j, by simp [List.length_zip]; omega, ?_⟩
      rw [List.getElem_zip, hje]
  | succ h ih =>
    intro n lo lo' hi m hw hb
    cases hw with
    | node h1 h2 h3 h4 h5 =>
      rename_i ks vs cs
      have hsep : ∀ kx ∈ ks, ltLo lo' kx := by
        intro kx hkx
        obtain ⟨vx, hvx⟩ := sep_mem_nodeList ks vs cs lo h5 kx hkx
        exact hb (kx, vx) hvx
      refine WF.node h1 h2 h3 ⟨h4.1, fun x hx => ⟨hsep x hx, (h4.2 x hx).2⟩⟩ ?_
      -- only the first child's lower bound changes
      cases h5 with
      | last hcw =>
        refine LoopWF.last (ih _ _ _ _ _ hcw ?_)
        intro p hp
        refine hb p ?_
        rwa [nodeList_nil_keys]
      | cons hcw hrest =>
        refine LoopWF.cons (ih _ _ _ _ _ hcw ?_) hrest
        intro p hp
        refine hb p ?_
        rw [nodeList_cons_spine]
        simp [hp]

end BTreeModel

namespace BTreeModel

variable {K V : Type}

theorem loopWF_append [LinearOrder K] {h : Nat} {hi : Option K} :
    ∀ (ks1 : List K) (vs1 : List V) (cs1 : List (BNode K V)) (lo : Option K) (km : K),
      LoopWF h lo (some km) ks1 vs1 cs1 →
      ∀ (ks2 : List K) (vs2 : List V) (cs2 : List (BNode K V)) (vm : V),
        LoopWF h (some km) hi ks2 vs2 cs2 →
        LoopWF h lo hi (ks1 ++ km :: ks2) (vs1 ++ vm :: vs2) (cs1 ++ cs2) := by
  intro ks1
  induction ks1 with
  | nil =>
    intro vs1 cs1 lo km hl1 ks2 vs2 cs2 vm hl2
    cases hl1 with
    | last hcw => exact LoopWF.cons hcw hl2
  | cons k0 ks' ih =>
    intro vs1 cs1 lo km hl1 ks2 vs2 cs2 vm hl2
    cases hl1 with
    | cons hcw hrest =>
      exact LoopWF.cons hcw (ih _ _ _ _ hrest ks2 vs2 cs2 vm hl2)

theorem nodeList_merge :
    ∀ (ks1 : List K) (vs1 : List V) (cs1 : List (BNode K V)),
      vs1.length = ks1.length → cs1.length = ks1.length + 1 →
      ∀ (km : K) (vm : V) (ks2 : List K) (vs2 : List V) (cs2 : List (BNode K V)),
        nodeList (.mk (ks1 ++ km :: ks2) (vs1 ++ vm :: vs2) (cs1 ++ cs2)) =
          nodeList (.mk ks1 vs1 cs1) ++ (km, vm) :: nodeList (.mk ks2 vs2 cs2) := by
  intro ks1
  induction ks1 with
  | nil =>
    intro vs1 cs1 h1 h2 km vm ks2 vs2 cs2
    match vs1, cs1 with
    | [], [c] =>
      simp only [List.nil_append, List.cons_append]
      rw [nodeList_cons_spine, nodeList_nil_keys]
  | cons k0 ks' ih =>
    intro vs1 cs1 h1 h2 km vm ks2 vs2 cs2
    match vs1, cs1 with
    | v0 :: vs', c0 :: cs' =>
      simp only [List.cons_append]
      rw [nodeList_cons_spine, nodeList_cons_spine,
        ih vs' cs' (by simpa using h1) (by simpa using h2) km vm ks2 vs2 cs2]
      simp [List.append_assoc]

theorem boundedChain_append [LinearOrder K] {lo hi : Option K} {km : K}
    {ks1 ks2 : List K} (h1 : boundedChain lo (some km) ks1)
    (h2 : boundedChain (some km) hi ks2) (hlo : ltLo lo km) (hhi : ltHi hi km) :
    boundedChain lo hi (ks1 ++ km :: ks2) := by
  constructor
  · rw [List.pairwise_append]
    refine ⟨h1.1, List.pairwise_cons.mpr ⟨fun x hx => ltLo_some.mp ((h2.2 x hx).1), h2.1⟩, ?_⟩
    intro x hx y hy
    have hxm : x < km := ltHi_some.mp ((h1.2 x hx).2)
    rcases List.mem_cons.mp hy with hy | hy
    · exact hy ▸ hxm
    · exact hxm.trans (ltLo_some.mp ((h2.2 y hy).1))
  · intro x hx
    rcases List.mem_append.mp hx with hx | hx
    · refine ⟨(h1.2 x hx).1, ?_⟩
      have hxm : x < km := ltHi_some.mp ((h1.2 x hx).2)
      exact fun b hb => hxm.trans (hhi b hb)
    · rcases List.mem_cons.mp hx with hx | hx
      · exact hx ▸ ⟨hlo, hhi⟩
      · refine ⟨?_, (h2.2 x hx).2⟩
        have hxm : km < x := ltLo_some.mp ((h2.2 x hx).1)
        exact fun a ha => (hlo a ha).trans hxm

theorem loopWF_chop_last [LinearOrder K] {h : Nat} {hi : Option K} :
    ∀ (ks : List K) (vs : List V) (cs : List (BNode K V)) (lo : Option K),
      LoopWF h lo hi ks vs cs → ∀ klast, ks.getLast? = some klast →
      ∃ vlast clast, vs.getLast? = some vlast ∧ cs.getLast? = some clast ∧
        WF h (some klast) hi (B - 1) clast ∧
        LoopWF h lo (some klast) ks.dropLast vs.dropLast cs.dropLast ∧
        nodeList (.mk ks vs cs) =
          nodeList (.mk ks.dropLast vs.dropLast cs.dropLast) ++
            (klast, vlast) :: nodeList clast := by
  intro ks
  induction ks with
  | nil => intro vs cs lo hl klast hkl; simp at hkl
  | cons k0 ks' ih =>
    intro vs cs lo hl klast hkl
    cases hl with
    | cons hcw hrest =>
      rename_i v0 vs' c0 cs'
      match ks', hrest with
      | [], hrest =>
        cases hrest with
        | last hc2 =>
          rename_i c1
          simp only [List.getLast?_singleton, Option.some_inj] at hkl
          subst hkl
          refine ⟨v0, c1, rfl, rfl, hc2, ?_, ?_⟩
          · simpa using LoopWF.last hcw
          · rw [nodeList_cons_spine, nodeList_nil_keys]
            simp [nodeList_nil_keys]
      | k1 :: ks'', hrest =>
        rw [List.getLast?_cons_cons] at hkl
        obtain ⟨vlast, clast, hvl, hcl, hwfc, hchop, hnl⟩ := ih _ _ _ hrest klast hkl
        have hvs' : vs' ≠ [] := by
          have hlen := loopWF_lengths hrest
          intro hc
          rw [hc] at hlen
          simp at hlen
        have hcs' : cs' ≠ [] := by
          have hlen := loopWF_lengths hrest
          intro hc
          rw [hc] at hlen
          simp at hlen
        match vs', cs', hvs', hcs' with
        | vx :: vs'', cx :: cs'', _, _ =>
          refine ⟨vlast, clast, by rw [List.getLast?_cons_cons]; exact hvl,
            by rw [List.getLast?_cons_cons]; exact hcl, hwfc, ?_, ?_⟩
          · rw [List.dropLast_cons₂, List.dropLast_cons₂, List.dropLast_cons₂]
            exact LoopWF.cons hcw hchop
          · rw [nodeList_cons_spine, hnl]
            rw [List.dropLast_cons₂, List.dropLast_cons₂, List.dropLast_cons₂]
            rw [nodeList_cons_spine]
            simp [List.append_assoc]

theorem findPredecessor_ok [LinearOrder K] :
    ∀ (h fuel : Nat) (n : BNode K V) (lo hi : Option K) (m : Nat),
      WF h lo hi m n → h < fuel → 1 ≤ n.keys.length →
      ∃ p, findPredecessor fuel n = some p ∧ (nodeList n).getLast? = some p := by
  intro h
  induction h with
  | zero =>
    intro fuel n lo hi m hw hf hk
    match fuel, hf with
    | f + 1, _ =>
    match n with
    | .mk ks vs cs =>
      obtain ⟨hcs, hvl, _, _, _⟩ := wf_leaf_inv hw
      subst hcs
      simp only [BNode.keys] at hk
      match hkl : ks.getLast? with
      | none =>
        rw [List.getLast?_eq_none_iff] at hkl
        rw [hkl] at hk
        simp at hk
      | some kl =>
        obtain ⟨vl, hvlast, hzl⟩ := zip_getLast hvl hkl
        refine ⟨(kl, vl), ?_, by rw [nodeList_leaf]; exact hzl⟩
        rw [findPredecessor]
        simp only [List.isEmpty_nil, if_true]
        rw [hkl, hvlast]
  | succ h ih =>
    intro fuel n lo hi m hw hf hk
    match fuel, hf with
    | f + 1, hf2 =>
    match n with
    | .mk ks vs cs =>
      obtain ⟨hvl, hmin, hmax, hbc, hl⟩ := wf_node_inv hw
      obtain ⟨c, lo', hg, hcw, heq⟩ := spinePre_last hl
      have hcne : cs.isEmpty = false := by
        have hlen := (loopWF_lengths hl).2
        match cs with
        | [] => simp at hlen
        | _ :: _ => simp
      have hck : 1 ≤ c.keys.length := by
        have h1 := (wf_keylen hcw).1
        have hB : B = 3 := rfl
        omega
      obtain ⟨p, hrun, hlast⟩ := ih f c lo' hi (B - 1) hcw (by omega) hck
      refine ⟨p, ?_, ?_⟩
      · rw [findPredecessor]
        simp only [hcne, Bool.false_eq_true, if_false]
        rw [hg]
        exact hrun
      · rw [heq, List.getLast?_append, hlast]
        rfl
  
theorem findSuccessor_ok [LinearOrder K] :
    ∀ (h fuel : Nat) (n : BNode K V) (lo hi : Option K) (m : Nat),
      WF h lo hi m n → h < fuel → 1 ≤ n.keys.length →
      ∃ p, findSuccessor fuel n = some p ∧ (nodeList n).head? = some p := by
  intro h
  induction h with
  | zero =>
    intro fuel n lo hi m hw hf hk
    match fuel, hf with
    | f + 1, _ =>
    match n with
    | .mk ks vs cs =>
      obtain ⟨hcs, hvl, _, _, _⟩ := wf_leaf_inv hw
      subst hcs
      simp only [BNode.keys] at hk
      match ks, vs, hvl with
      | k0 :: ks', v0 :: vs', _ =>
        refine ⟨(k0, v0), ?_, by rw [nodeList_leaf]; exact zip_head⟩
        rw [findSuccessor]
        simp
  | succ h ih =>
    intro fuel n lo hi m hw hf hk
    match fuel, hf with
    | f + 1, hf2 =>
    match n with
    | .mk ks vs cs =>
      obtain ⟨hvl, hmin, hmax, hbc, hl⟩ := wf_node_inv hw
      simp only [BNode.keys] at hk
      match ks, vs, hl with
      | k0 :: ks', v0 :: vs', hl =>
        cases hl with
        | cons hcw hrest =>
          rename_i c0 cs'
          have hck : 1 ≤ c0.keys.length := by
            have h1 := (wf_keylen hcw).1
            have hB : B = 3 := rfl
            omega
          obtain ⟨p, hrun, hhead⟩ := ih f c0 lo (some k0) (B - 1) hcw (by omega) hck
          refine ⟨p, ?_, ?_⟩
          · rw [findSuccessor]
            simp only [List.isEmpty_cons, Bool.false_eq_true, if_false]
            simp only [List.head?_cons]
            exact hrun
          · rw [nodeList_cons_spine, List.head?_append, hhead]
            rfl

end BTreeModel

namespace BTreeModel

variable {K V : Type}

theorem list_getLast_decomp {α : Type} {l : List α} {a : α}
    (h : l.getLast? = some a) : l = l.dropLast ++ [a] := by
  match l, h with
  | x :: l', h =>
    have hne : x :: l' ≠ [] := by simp
    have h2 := List.dropLast_append_getLast hne
    rw [List.getLast?_eq_getLast _ hne, Option.some_inj] at h
    conv_lhs => rw [← h2]
    rw [h]

theorem eraseIdx_len_plus {α : Type} : ∀ (A B : List α) (n : Nat),
    (A ++ B).eraseIdx (A.length + n) = A ++ B.eraseIdx n := by
  intro A
  induction A with
  | nil => intro B n; simp
  | cons a A' ih =>
    intro B n
    simp only [List.cons_append, List.length_cons]
    rw [Nat.succ_add, List.eraseIdx_cons_succ, ih]

theorem boundedChain_chop [LinearOrder K] {lo hi0 : Option K} {ks : List K} {lk : K}
    (hbc : boundedChain lo hi0 ks) (hkl : ks.getLast? = some lk) :
    boundedChain lo (some lk) ks.dropLast ∧ ltLo lo lk ∧ ltHi hi0 lk := by
  have hdec := list_getLast_decomp hkl
  have hmem : lk ∈ ks := by rw [hdec]; simp
  have hpw := hbc.1
  rw [hdec, List.pairwise_append] at hpw
  refine ⟨⟨hpw.1, ?_⟩, (hbc.2 lk hmem).1, (hbc.2 lk hmem).2⟩
  intro x hx
  have hxm : x ∈ ks := by rw [hdec]; exact List.mem_append.mpr (Or.inl hx)
  exact ⟨(hbc.2 x hxm).1, ltHi_some.mpr (hpw.2.2 x hx lk (by simp))⟩

/-- Merging two minimal siblings around their separator yields a full
well-formed node carrying the concatenated entry list (the shape built
by merge_with_left / merge_with_right). -/
theorem merge_nodes [LinearOrder K] {h : Nat} {lo hi2 : Option K} {km : K} (vm : V)
    {lc rc : BNode K V}
    (hl : WF h lo (some km) (B - 1) lc) (hr : WF h (some km) hi2 (B - 1) rc)
    (hlo : ltLo lo km) (hhi : ltHi hi2 km)
    (hllen : lc.keys.length = B - 1) (hrlen : rc.keys.length = B - 1) :
    WF h lo hi2 (2 * B - 1)
      (BNode.mk (lc.keys ++ km :: rc.keys) (lc.values ++ vm :: rc.values)
        (if rc.children.isEmpty then lc.children else lc.children ++ rc.children)) ∧
    nodeList (BNode.mk (lc.keys ++ km :: rc.keys) (lc.values ++ vm :: rc.values)
        (if rc.children.isEmpty then lc.children else lc.children ++ rc.children)) =
      nodeList lc ++ (km, vm) :: nodeList rc := by
  have hB : B = 3 := rfl
  match h, lc, rc, hl, hr with
  | 0, .mk lks lvs lcs, .mk rks rvs rcs, hl, hr =>
    obtain ⟨hlcs, hlvl, hlmin, hlmax, hlbc⟩ := wf_leaf_inv hl
    obtain ⟨hrcs, hrvl, hrmin, hrmax, hrbc⟩ := wf_leaf_inv hr
    subst hlcs hrcs
    simp only [BNode.keys, BNode.values, BNode.children, List.isEmpty_nil,
      if_true] at hllen hrlen ⊢
    constructor
    · refine WF.leaf (by simp; omega) (by simp; omega) (by simp; omega)
        (boundedChain_append hlbc hrbc hlo hhi)
    · rw [nodeList_leaf, nodeList_leaf, nodeList_leaf,
        List.zip_append (by omega), List.zip_cons_cons]
  | h' + 1, .mk lks lvs lcs, .mk rks rvs rcs, hl, hr =>
    obtain ⟨hlvl, hlmin, hlmax, hlbc, hlsp⟩ := wf_node_inv hl
    obtain ⟨hrvl, hrmin, hrmax, hrbc, hrsp⟩ := wf_node_inv hr
    have hllen2 := loopWF_lengths hlsp
    have hrlen2 := loopWF_lengths hrsp
    simp only [BNode.keys, BNode.values, BNode.children] at hllen hrlen ⊢
    have hrcse : rcs.isEmpty = false := by
      match rcs with
      | [] => simp at hrlen2
      | _ :: _ => simp
    simp only [hrcse, Bool.false_eq_true, if_false]
    constructor
    · refine WF.node (by simp; omega) (by simp; omega) (by simp; omega)
        (boundedChain_append hlbc hrbc hlo hhi) ?_
      exact loopWF_append lks lvs lcs lo km hlsp rks rvs rcs vm hrsp
    · exact nodeList_merge lks lvs lcs hlvl hllen2.2 km vm rks rvs rcs

end BTreeModel

namespace BTreeModel

variable {K V : Type}

/-- The pieces moved by borrow_from_left: the left sibling loses its
largest entry (and last child), which grafts onto the separator and the
deficient child. -/
theorem borrow_left_combined [LinearOrder K] {h : Nat} {lo hi2 : Option K} {sep : K}
    (spv : V) {ls tc : BNode K V}
    (hls : WF h lo (some sep) (B - 1) ls) (htc : WF h (some sep) hi2 (B - 1) tc)
    (hge : B ≤ ls.keys.length) (hsep_hi : ltHi hi2 sep)
    (htclen : tc.keys.length < B) :
    ∃ (lk : K) (lv : V) (ls' c3 : BNode K V) (LCL : List (K × V)),
      ls.keys.getLast? = some lk ∧ ls.values.getLast? = some lv ∧
      ((ls.children.isEmpty = true ∧
          ls' = BNode.mk ls.keys.dropLast ls.values.dropLast ls.children ∧
          c3 = BNode.mk (sep :: tc.keys) (spv :: tc.values) tc.children) ∨
        (∃ lc, ls.children.isEmpty = false ∧ ls.children.getLast? = some lc ∧
          ls' = BNode.mk ls.keys.dropLast ls.values.dropLast ls.children.dropLast ∧
          c3 = BNode.mk (sep :: tc.keys) (spv :: tc.values) (lc :: tc.children))) ∧
      WF h lo (some lk) (B - 1) ls' ∧
      WF h (some lk) hi2 0 c3 ∧
      c3.keys.length = tc.keys.length + 1 ∧
      ls'.keys.length = ls.keys.length - 1 ∧
      ltLo lo lk ∧ ltHi hi2 lk ∧ lk < sep ∧
      nodeList ls = nodeList ls' ++ (lk, lv) :: LCL ∧
      nodeList c3 = LCL ++ (sep, spv) :: nodeList tc ∧
      (∀ p ∈ LCL, p.1 < sep) := by
  have hB : B = 3 := rfl
  match h, ls, tc, hls, htc with
  | 0, .mk lks lvs lcs, .mk tks tvs tcs, hls, htc =>
    obtain ⟨hlcs, hlvl, hlmin, hlmax, hlbc⟩ := wf_leaf_inv hls
    obtain ⟨htcs, htvl, htmin, htmax, htbc⟩ := wf_leaf_inv htc
    subst hlcs htcs
    simp only [BNode.keys, BNode.values, BNode.children] at hge htclen ⊢
    match hkl : lks.getLast? with
    | none =>
      rw [List.getLast?_eq_none_iff] at hkl
      rw [hkl] at hge
      simp at hge
      omega
    | some lk =>
      obtain ⟨lv, hlv, hzl⟩ := zip_getLast hlvl hkl
      obtain ⟨bcDL, hlolk, hlksep⟩ := boundedChain_chop hlbc hkl
      have hkdec := list_getLast_decomp hkl
      have hvdec := list_getLast_decomp hlv
      have hdll : lvs.dropLast.length = lks.dropLast.length := by
        simp [List.length_dropLast]
        omega
      refine ⟨lk, lv, _, _, [], rfl, hlv, Or.inl ⟨(by simp), rfl, rfl⟩, ?_, ?_,
        (by simp [BNode.keys]), (by simp [BNode.keys, List.length_dropLast]), hlolk,
        (fun b hb => (ltHi_some.mp hlksep).trans (hsep_hi b hb)), ltHi_some.mp hlksep,
        ?_, ?_, (by simp)⟩
      · refine WF.leaf (by simp [List.length_dropLast]; omega) ?_ ?_ bcDL
        · simp [List.length_dropLast]
          omega
        · simp [List.length_dropLast]
          omega
      · refine WF.leaf (by simp; omega) (by simp) (by simp; omega) ?_
        exact boundedChain_unpeel htbc (ltLo_some.mpr (ltHi_some.mp hlksep)) hsep_hi
      · rw [nodeList_leaf, nodeList_leaf]
        conv_lhs => rw [hkdec, hvdec]
        rw [List.zip_append (by simp [List.length_dropLast]; omega)]
        simp
      · rw [nodeList_leaf, nodeList_leaf]
        rfl
  | h' + 1, .mk lks lvs lcs, .mk tks tvs tcs, hls, htc =>
    obtain ⟨hlvl, hlmin, hlmax, hlbc, hlsp⟩ := wf_node_inv hls
    obtain ⟨htvl, htmin, htmax, htbc, htsp⟩ := wf_node_inv htc
    have hllen2 := loopWF_lengths hlsp
    simp only [BNode.keys, BNode.values, BNode.children] at hge htclen ⊢
    match hkl : lks.getLast? with
    | none =>
      rw [List.getLast?_eq_none_iff] at hkl
      rw [hkl] at hge
      simp at hge
      omega
    | some lk =>
      obtain ⟨lv, lc, hlv, hlc, hwfc, hchop, hnl⟩ := loopWF_chop_last _ _ _ _ hlsp lk hkl
      obtain ⟨bcDL, hlolk, hlksep⟩ := boundedChain_chop hlbc hkl
      have hlcse : lcs.isEmpty = false := by
        match lcs with
        | [] => simp at hllen2
        | _ :: _ => simp
      refine ⟨lk, lv, _, _, nodeList lc, rfl, hlv,
        Or.inr ⟨lc, hlcse, hlc, rfl, rfl⟩, ?_, ?_,
        (by simp [BNode.keys]), (by simp [BNode.keys, List.length_dropLast]), hlolk,
        (fun b hb => (ltHi_some.mp hlksep).trans (hsep_hi b hb)), ltHi_some.mp hlksep,
        hnl, ?_, ?_⟩
      · refine WF.node ?_ ?_ ?_ bcDL hchop
        · simp [List.length_dropLast]
          omega
        · simp [List.length_dropLast]
          omega
        · simp [List.length_dropLast]
          omega
      · refine WF.node (by simp; omega) (by simp) (by simp; omega) ?_ ?_
        · exact boundedChain_unpeel htbc (ltLo_some.mpr (ltHi_some.mp hlksep)) hsep_hi
        · exact LoopWF.cons hwfc htsp
      · rw [nodeList_cons_spine]
      · intro p hp
        exact ltHi_some.mp ((wf_bounds _ _ _ _ _ hwfc).1 p hp).2

/-- The pieces moved by borrow_from_right: the right sibling loses its
smallest entry (and first child), which grafts onto the separator and
the deficient child. -/
theorem borrow_right_combined [LinearOrder K] {h : Nat} {lo2 hi2 : Option K} {sep : K}
    (spv : V) {tc rs : BNode K V}
    (htc : WF h lo2 (some sep) (B - 1) tc) (hrs : WF h (some sep) hi2 (B - 1) rs)
    (hge : B ≤ rs.keys.length) (hsep_lo : ltLo lo2 sep)
    (htclen : tc.keys.length < B) :
    ∃ (rk : K) (rv : V) (rs' c3 : BNode K V) (RCL : List (K × V)),
      rs.keys.head? = some rk ∧ rs.values.head? = some rv ∧
      ((rs.children.isEmpty = true ∧
          rs' = BNode.mk rs.keys.tail rs.values.tail rs.children ∧
          c3 = BNode.mk (tc.keys ++ [sep]) (tc.values ++ [spv]) tc.children) ∨
        (∃ rc0, rs.children.isEmpty = false ∧ rs.children.head? = some rc0 ∧
          rs' = BNode.mk rs.keys.tail rs.values.tail rs.children.tail ∧
          c3 = BNode.mk (tc.keys ++ [sep]) (tc.values ++ [spv])
            (tc.children ++ [rc0]))) ∧
      WF h (some rk) hi2 (B - 1) rs' ∧
      WF h lo2 (some rk) 0 c3 ∧
      c3.keys.length = tc.keys.length + 1 ∧
      rs'.keys.length = rs.keys.length - 1 ∧
      ltLo lo2 rk ∧ ltHi hi2 rk ∧ sep < rk ∧
      nodeList rs = RCL ++ (rk, rv) :: nodeList rs' ∧
      nodeList c3 = nodeList tc ++ (sep, spv) :: RCL ∧
      (∀ p ∈ RCL, sep < p.1) := by
  have hB : B = 3 := rfl
  match h, tc, rs, htc, hrs with
  | 0, .mk tks tvs tcs, .mk rks rvs rcs, htc, hrs =>
    obtain ⟨htcs, htvl, htmin, htmax, htbc⟩ := wf_leaf_inv htc
    obtain ⟨hrcs, hrvl, hrmin, hrmax, hrbc⟩ := wf_leaf_inv hrs
    subst htcs hrcs
    simp only [BNode.keys, BNode.values, BNode.children] at hge htclen ⊢
    match rks, rvs, hrvl with
    | rk :: rks', rv :: rvs', hrvl =>
      obtain ⟨bcT, hseprk, hhirk⟩ := boundedChain_peel hrbc
      refine ⟨rk, rv, _, _, [], rfl, rfl, Or.inl ⟨(by simp), rfl, rfl⟩, ?_, ?_,
        (by simp [BNode.keys]), (by simp [BNode.keys]),
        (fun a ha => (hsep_lo a ha).trans (ltLo_some.mp hseprk)),
        hhirk, ltLo_some.mp hseprk, ?_, ?_, (by simp)⟩
      · refine WF.leaf (by simpa using hrvl) (by simp at hge ⊢; omega)
          (by simp at hrmax ⊢; omega) bcT
      · refine WF.leaf (by simp; omega) (by simp) (by simp; omega) ?_
        exact boundedChain_append htbc boundedChain_nil hsep_lo
          (ltHi_some.mpr (ltLo_some.mp hseprk))
      · rw [nodeList_leaf, nodeList_leaf, List.zip_cons_cons]
        rfl
      · rw [nodeList_leaf, nodeList_leaf,
          List.zip_append (by omega)]
        rfl
  | h' + 1, .mk tks tvs tcs, .mk rks rvs rcs, htc, hrs =>
    obtain ⟨htvl, htmin, htmax, htbc, htsp⟩ := wf_node_inv htc
    obtain ⟨hrvl, hrmin, hrmax, hrbc, hrsp⟩ := wf_node_inv hrs
    have htlen2 := loopWF_lengths htsp
    simp only [BNode.keys, BNode.values, BNode.children] at hge htclen ⊢
    match rks, rvs, rcs, hrsp with
    | rk :: rks', rv :: rvs', rc0 :: rcs', hrsp =>
      cases hrsp with
      | cons hc0 hrest0 =>
        obtain ⟨bcT, hseprk, hhirk⟩ := boundedChain_peel hrbc
        refine ⟨rk, rv, _, _, nodeList rc0, rfl, rfl,
          Or.inr ⟨rc0, (by simp), rfl, rfl, rfl⟩, ?_, ?_,
          (by simp [BNode.keys]), (by simp [BNode.keys]),
          (fun a ha => (hsep_lo a ha).trans (ltLo_some.mp hseprk)),
          hhirk, ltLo_some.mp hseprk, ?_, ?_, ?_⟩
        · refine WF.node (by simpa using hrvl) (by simp at hge ⊢; omega)
            (by simp at hrmax ⊢; omega) bcT hrest0
        · refine WF.node (by simp; omega) (by simp) (by simp; omega) ?_ ?_
          · exact boundedChain_append htbc boundedChain_nil hsep_lo
              (ltHi_some.mpr (ltLo_some.mp hseprk))
          · refine loopWF_append tks tvs tcs lo2 sep htsp [] [] [rc0] spv ?_
            exact LoopWF.last hc0
        · rw [nodeList_cons_spine]
          rfl
        · rw [nodeList_merge tks tvs tcs htvl htlen2.2 sep spv [] [] [rc0],
            nodeList_nil_keys]
        · intro p hp
          exact ltLo_some.mp ((wf_bounds _ _ _ _ _ hc0).1 p hp).1

end BTreeModel

namespace BTreeModel

variable {K V : Type}

theorem boundedChain_sublist [LinearOrder K] {lo hi : Option K} {ks l' : List K}
    (h : boundedChain lo hi ks) (hs : l'.Sublist ks) : boundedChain lo hi l' :=
  ⟨h.1.sublist hs, fun x hx => h.2 x (hs.subset hx)⟩

/-- A strict lower bound of a nonempty well-formed node lies below the
node's upper bound. -/
theorem wf_lo_lt_hi [LinearOrder K] {h : Nat} {a : K} {hi2 : Option K} {m : Nat}
    {n : BNode K V} (hw : WF h (some a) hi2 m n) (hk : 1 ≤ n.keys.length) :
    ltHi hi2 a := by
  match n with
  | .mk ks vs cs =>
    simp only [BNode.keys] at hk
    match ks, hk with
    | k0 :: ks', _ =>
      have hbc : boundedChain (some a) hi2 (k0 :: ks') := by
        cases hw with
        | leaf h1 h2 h3 h4 => exact h4
        | node h1 h2 h3 h4 h5 => exact h4
      have h0 := hbc.2 k0 (by simp)
      intro b hb
      exact (ltLo_some.mp h0.1).trans (h0.2 b hb)

theorem chiC_to_hi [LinearOrder K] {hi chiC : Option K} {ksR : List K} {x : K}
    (hd : (ksR = [] ∧ chiC = hi) ∨ ∃ k1 ksR', ksR = k1 :: ksR' ∧ chiC = some k1)
    (hsub : ∀ y ∈ ksR, ltHi hi y) (hx : ltHi chiC x) : ltHi hi x := by
  rcases hd with ⟨h1, h2⟩ | ⟨k1, ksR', h1, h2⟩
  · rw [h2] at hx
    exact hx
  · rw [h2] at hx
    have hk1 : ltHi hi k1 := hsub k1 (by rw [h1]; simp)
    intro b hb
    exact (ltHi_some.mp hx).trans (hk1 b hb)

theorem sibHasB_true_iff {o : Option (BNode K V)} :
    sibHasB o = true ↔ ∃ sib, o = some sib ∧ B ≤ sib.keys.length := by
  match o with
  | none => simp [sibHasB]
  | some sib =>
    simp [sibHasB]

end BTreeModel

namespace BTreeModel

variable {K V : Type}

/-- Case 2a of Node::delete: key found in an internal node whose left
child can spare a key; the in-order predecessor replaces the separator. -/
theorem delete_case2a [LinearOrder K] {h : Nat} (ihd : DeleteOK (K := K) V h)
    (f : Nat) (hf : h < f)
    (ks : List K) (vs : List V) (cs : List (BNode K V)) (lo hi : Option K) (k : K)
    (hvl : vs.length = ks.length) (hmax : ks.length ≤ 2 * B - 1)
    (hbc : boundedChain lo hi ks) (hl : LoopWF h lo hi ks vs cs)
    (i : Nat) (hb : binSearch ks k = .found i) (hki : ks[i]? = some k)
    (lc : BNode K V) (hci : cs[i]? = some lc) (hgl : B ≤ lc.keys.length) :
    ∃ (dv : Option V) (n' : BNode K V),
      nodeDelete (f + 1) (.mk ks vs cs) k = some (dv, n') ∧
      nodeList n' = eraseKey k (nodeList (.mk ks vs cs)) ∧
      WF (h + 1) lo hi 0 n' ∧
      ks.length - 1 ≤ n'.keys.length ∧ n'.keys.length ≤ ks.length := by
  have hB : B = 3 := rfl
  have hclen := (loopWF_lengths hl).2
  have hilt : i < ks.length := (List.getElem?_eq_some_iff.mp hki).1
  have hgetk : ks[i] = k := (List.getElem?_eq_some_iff.mp hki).2
  have hivlt : i < vs.length := by omega
  have hiclt : i < cs.length := by omega
  have hgetc : cs[i] = lc := (List.getElem?_eq_some_iff.mp hci).2
  have hvi : vs[i]? = some vs[i] := List.getElem?_eq_getElem hivlt
  obtain ⟨mid, F1, F2, F3, F4, F5, F6, F7⟩ :=
    loopWF_focus i ks vs cs lo hl hbc (le_of_lt hilt)
  have hdropk : ks.drop i = k :: ks.drop (i + 1) := by
    rw [List.drop_eq_getElem_cons hilt, hgetk]
  have hdropv : vs.drop i = vs[i] :: vs.drop (i + 1) :=
    List.drop_eq_getElem_cons hivlt
  have hdropc : cs.drop i = lc :: cs.drop (i + 1) := by
    rw [List.drop_eq_getElem_cons hiclt, hgetc]
  rw [hdropk, hdropv, hdropc] at F1
  rw [hdropk] at F2
  obtain ⟨F2', hmidk, hhik⟩ := boundedChain_peel F2
  cases F1 with
  | cons hlcW hrest =>
  have hlck : 1 ≤ lc.keys.length := by omega
  obtain ⟨⟨pk, pv⟩, hrunP, hlastP⟩ :=
    findPredecessor_ok h f lc mid (some k) (B - 1) hlcW hf hlck
  set I := (nodeList lc).dropLast with hI
  have hdecl : nodeList lc = I ++ [(pk, pv)] := list_getLast_decomp hlastP
  have hEOK := wf_bounds h lc mid (some k) (B - 1) hlcW
  have hpkmem : (pk, pv) ∈ nodeList lc := by rw [hdecl]; simp
  have hpklo : ltLo mid pk := (hEOK.1 _ hpkmem).1
  have hpkk : pk < k := ltHi_some.mp (hEOK.1 _ hpkmem).2
  have hIlt : ∀ p ∈ I, p.1 < pk := by
    have hpw := hEOK.2
    rw [hdecl] at hpw
    rw [List.pairwise_append] at hpw
    intro p hp
    exact hpw.2.2 p hp (pk, pv) (by simp)
  obtain ⟨dv, lc', hrunD, hlistD, hwfD, hlen1, hlen2⟩ :=
    ihd f lc mid (some k) pk (wf_minK hlcW (Nat.zero_le _)) hf hlck hpklo
      (ltHi_some.mpr hpkk)
  have herase : nodeList lc' = I := by
    rw [hlistD, hdecl, eraseKey_append,
      eraseKey_of_ne (fun p hp => ne_of_lt (hIlt p hp))]
    rw [show eraseKey pk [(pk, pv)] = ([] : List (K × V)) by simp [eraseKey]]
    simp
  have hwfT : WF h mid (some pk) 0 lc' := by
    refine wf_tighten_hi h lc' mid (some k) (some pk) 0 hwfD ?_
    intro p hp
    rw [herase] at hp
    exact ltHi_some.mpr (hIlt p hp)
  have hwfT2 : WF h mid (some pk) (B - 1) lc' := wf_minK hwfT (by omega)
  have hrestW : LoopWF h (some pk) hi (ks.drop (i + 1)) (vs.drop (i + 1))
      (cs.drop (i + 1)) := by
    refine loopWF_widen_of (wf_widen h) _ _ _ (some k) hi (some pk) hi hrest ?_
      (fun x hx => hx)
    intro x hx
    exact ltLo_some.mpr (hpkk.trans (ltLo_some.mp hx))
  have hNewLoop : LoopWF h mid hi (pk :: ks.drop (i + 1)) (pv :: vs.drop (i + 1))
      (lc' :: cs.drop (i + 1)) := LoopWF.cons hwfT2 hrestW
  have hbcR : boundedChain (some pk) hi (ks.drop (i + 1)) := by
    refine boundedChain_weaken F2' ?_ (fun x hx => hx)
    intro x hx
    exact ltLo_some.mpr (hpkk.trans (ltLo_some.mp hx))
  have hpkhi : ltHi hi pk := fun b hb2 => hpkk.trans (hhik b hb2)
  have hNewChain : boundedChain mid hi (pk :: ks.drop (i + 1)) :=
    boundedChain_unpeel hbcR hpklo hpkhi
  have hsetk : ks.set i pk = ks.take i ++ pk :: ks.drop (i + 1) :=
    list_set_decomp hki pk
  have hsetv : vs.set i pv = vs.take i ++ pv :: vs.drop (i + 1) :=
    list_set_decomp hvi pv
  have hsetc : cs.set i lc' = cs.take i ++ lc' :: cs.drop (i + 1) :=
    list_set_decomp hci lc'
  have h1 : (vs.take i).length = (ks.take i).length := by
    simp [List.length_take]
    omega
  have h2 : (cs.take i).length = (ks.take i).length := by
    simp [List.length_take]
    omega
  have hksdec : ks = ks.take i ++ k :: ks.drop (i + 1) := list_decomp_at hki
  have hvsdec : vs = vs.take i ++ vs[i] :: vs.drop (i + 1) := list_decomp_at hvi
  have hcsdec : cs = cs.take i ++ lc :: cs.drop (i + 1) := list_decomp_at hci
  have hcne : cs.isEmpty = false := by
    match cs with
    | [] => simp at hclen
    | _ :: _ => simp
  have hfull : nodeList (.mk ks vs cs) =
      spinePre (ks.take i) (vs.take i) (cs.take i) ++
        (nodeList lc ++ (k, vs[i]) ::
          nodeList (.mk (ks.drop (i + 1)) (vs.drop (i + 1)) (cs.drop (i + 1)))) := by
    conv_lhs => rw [hksdec, hvsdec, hcsdec]
    rw [nodeList_append_spine _ _ _ _ _ _ h1 h2, nodeList_cons_spine]
  have hera : eraseKey k (nodeList (.mk ks vs cs)) =
      spinePre (ks.take i) (vs.take i) (cs.take i) ++
        (nodeList lc ++
          nodeList (.mk (ks.drop (i + 1)) (vs.drop (i + 1)) (cs.drop (i + 1)))) := by
    rw [hfull, eraseKey_append, eraseKey_append,
      eraseKey_of_ne (fun p hp => ne_of_lt ((F4 p hp).2.2 k hmidk)),
      eraseKey_of_ne (fun p hp => ne_of_lt (ltHi_some.mp ((hEOK.1 p hp).2))),
      eraseKey_cons_self,
      eraseKey_of_ne (fun p hp =>
        (ne_of_lt (ltLo_some.mp (((spine_bounds hrest F2').1 p hp).1))).symm)]
  refine ⟨dv, .mk (ks.set i pk) (vs.set i pv) (cs.set i lc'), ?_, ?_, ?_, ?_, ?_⟩
  · rw [nodeDelete, hb]
    simp only [hcne, Bool.false_eq_true, if_false]
    rw [hci]
    simp only []
    rw [if_pos hgl, hrunP]
    simp only []
    rw [hrunD]
  · rw [hsetk, hsetv, hsetc, nodeList_append_spine _ _ _ _ _ _ h1 h2,
      nodeList_cons_spine, herase, hera, hdecl]
    simp [List.append_assoc]
  · refine WF.node (by simp [hvl]) (Nat.zero_le _) (by simp; omega) ?_ ?_
    · rw [hsetk]
      exact F6 _ hNewChain
    · rw [hsetk, hsetv, hsetc]
      exact F5 _ _ _ hNewLoop
  · simp [BNode.keys]
  · simp [BNode.keys]

end BTreeModel

namespace BTreeModel

variable {K V : Type}

/-- Case 2b of Node::delete: key found in an internal node, the left
child is minimal but the right child can spare a key; the in-order
successor replaces the separator. -/
theorem delete_case2b [LinearOrder K] {h : Nat} (ihd : DeleteOK (K := K) V h)
    (f : Nat) (hf : h < f)
    (ks : List K) (vs : List V) (cs : List (BNode K V)) (lo hi : Option K) (k : K)
    (hvl : vs.length = ks.length) (hmax : ks.length ≤ 2 * B - 1)
    (hbc : boundedChain lo hi ks) (hl : LoopWF h lo hi ks vs cs)
    (i : Nat) (hb : binSearch ks k = .found i) (hki : ks[i]? = some k)
    (lc : BNode K V) (hci : cs[i]? = some lc) (hgl : ¬ B ≤ lc.keys.length)
    (rc : BNode K V) (hci1 : cs[i + 1]? = some rc) (hgr : B ≤ rc.keys.length) :
    ∃ (dv : Option V) (n' : BNode K V),
      nodeDelete (f + 1) (.mk ks vs cs) k = some (dv, n') ∧
      nodeList n' = eraseKey k (nodeList (.mk ks vs cs)) ∧
      WF (h + 1) lo hi 0 n' ∧
      ks.length - 1 ≤ n'.keys.length ∧ n'.keys.length ≤ ks.length := by
  have hB : B = 3 := rfl
  have hclen := (loopWF_lengths hl).2
  have hilt : i < ks.length := (List.getElem?_eq_some_iff.mp hki).1
  have hgetk : ks[i] = k := (List.getElem?_eq_some_iff.mp hki).2
  have hivlt : i < vs.length := by omega
  have hiclt : i < cs.length := by omega
  have hgetc : cs[i] = lc := (List.getElem?_eq_some_iff.mp hci).2
  have hi1clt : i + 1 < cs.length := (List.getElem?_eq_some_iff.mp hci1).1
  have hgetc1 : cs[i + 1] = rc := (List.getElem?_eq_some_iff.mp hci1).2
  have hvi : vs[i]? = some vs[i] := List.getElem?_eq_getElem hivlt
  obtain ⟨mid, F1, F2, F3, F4, F5, F6, F7⟩ :=
    loopWF_focus i ks vs cs lo hl hbc (le_of_lt hilt)
  have hdropk : ks.drop i = k :: ks.drop (i + 1) := by
    rw [List.drop_eq_getElem_cons hilt, hgetk]
  have hdropv : vs.drop i = vs[i] :: vs.drop (i + 1) :=
    List.drop_eq_getElem_cons hivlt
  have hdropc : cs.drop i = lc :: cs.drop (i + 1) := by
    rw [List.drop_eq_getElem_cons hiclt, hgetc]
  have hdropc2 : cs.drop (i + 1) = rc :: cs.drop (i + 2) := by
    rw [List.drop_eq_getElem_cons hi1clt, hgetc1]
  rw [hdropk, hdropv, hdropc] at F1
  rw [hdropk] at F2
  obtain ⟨F2', hmidk, hhik⟩ := boundedChain_peel F2
  cases F1 with
  | cons hlcW hrest =>
  rw [hdropc2] at hrest
  obtain ⟨chiC, TAIL, hrcW, hchiCd, hnls, hTAIL, hreplace⟩ := loopWF_head hrest F2'
  have hrck : 1 ≤ rc.keys.length := by omega
  obtain ⟨⟨sk, sv⟩, hrunS, hheadS⟩ :=
    findSuccessor_ok h f rc (some k) chiC (B - 1) hrcW hf hrck
  obtain ⟨J, hdech⟩ := List.head?_eq_some_iff.mp hheadS
  have hEOKr := wf_bounds h rc (some k) chiC (B - 1) hrcW
  have hskmem : (sk, sv) ∈ nodeList rc := by rw [hdech]; simp
  have hksk : k < sk := ltLo_some.mp (hEOKr.1 _ hskmem).1
  have hskhi2 : ltHi chiC sk := (hEOKr.1 _ hskmem).2
  have hJgt : ∀ p ∈ J, sk < p.1 := by
    have hpw := hEOKr.2
    rw [hdech, List.pairwise_cons] at hpw
    intro p hp
    exact hpw.1 p hp
  obtain ⟨dv, rc', hrunD, hlistD, hwfD, hlen1, hlen2⟩ :=
    ihd f rc (some k) chiC sk (wf_minK hrcW (Nat.zero_le _)) hf hrck
      (ltLo_some.mpr hksk) hskhi2
  have herase : nodeList rc' = J := by
    rw [hlistD, hdech, eraseKey_cons_self,
      eraseKey_of_ne (fun p hp => (ne_of_lt (hJgt p hp)).symm)]
  have hwfT : WF h (some sk) chiC 0 rc' := by
    refine wf_tighten_lo h rc' (some k) (some sk) chiC 0 hwfD ?_
    intro p hp
    rw [herase] at hp
    exact ltLo_some.mpr (hJgt p hp)
  have hwfT2 : WF h (some sk) chiC (B - 1) rc' := wf_minK hwfT (by omega)
  have hlcW2 : WF h mid (some sk) (B - 1) lc := by
    refine wf_widen h lc mid (some k) mid (some sk) (B - 1) hlcW
      (fun x hx => hx) ?_
    intro x hx
    exact ltHi_some.mpr ((ltHi_some.mp hx).trans hksk)
  have hrep := hreplace (some sk) rc' hwfT2
  have hNewLoop : LoopWF h mid hi (sk :: ks.drop (i + 1)) (sv :: vs.drop (i + 1))
      (lc :: rc' :: cs.drop (i + 2)) := LoopWF.cons hlcW2 hrep.1
  have hskx : ∀ x ∈ ks.drop (i + 1), sk < x := by
    rcases hchiCd with ⟨he, hc⟩ | ⟨k1, ksR', he, hc⟩
    · rw [he]
      simp
    · rw [he]
      have hpw := F2'.1
      rw [he, List.pairwise_cons] at hpw
      have hsk1 : sk < k1 := by
        rw [hc] at hskhi2
        exact ltHi_some.mp hskhi2
      intro x hx
      rcases List.mem_cons.mp hx with hx | hx
      · exact hx ▸ hsk1
      · exact hsk1.trans (hpw.1 x hx)
  have hbcR : boundedChain (some sk) hi (ks.drop (i + 1)) :=
    ⟨F2'.1, fun x hx => ⟨ltLo_some.mpr (hskx x hx), (F2'.2 x hx).2⟩⟩
  have hskhi : ltHi hi sk :=
    chiC_to_hi hchiCd (fun y hy => (F2'.2 y hy).2) hskhi2
  have hmidsk : ltLo mid sk := fun a ha => (hmidk a ha).trans hksk
  have hNewChain : boundedChain mid hi (sk :: ks.drop (i + 1)) :=
    boundedChain_unpeel hbcR hmidsk hskhi
  have hsetk : ks.set i sk = ks.take i ++ sk :: ks.drop (i + 1) :=
    list_set_decomp hki sk
  have hsetv : vs.set i sv = vs.take i ++ sv :: vs.drop (i + 1) :=
    list_set_decomp hvi sv
  have hsetc : cs.set (i + 1) rc' = cs.take i ++ lc :: rc' :: cs.drop (i + 2) := by
    rw [list_set_decomp hci1 rc', List.take_succ, hci]
    simp
  have h1 : (vs.take i).length = (ks.take i).length := by
    simp [List.length_take]
    omega
  have h2 : (cs.take i).length = (ks.take i).length := by
    simp [List.length_take]
    omega
  have hksdec : ks = ks.take i ++ k :: ks.drop (i + 1) := list_decomp_at hki
  have hvsdec : vs = vs.take i ++ vs[i] :: vs.drop (i + 1) := list_decomp_at hvi
  have hcsdec : cs = cs.take i ++ lc :: cs.drop (i + 1) := list_decomp_at hci
  have hcne : cs.isEmpty = false := by
    match cs with
    | [] => simp at hclen
    | _ :: _ => simp
  have hfull : nodeList (.mk ks vs cs) =
      spinePre (ks.take i) (vs.take i) (cs.take i) ++
        (nodeList lc ++ (k, vs[i]) ::
          nodeList (.mk (ks.drop (i + 1)) (vs.drop (i + 1))
            (rc :: cs.drop (i + 2)))) := by
    conv_lhs => rw [hksdec, hvsdec, hcsdec]
    rw [nodeList_append_spine _ _ _ _ _ _ h1 h2, hdropc2, nodeList_cons_spine]
  have hEOKl := wf_bounds h lc mid (some k) (B - 1) hlcW
  have hera : eraseKey k (nodeList (.mk ks vs cs)) =
      spinePre (ks.take i) (vs.take i) (cs.take i) ++
        (nodeList lc ++ (nodeList rc ++ TAIL)) := by
    rw [hfull, hnls, eraseKey_append, eraseKey_append,
      eraseKey_of_ne (fun p hp => ne_of_lt ((F4 p hp).2.2 k hmidk)),
      eraseKey_of_ne (fun p hp => ne_of_lt (ltHi_some.mp ((hEOKl.1 p hp).2))),
      eraseKey_cons_self, eraseKey_append,
      eraseKey_of_ne (fun p hp =>
        (ne_of_lt (ltLo_some.mp ((hEOKr.1 p hp).1))).symm),
      eraseKey_of_ne (fun p hp => (ne_of_lt
        (hTAIL p hp k (fun b hb => hksk.trans (hskhi2 b hb)))).symm)]
  refine ⟨dv, .mk (ks.set i sk) (vs.set i sv) (cs.set (i + 1) rc'), ?_, ?_, ?_, ?_, ?_⟩
  · rw [nodeDelete, hb]
    simp only [hcne, Bool.false_eq_true, if_false]
    rw [hci]
    simp only []
    rw [if_neg hgl, hci1]
    simp only []
    rw [if_pos hgr, hrunS]
    simp only []
    rw [hrunD]
  · rw [hsetk, hsetv, hsetc, nodeList_append_spine _ _ _ _ _ _ h1 h2,
      nodeList_cons_spine, hrep.2, herase, hera, hdech]
    simp [List.append_assoc]
  · refine WF.node (by simp [hvl]) (Nat.zero_le _) (by simp; omega) ?_ ?_
    · rw [hsetk]
      exact F6 _ hNewChain
    · rw [hsetk, hsetv, hsetc]
      exact F5 _ _ _ hNewLoop
  · simp [BNode.keys]
  · simp [BNode.keys]

end BTreeModel

namespace BTreeModel

variable {K V : Type}

/-- Case 2c of Node::delete: key found in an internal node with both
adjacent children minimal; they are merged around the separator and the
key is deleted from the merged child. -/
theorem delete_case2c [LinearOrder K] {h : Nat} (ihd : DeleteOK (K := K) V h)
    (f : Nat) (hf : h < f)
    (ks : List K) (vs : List V) (cs : List (BNode K V)) (lo hi : Option K) (k : K)
    (hvl : vs.length = ks.length) (hmax : ks.length ≤ 2 * B - 1)
    (hbc : boundedChain lo hi ks) (hl : LoopWF h lo hi ks vs cs)
    (i : Nat) (hb : binSearch ks k = .found i) (hki : ks[i]? = some k)
    (lc : BNode K V) (hci : cs[i]? = some lc) (hgl : ¬ B ≤ lc.keys.length)
    (rc : BNode K V) (hci1 : cs[i + 1]? = some rc) (hgr : ¬ B ≤ rc.keys.length) :
    ∃ (dv : Option V) (n' : BNode K V),
      nodeDelete (f + 1) (.mk ks vs cs) k = some (dv, n') ∧
      nodeList n' = eraseKey k (nodeList (.mk ks vs cs)) ∧
      WF (h + 1) lo hi 0 n' ∧
      ks.length - 1 ≤ n'.keys.length ∧ n'.keys.length ≤ ks.length := by
  have hB : B = 3 := rfl
  have hclen := (loopWF_lengths hl).2
  have hilt : i < ks.length := (List.getElem?_eq_some_iff.mp hki).1
  have hgetk : ks[i] = k := (List.getElem?_eq_some_iff.mp hki).2
  have hivlt : i < vs.length := by omega
  have hiclt : i < cs.length := by omega
  have hgetc : cs[i] = lc := (List.getElem?_eq_some_iff.mp hci).2
  have hi1clt : i + 1 < cs.length := (List.getElem?_eq_some_iff.mp hci1).1
  have hgetc1 : cs[i + 1] = rc := (List.getElem?_eq_some_iff.mp hci1).2
  have hvi : vs[i]? = some vs[i] := List.getElem?_eq_getElem hivlt
  obtain ⟨mid, F1, F2, F3, F4, F5, F6, F7⟩ :=
    loopWF_focus i ks vs cs lo hl hbc (le_of_lt hilt)
  have hdropk : ks.drop i = k :: ks.drop (i + 1) := by
    rw [List.drop_eq_getElem_cons hilt, hgetk]
  have hdropv : vs.drop i = vs[i] :: vs.drop (i + 1) :=
    List.drop_eq_getElem_cons hivlt
  have hdropc : cs.drop i = lc :: cs.drop (i + 1) := by
    rw [List.drop_eq_getElem_cons hiclt, hgetc]
  have hdropc2 : cs.drop (i + 1) = rc :: cs.drop (i + 2) := by
    rw [List.drop_eq_getElem_cons hi1clt, hgetc1]
  rw [hdropk, hdropv, hdropc] at F1
  rw [hdropk] at F2
  obtain ⟨F2', hmidk, hhik⟩ := boundedChain_peel F2
  cases F1 with
  | cons hlcW hrest =>
  rw [hdropc2] at hrest
  obtain ⟨chiC, TAIL, hrcW, hchiCd, hnls, hTAIL, hreplace⟩ := loopWF_head hrest F2'
  have hrck : 1 ≤ rc.keys.length := by
    have := (wf_keylen hrcW).1
    omega
  have hllen : lc.keys.length = B - 1 := by
    have := (wf_keylen hlcW).1
    omega
  have hrlen : rc.keys.length = B - 1 := by
    have := (wf_keylen hrcW).1
    omega
  have hkhi2 : ltHi chiC k := wf_lo_lt_hi hrcW hrck
  obtain ⟨hmcWF, hmcL⟩ := merge_nodes (vs[i]) hlcW hrcW hmidk hkhi2 hllen hrlen
  set mc := BNode.mk (lc.keys ++ k :: rc.keys) (lc.values ++ vs[i] :: rc.values)
    (if rc.children.isEmpty then lc.children else lc.children ++ rc.children)
    with hmc
  have htakelen : (cs.take i).length = i := by
    simp [List.length_take]
    omega
  have hktakelen : (ks.take i).length = i := by
    simp [List.length_take]
    omega
  have hvtakelen : (vs.take i).length = i := by
    simp [List.length_take]
    omega
  have hmerge : mergeWithLeft (BNode.mk ks vs cs) (i + 1) =
      some (BNode.mk (ks.eraseIdx i) (vs.eraseIdx i)
        ((cs.set i mc).set (i + 1) (BNode.mk [] [] []))) := by
    rw [mergeWithLeft]
    rw [if_neg (by omega : ¬ i + 1 = 0)]
    simp only [Nat.add_sub_cancel]
    rw [hki, hvi]
    simp only []
    rw [hci, hci1]
  have hcsset : (cs.set i mc).set (i + 1) (BNode.mk [] [] []) =
      cs.take i ++ mc :: BNode.mk ([] : List K) ([] : List V) [] ::
        cs.drop (i + 2) := by
    rw [list_set_decomp hci mc, hdropc2]
    have h0 := set_len_plus (cs.take i) (mc :: rc :: cs.drop (i + 2)) 1
      (BNode.mk ([] : List K) ([] : List V) [])
    rw [htakelen] at h0
    simpa using h0
  have hcserase : ((cs.set i mc).set (i + 1) (BNode.mk [] [] [])).eraseIdx (i + 1) =
      cs.take i ++ mc :: cs.drop (i + 2) := by
    rw [hcsset]
    have h0 := eraseIdx_len_plus (cs.take i)
      (mc :: BNode.mk ([] : List K) ([] : List V) [] :: cs.drop (i + 2)) 1
    rw [htakelen] at h0
    simpa using h0
  have hgetmc : (((cs.set i mc).set (i + 1) (BNode.mk [] [] [])).eraseIdx
      (i + 1))[i]? = some mc := by
    rw [hcserase]
    have h0 := getElem?_len_plus (cs.take i) (mc :: cs.drop (i + 2)) 0
    rw [htakelen] at h0
    simpa using h0
  have hmck : mc.keys.length = 2 * B - 1 := by
    rw [hmc]
    show (lc.keys ++ k :: rc.keys).length = 2 * B - 1
    simp
    omega
  have hmck1 : 1 ≤ mc.keys.length := by
    rw [hmck]
    omega
  obtain ⟨dv, mc', hrunD, hlistD, hwfD, hlen1, hlen2⟩ :=
    ihd f mc mid chiC k (wf_minK hmcWF (Nat.zero_le _)) hf hmck1 hmidk hkhi2
  have hEOKl := wf_bounds h lc mid (some k) (B - 1) hlcW
  have hEOKr := wf_bounds h rc (some k) chiC (B - 1) hrcW
  have herase : nodeList mc' = nodeList lc ++ nodeList rc := by
    rw [hlistD, hmcL, eraseKey_append,
      eraseKey_of_ne (fun p hp => ne_of_lt (ltHi_some.mp ((hEOKl.1 p hp).2))),
      eraseKey_cons_self,
      eraseKey_of_ne (fun p hp =>
        (ne_of_lt (ltLo_some.mp ((hEOKr.1 p hp).1))).symm)]
  have hwfT2 : WF h mid chiC (B - 1) mc' := wf_minK hwfD (by omega)
  have hrep := hreplace mid mc' hwfT2
  have hbcR : boundedChain mid hi (ks.drop (i + 1)) :=
    boundedChain_weaken F2'
      (fun x hx a ha => (hmidk a ha).trans (ltLo_some.mp hx))
      (fun x hx => hx)
  have herk : ks.eraseIdx i = ks.take i ++ ks.drop (i + 1) := by
    conv_lhs => rw [list_decomp_at hki]
    have h0 := eraseIdx_len_plus (ks.take i) (k :: ks.drop (i + 1)) 0
    rw [hktakelen] at h0
    simpa using h0
  have herv : vs.eraseIdx i = vs.take i ++ vs.drop (i + 1) := by
    conv_lhs => rw [list_decomp_at hvi]
    have h0 := eraseIdx_len_plus (vs.take i) (vs[i] :: vs.drop (i + 1)) 0
    rw [hvtakelen] at h0
    simpa using h0
  have hcfinal : (((cs.set i mc).set (i + 1) (BNode.mk [] [] [])).eraseIdx
      (i + 1)).set i mc' = cs.take i ++ mc' :: cs.drop (i + 2) := by
    rw [hcserase]
    have h0 := set_len_plus (cs.take i) (mc :: cs.drop (i + 2)) 0 mc'
    rw [htakelen] at h0
    simpa using h0
  have h1 : (vs.take i).length = (ks.take i).length := by omega
  have h2 : (cs.take i).length = (ks.take i).length := by omega
  have hksdec : ks = ks.take i ++ k :: ks.drop (i + 1) := list_decomp_at hki
  have hvsdec : vs = vs.take i ++ vs[i] :: vs.drop (i + 1) := list_decomp_at hvi
  have hcsdec : cs = cs.take i ++ lc :: cs.drop (i + 1) := list_decomp_at hci
  have hcne : cs.isEmpty = false := by
    match cs with
    | [] => simp at hclen
    | _ :: _ => simp
  have hfull : nodeList (.mk ks vs cs) =
      spinePre (ks.take i) (vs.take i) (cs.take i) ++
        (nodeList lc ++ (k, vs[i]) ::
          nodeList (.mk (ks.drop (i + 1)) (vs.drop (i + 1))
            (rc :: cs.drop (i + 2)))) := by
    conv_lhs => rw [hksdec, hvsdec, hcsdec]
    rw [nodeList_append_spine _ _ _ _ _ _ h1 h2, hdropc2, nodeList_cons_spine]
  have hera : eraseKey k (nodeList (.mk ks vs cs)) =
      spinePre (ks.take i) (vs.take i) (cs.take i) ++
        (nodeList lc ++ (nodeList rc ++ TAIL)) := by
    rw [hfull, hnls, eraseKey_append, eraseKey_append,
      eraseKey_of_ne (fun p hp => ne_of_lt ((F4 p hp).2.2 k hmidk)),
      eraseKey_of_ne (fun p hp => ne_of_lt (ltHi_some.mp ((hEOKl.1 p hp).2))),
      eraseKey_cons_self, eraseKey_append,
      eraseKey_of_ne (fun p hp =>
        (ne_of_lt (ltLo_some.mp ((hEOKr.1 p hp).1))).symm),
      eraseKey_of_ne (fun p hp => (ne_of_lt
        (hTAIL p hp k hkhi2)).symm)]
  refine ⟨dv, .mk (ks.eraseIdx i) (vs.eraseIdx i)
    ((((cs.set i mc).set (i + 1) (BNode.mk [] [] [])).eraseIdx (i + 1)).set i mc'),
    ?_, ?_, ?_, ?_, ?_⟩
  · rw [nodeDelete, hb]
    simp only [hcne, Bool.false_eq_true, if_false]
    rw [hci]
    simp only []
    rw [if_neg hgl, hci1]
    simp only []
    rw [if_neg hgr, hmerge]
    simp only []
    rw [hgetmc]
    simp only []
    rw [hrunD]
  · rw [herk, herv, hcfinal, nodeList_append_spine _ _ _ _ _ _ (by omega) (by omega),
      hrep.2, herase, hera]
    simp [List.append_assoc]
  · refine WF.node ?_ (Nat.zero_le _) ?_ ?_ ?_
    · rw [herk, herv]
      simp [List.length_take, List.length_drop]
      omega
    · rw [herk]
      simp [List.length_take, List.length_drop]
      omega
    · rw [herk]
      exact F6 _ hbcR
    · rw [herk, herv, hcfinal]
      exact F5 _ _ _ hrep.1
  · rw [BNode.keys, herk]
    simp [List.length_take, List.length_drop]
    omega
  · rw [BNode.keys, herk]
    simp [List.length_take, List.length_drop]
    omega

end BTreeModel

namespace BTreeModel

variable {K V : Type}

/-- Case 3c of Node::delete (directly): the key belongs to a child that
already has at least B keys, so the deletion simply recurses. -/
theorem delete_case3c [LinearOrder K] {h : Nat} (ihd : DeleteOK (K := K) V h)
    (f : Nat) (hf : h < f)
    (ks : List K) (vs : List V) (cs : List (BNode K V)) (lo hi : Option K) (k : K)
    (hvl : vs.length = ks.length) (hmax : ks.length ≤ 2 * B - 1)
    (hbc : boundedChain lo hi ks) (hl : LoopWF h lo hi ks vs cs)
    (hklo : ltLo lo k) (hkhi : ltHi hi k)
    (i : Nat) (hb : binSearch ks k = .notFound i)
    (tc : BNode K V) (hci : cs[i]? = some tc) (htcge : ¬ tc.keys.length < B) :
    ∃ (dv : Option V) (n' : BNode K V),
      nodeDelete (f + 1) (.mk ks vs cs) k = some (dv, n') ∧
      nodeList n' = eraseKey k (nodeList (.mk ks vs cs)) ∧
      WF (h + 1) lo hi 0 n' ∧
      ks.length - 1 ≤ n'.keys.length ∧ n'.keys.length ≤ ks.length := by
  have hB : B = 3 := rfl
  have hclen := (loopWF_lengths hl).2
  have hbs := binSearch_spec k ks hbc.1
  rw [hb] at hbs
  simp only [] at hbs
  obtain ⟨hile, htk, hdr⟩ := hbs
  have hiclt : i < cs.length := (List.getElem?_eq_some_iff.mp hci).1
  have hgetc : cs[i] = tc := (List.getElem?_eq_some_iff.mp hci).2
  obtain ⟨mid, F1, F2, F3, F4, F5, F6, F7⟩ :=
    loopWF_focus i ks vs cs lo hl hbc hile
  have hmidk : ltLo mid k := F7 k hklo htk
  have hdropc : cs.drop i = tc :: cs.drop (i + 1) := by
    rw [List.drop_eq_getElem_cons hiclt, hgetc]
  rw [hdropc] at F1
  obtain ⟨chiC, TAIL, htcW, hchiCd, hnls, hTAIL, hrep0⟩ := loopWF_head F1 F2
  have hkchiC : ltHi chiC k := by
    rcases hchiCd with ⟨he, hc⟩ | ⟨k1, ksR', he, hc⟩
    · rw [hc]
      exact hkhi
    · rw [hc]
      refine ltHi_some.mpr (hdr k1 ?_)
      rw [he]
      simp
  have htck : 1 ≤ tc.keys.length := by omega
  obtain ⟨dv, tc', hrunD, hlistD, hwfD, hlen1, hlen2⟩ :=
    ihd f tc mid chiC k (wf_minK htcW (Nat.zero_le _)) hf htck hmidk hkchiC
  have hwfT2 : WF h mid chiC (B - 1) tc' := wf_minK hwfD (by omega)
  have hrep := hrep0 mid tc' hwfT2
  have hsetc : cs.set i tc' = cs.take i ++ tc' :: cs.drop (i + 1) :=
    list_set_decomp hci tc'
  have h1 : (vs.take i).length = (ks.take i).length := by
    simp [List.length_take]
    omega
  have h2 : (cs.take i).length = (ks.take i).length := by
    simp [List.length_take]
    omega
  have hcne : cs.isEmpty = false := by
    match cs with
    | [] => simp at hclen
    | _ :: _ => simp
  have hfull : nodeList (.mk ks vs cs) =
      spinePre (ks.take i) (vs.take i) (cs.take i) ++ (nodeList tc ++ TAIL) := by
    conv_lhs => rw [← List.take_append_drop i ks, ← List.take_append_drop i vs,
      ← List.take_append_drop i cs]
    rw [nodeList_append_spine _ _ _ _ _ _ h1 h2, hdropc, hnls]
  have hera : eraseKey k (nodeList (.mk ks vs cs)) =
      spinePre (ks.take i) (vs.take i) (cs.take i) ++ (nodeList tc' ++ TAIL) := by
    rw [hfull, eraseKey_append, eraseKey_append,
      eraseKey_of_ne (fun p hp => ne_of_lt ((F4 p hp).2.2 k hmidk)), ← hlistD,
      eraseKey_of_ne (fun p hp => (ne_of_lt (hTAIL p hp k hkchiC)).symm)]
  refine ⟨dv, .mk ks vs (cs.set i tc'), ?_, ?_, ?_, ?_, ?_⟩
  · rw [nodeDelete, hb]
    simp only [hcne, Bool.false_eq_true, if_false]
    rw [hci]
    simp only []
    rw [if_neg htcge, hrunD]
  · rw [hera]
    conv_lhs => rw [← List.take_append_drop i ks, ← List.take_append_drop i vs,
      hsetc]
    rw [nodeList_append_spine _ _ _ _ _ _ h1 h2, hrep.2]
  · refine WF.node hvl (Nat.zero_le _) hmax hbc ?_
    have hglue := F5 _ _ _ hrep.1
    rw [List.take_append_drop, List.take_append_drop] at hglue
    rw [hsetc]
    exact hglue
  · simp [BNode.keys]
  · simp [BNode.keys]

end BTreeModel

namespace BTreeModel

variable {K V : Type}

theorem eraseKey_cons_ne [LinearOrder K] {k : K} {p : K × V} {l : List (K × V)}
    (h : p.1 ≠ k) : eraseKey k (p :: l) = p :: eraseKey k l := by
  rw [eraseKey, eraseKey, List.filter_cons, if_pos (by simpa using h)]

end BTreeModel

namespace BTreeModel

variable {K V : Type}

/-- Case 3b1 of Node::delete: the target child is minimal but its left
sibling can lend its largest entry through the separator. -/
theorem delete_case3b1 [LinearOrder K] {h : Nat} (ihd : DeleteOK (K := K) V h)
    (f : Nat) (hf : h < f)
    (ks : List K) (vs : List V) (cs : List (BNode K V)) (lo hi : Option K) (k : K)
    (hvl : vs.length = ks.length) (hmax : ks.length ≤ 2 * B - 1)
    (hbc : boundedChain lo hi ks) (hl : LoopWF h lo hi ks vs cs)
    (hklo : ltLo lo k) (hkhi : ltHi hi k)
    (j : Nat) (hb : binSearch ks k = .notFound (j + 1))
    (tc : BNode K V) (hci1 : cs[j + 1]? = some tc) (htclt : tc.keys.length < B)
    (ls : BNode K V) (hcij : cs[j]? = some ls) (hlsge : B ≤ ls.keys.length) :
    ∃ (dv : Option V) (n' : BNode K V),
      nodeDelete (f + 1) (.mk ks vs cs) k = some (dv, n') ∧
      nodeList n' = eraseKey k (nodeList (.mk ks vs cs)) ∧
      WF (h + 1) lo hi 0 n' ∧
      ks.length - 1 ≤ n'.keys.length ∧ n'.keys.length ≤ ks.length := by
  have hB : B = 3 := rfl
  have hclen := (loopWF_lengths hl).2
  have hbs := binSearch_spec k ks hbc.1
  rw [hb] at hbs
  simp only [] at hbs
  obtain ⟨hile, htk, hdr⟩ := hbs
  have hjlt : j < ks.length := by omega
  have hjvlt : j < vs.length := by omega
  have hjclt : j < cs.length := by omega
  have hj1clt : j + 1 < cs.length := (List.getElem?_eq_some_iff.mp hci1).1
  have hgetls : cs[j] = ls := (List.getElem?_eq_some_iff.mp hcij).2
  have hgettc : cs[j + 1] = tc := (List.getElem?_eq_some_iff.mp hci1).2
  have hkj : ks[j]? = some ks[j] := List.getElem?_eq_getElem hjlt
  have hvj : vs[j]? = some vs[j] := List.getElem?_eq_getElem hjvlt
  have hsep_lt_k : ks[j] < k := by
    refine htk ks[j] ?_
    rw [List.mem_iff_getElem]
    exact ⟨j, by simp [List.length_take]; omega, by rw [List.getElem_take]⟩
  have hktakelen : (ks.take j).length = j := by
    simp [List.length_take]
    omega
  have hvtakelen : (vs.take j).length = j := by
    simp [List.length_take]
    omega
  have hctakelen : (cs.take j).length = j := by
    simp [List.length_take]
    omega
  obtain ⟨mid, F1, F2, F3, F4, F5, F6, F7⟩ :=
    loopWF_focus j ks vs cs lo hl hbc (by omega)
  have htksub : ∀ y ∈ ks.take j, y < k := by
    intro y hy
    refine htk y ?_
    have hjj : ks.take j = (ks.take (j + 1)).take j := by
      rw [List.take_take]
      congr 1
      omega
    rw [hjj] at hy
    exact List.take_subset _ _ hy
  have hmidk : ltLo mid k := F7 k hklo htksub
  have hdropk : ks.drop j = ks[j] :: ks.drop (j + 1) :=
    List.drop_eq_getElem_cons hjlt
  have hdropv : vs.drop j = vs[j] :: vs.drop (j + 1) :=
    List.drop_eq_getElem_cons hjvlt
  have hdropc : cs.drop j = ls :: cs.drop (j + 1) := by
    rw [List.drop_eq_getElem_cons hjclt, hgetls]
  have hdropc2 : cs.drop (j + 1) = tc :: cs.drop (j + 2) := by
    rw [List.drop_eq_getElem_cons hj1clt, hgettc]
  rw [hdropk, hdropv, hdropc] at F1
  rw [hdropk] at F2
  obtain ⟨F2', hmidsep, hsephi⟩ := boundedChain_peel F2
  cases F1 with
  | cons hlsW hrest =>
  rw [hdropc2] at hrest
  obtain ⟨chiC, TAIL, htcW, hchiCd, hnls, hTAIL, hrep0⟩ := loopWF_head hrest F2'
  have hkchiC : ltHi chiC k := by
    rcases hchiCd with ⟨he, hc⟩ | ⟨k1, ksR', he, hc⟩
    · rw [hc]
      exact hkhi
    · rw [hc]
      refine ltHi_some.mpr (hdr k1 ?_)
      rw [he]
      simp
  have htckB := (wf_keylen htcW).1
  have htck1 : 1 ≤ tc.keys.length := by omega
  have hsep_hi : ltHi chiC ks[j] := wf_lo_lt_hi htcW htck1
  obtain ⟨lk, lv, ls', c3, LCL, hkl, hlvl, hop, hls'W, hc3W, hc3len, hls'len,
    hlolk, hhilk, hlksep, hnlls, hnlc3, hLCL⟩ :=
    borrow_left_combined (vs[j]) hlsW htcW hlsge hsep_hi htclt
  have hc3k1 : 1 ≤ c3.keys.length := by
    rw [hc3len]
    omega
  obtain ⟨dv, c4, hrunD, hlistD, hwfD, hlen1, hlen2⟩ :=
    ihd f c3 (some lk) chiC k hc3W hf hc3k1
      (ltLo_some.mpr (hlksep.trans hsep_lt_k)) hkchiC
  have hwfT2 : WF h (some lk) chiC (B - 1) c4 := wf_minK hwfD (by omega)
  have hrep := hrep0 (some lk) c4 hwfT2
  have bcR : boundedChain (some lk) hi (ks.drop (j + 1)) :=
    boundedChain_weaken F2'
      (fun x hx => ltLo_some.mpr (hlksep.trans (ltLo_some.mp hx)))
      (fun x hx => hx)
  have hlkhi : ltHi hi lk := chiC_to_hi hchiCd (fun y hy => (F2'.2 y hy).2) hhilk
  have hNewChain : boundedChain mid hi (lk :: ks.drop (j + 1)) :=
    boundedChain_unpeel bcR hlolk hlkhi
  have hNewLoop : LoopWF h mid hi (lk :: ks.drop (j + 1)) (lv :: vs.drop (j + 1))
      (ls' :: c4 :: cs.drop (j + 2)) := LoopWF.cons hls'W hrep.1
  have hK2 : (ks.insertIdx j lk).eraseIdx (j + 1) =
      ks.take j ++ lk :: ks.drop (j + 1) := by
    rw [insertIdx_eq_take_cons_drop lk j ks (by omega), hdropk]
    have h0 := eraseIdx_len_plus (ks.take j) (lk :: ks[j] :: ks.drop (j + 1)) 1
    rw [hktakelen] at h0
    simpa using h0
  have hV2 : (vs.insertIdx j lv).eraseIdx (j + 1) =
      vs.take j ++ lv :: vs.drop (j + 1) := by
    rw [insertIdx_eq_take_cons_drop lv j vs (by omega), hdropv]
    have h0 := eraseIdx_len_plus (vs.take j) (lv :: vs[j] :: vs.drop (j + 1)) 1
    rw [hvtakelen] at h0
    simpa using h0
  have hks2 : (ks.insertIdx j lk)[j + 1]? = some ks[j] := by
    rw [insertIdx_eq_take_cons_drop lk j ks (by omega)]
    have h0 := getElem?_len_plus (ks.take j) (lk :: ks.drop j) 1
    rw [hktakelen] at h0
    rw [h0, List.getElem?_cons_succ, List.getElem?_drop]
    simpa using hkj
  have hvs2 : (vs.insertIdx j lv)[j + 1]? = some vs[j] := by
    rw [insertIdx_eq_take_cons_drop lv j vs (by omega)]
    have h0 := getElem?_len_plus (vs.take j) (lv :: vs.drop j) 1
    rw [hvtakelen] at h0
    rw [h0, List.getElem?_cons_succ, List.getElem?_drop]
    simpa using hvj
  have hsetj : cs.set j ls' = cs.take j ++ ls' :: tc :: cs.drop (j + 2) := by
    rw [list_set_decomp hcij ls', hdropc2]
  have hcne : cs.isEmpty = false := by
    match cs with
    | [] => simp at hclen
    | _ :: _ => simp
  have hC1 : 0 < j + 1 ∧ sibHasB cs[j]? = true :=
    ⟨Nat.succ_pos j, by rw [hcij]; exact decide_eq_true hlsge⟩
  obtain ⟨tks, tvs, tcs⟩ := tc
  obtain ⟨lks, lvs, lcs⟩ := ls
  have htclt' : tks.length < B := by simpa [BNode.keys] using htclt
  have hkl2 : lks.getLast? = some lk := by simpa [BNode.keys] using hkl
  have hlvl2 : lvs.getLast? = some lv := by simpa [BNode.values] using hlvl
  have hEQ : nodeDelete (f + 1) (BNode.mk ks vs cs) k = some (dv,
      BNode.mk ((ks.insertIdx j lk).eraseIdx (j + 1))
        ((vs.insertIdx j lv).eraseIdx (j + 1))
        (cs.take j ++ ls' :: c4 :: cs.drop (j + 2))) := by
    rcases hop with ⟨hlse, hls'eq, hc3eq⟩ | ⟨lc, hlse, hlcl, hls'eq, hc3eq⟩
    · -- the left sibling is a leaf
      simp only [BNode.keys, BNode.values, BNode.children] at hc3eq hls'eq
      have hlse2 : lcs.isEmpty = true := by simpa [BNode.children] using hlse
      have hbfl : borrowFromLeft (BNode.mk ks vs cs) (j + 1) =
          some (BNode.mk (ks.insertIdx j lk) (vs.insertIdx j lv)
            (cs.set j ls')) := by
        rw [borrowFromLeft]
        rw [if_neg (by omega : ¬ j + 1 = 0)]
        simp only [Nat.add_sub_cancel]
        rw [hcij, hci1]
        simp only [BNode.keys, BNode.values, BNode.children]
        rw [hkl2, hlvl2]
        simp only []
        rw [if_pos hlse2, ← hls'eq]
      have hcs2 : (cs.set j ls')[j + 1]? = some (BNode.mk tks tvs tcs) := by
        rw [hsetj]
        have h0 := getElem?_len_plus (cs.take j)
          (ls' :: BNode.mk tks tvs tcs :: cs.drop (j + 2)) 1
        rw [hctakelen] at h0
        simpa using h0
      have hCS : ((cs.set j ls').set (j + 1) c3).set (j + 1) c4 =
          cs.take j ++ ls' :: c4 :: cs.drop (j + 2) := by
        rw [List.set_set, hsetj]
        have h0 := set_len_plus (cs.take j)
          (ls' :: BNode.mk tks tvs tcs :: cs.drop (j + 2)) 1 c4
        rw [hctakelen] at h0
        simpa using h0
      rw [nodeDelete, hb]
      simp only [hcne, Bool.false_eq_true, if_false]
      rw [hci1]
      simp only [BNode.keys]
      rw [if_pos htclt']
      simp only [Nat.add_sub_cancel]
      rw [if_pos hC1, hbfl]
      simp only []
      rw [hks2, hvs2]
      simp only []
      rw [hcs2]
      simp only []
      rw [← hc3eq, hrunD]
      simp only []
      exact congrArg (fun x => some (dv,
        BNode.mk ((ks.insertIdx j lk).eraseIdx (j + 1))
          ((vs.insertIdx j lv).eraseIdx (j + 1)) x)) hCS
    · -- the left sibling is internal: its last child moves across
      simp only [BNode.keys, BNode.values, BNode.children] at hc3eq hls'eq
      have hlse2 : lcs.isEmpty = false := by simpa [BNode.children] using hlse
      have hlcl2 : lcs.getLast? = some lc := by simpa [BNode.children] using hlcl
      have hbfl : borrowFromLeft (BNode.mk ks vs cs) (j + 1) =
          some (BNode.mk (ks.insertIdx j lk) (vs.insertIdx j lv)
            ((cs.set j ls').set (j + 1) (BNode.mk tks tvs (lc :: tcs)))) := by
        rw [borrowFromLeft]
        rw [if_neg (by omega : ¬ j + 1 = 0)]
        simp only [Nat.add_sub_cancel]
        rw [hcij, hci1]
        simp only [BNode.keys, BNode.values, BNode.children]
        rw [hkl2, hlvl2]
        simp only []
        rw [hlse2]
        simp only [Bool.false_eq_true, if_false]
        rw [hlcl2]
        simp only []
        rw [← hls'eq]
      have hsetj2 : (cs.set j ls').set (j + 1) (BNode.mk tks tvs (lc :: tcs)) =
          cs.take j ++ ls' :: BNode.mk tks tvs (lc :: tcs) :: cs.drop (j + 2) := by
        rw [hsetj]
        have h0 := set_len_plus (cs.take j)
          (ls' :: BNode.mk tks tvs tcs :: cs.drop (j + 2)) 1
          (BNode.mk tks tvs (lc :: tcs))
        rw [hctakelen] at h0
        simpa using h0
      have hcs2 : ((cs.set j ls').set (j + 1)
          (BNode.mk tks tvs (lc :: tcs)))[j + 1]? =
          some (BNode.mk tks tvs (lc :: tcs)) := by
        rw [hsetj2]
        have h0 := getElem?_len_plus (cs.take j)
          (ls' :: BNode.mk tks tvs (lc :: tcs) :: cs.drop (j + 2)) 1
        rw [hctakelen] at h0
        simpa using h0
      have hCS : (((cs.set j ls').set (j + 1)
          (BNode.mk tks tvs (lc :: tcs))).set (j + 1) c3).set (j + 1) c4 =
          cs.take j ++ ls' :: c4 :: cs.drop (j + 2) := by
        rw [List.set_set, List.set_set, hsetj]
        have h0 := set_len_plus (cs.take j)
          (ls' :: BNode.mk tks tvs tcs :: cs.drop (j + 2)) 1 c4
        rw [hctakelen] at h0
        simpa using h0
      rw [nodeDelete, hb]
      simp only [hcne, Bool.false_eq_true, if_false]
      rw [hci1]
      simp only [BNode.keys]
      rw [if_pos htclt']
      simp only [Nat.add_sub_cancel]
      rw [if_pos hC1, hbfl]
      simp only []
      rw [hks2, hvs2]
      simp only []
      rw [hcs2]
      simp only []
      rw [← hc3eq, hrunD]
      simp only []
      exact congrArg (fun x => some (dv,
        BNode.mk ((ks.insertIdx j lk).eraseIdx (j + 1))
          ((vs.insertIdx j lv).eraseIdx (j + 1)) x)) hCS
  have hEOKls := wf_bounds h _ mid (some ks[j]) (B - 1) hlsW
  have hc4L : nodeList c4 =
      LCL ++ (ks[j], vs[j]) :: eraseKey k (nodeList (BNode.mk tks tvs tcs)) := by
    rw [hlistD, hnlc3, eraseKey_append,
      eraseKey_of_ne (fun p hp => ne_of_lt ((hLCL p hp).trans hsep_lt_k)),
      eraseKey_cons_ne (ne_of_lt hsep_lt_k)]
  have h1 : (vs.take j).length = (ks.take j).length := by omega
  have h2 : (cs.take j).length = (ks.take j).length := by omega
  have hfull : nodeList (.mk ks vs cs) =
      spinePre (ks.take j) (vs.take j) (cs.take j) ++
        (nodeList (BNode.mk lks lvs lcs) ++ (ks[j], vs[j]) ::
          (nodeList (BNode.mk tks tvs tcs) ++ TAIL)) := by
    conv_lhs => rw [← List.take_append_drop j ks, ← List.take_append_drop j vs,
      ← List.take_append_drop j cs]
    rw [hdropk, hdropv, hdropc, hdropc2, nodeList_append_spine _ _ _ _ _ _ h1 h2,
      nodeList_cons_spine, hnls]
  have hera : eraseKey k (nodeList (.mk ks vs cs)) =
      spinePre (ks.take j) (vs.take j) (cs.take j) ++
        (nodeList (BNode.mk lks lvs lcs) ++ (ks[j], vs[j]) ::
          (eraseKey k (nodeList (BNode.mk tks tvs tcs)) ++ TAIL)) := by
    rw [hfull, eraseKey_append, eraseKey_append,
      eraseKey_of_ne (fun p hp => ne_of_lt ((F4 p hp).2.2 k hmidk)),
      eraseKey_of_ne (fun p hp =>
        ne_of_lt ((ltHi_some.mp ((hEOKls.1 p hp).2)).trans hsep_lt_k)),
      eraseKey_cons_ne (ne_of_lt hsep_lt_k), eraseKey_append,
      eraseKey_of_ne (fun p hp => (ne_of_lt (hTAIL p hp k hkchiC)).symm)]
  refine ⟨dv, _, hEQ, ?_, ?_, ?_, ?_⟩
  · rw [hK2, hV2, nodeList_append_spine _ _ _ _ _ _ h1 h2, nodeList_cons_spine,
      hrep.2, hc4L, hera, hnlls]
    simp [List.append_assoc]
  · refine WF.node ?_ (Nat.zero_le _) ?_ ?_ ?_
    · rw [hK2, hV2]
      simp [List.length_take, List.length_drop]
      omega
    · rw [hK2]
      simp [List.length_take, List.length_drop]
      omega
    · rw [hK2]
      exact F6 _ hNewChain
    · rw [hK2, hV2]
      exact F5 _ _ _ hNewLoop
  · rw [BNode.keys, hK2]
    simp [List.length_take, List.length_drop]
    omega
  · rw [BNode.keys, hK2]
    simp [List.length_take, List.length_drop]
    omega

end BTreeModel

namespace BTreeModel

variable {K V : Type}

/-- Case 3b2 of Node::delete: the target child is minimal, the left
sibling cannot lend, but the right sibling lends its smallest entry
through the separator. -/
theorem delete_case3b2 [LinearOrder K] {h : Nat} (ihd : DeleteOK (K := K) V h)
    (f : Nat) (hf : h < f)
    (ks : List K) (vs : List V) (cs : List (BNode K V)) (lo hi : Option K) (k : K)
    (hvl : vs.length = ks.length) (hmax : ks.length ≤ 2 * B - 1)
    (hbc : boundedChain lo hi ks) (hl : LoopWF h lo hi ks vs cs)
    (hklo : ltLo lo k) (hkhi : ltHi hi k)
    (i : Nat) (hb : binSearch ks k = .notFound i)
    (tc : BNode K V) (hci : cs[i]? = some tc) (htclt : tc.keys.length < B)
    (hC1f : ¬(0 < i ∧ sibHasB cs[i - 1]? = true)) (hC2a : i < cs.length - 1)
    (rs : BNode K V) (hci1 : cs[i + 1]? = some rs) (hrsge : B ≤ rs.keys.length) :
    ∃ (dv : Option V) (n' : BNode K V),
      nodeDelete (f + 1) (.mk ks vs cs) k = some (dv, n') ∧
      nodeList n' = eraseKey k (nodeList (.mk ks vs cs)) ∧
      WF (h + 1) lo hi 0 n' ∧
      ks.length - 1 ≤ n'.keys.length ∧ n'.keys.length ≤ ks.length := by
  have hB : B = 3 := rfl
  have hclen := (loopWF_lengths hl).2
  have hbs := binSearch_spec k ks hbc.1
  rw [hb] at hbs
  simp only [] at hbs
  obtain ⟨hile, htk, hdr⟩ := hbs
  have hilt : i < ks.length := by omega
  have hivlt : i < vs.length := by omega
  have hiclt : i < cs.length := by omega
  have hj1clt : i + 1 < cs.length := (List.getElem?_eq_some_iff.mp hci1).1
  have hgettc : cs[i] = tc := (List.getElem?_eq_some_iff.mp hci).2
  have hgetrs : cs[i + 1] = rs := (List.getElem?_eq_some_iff.mp hci1).2
  have hkj : ks[i]? = some ks[i] := List.getElem?_eq_getElem hilt
  have hvj : vs[i]? = some vs[i] := List.getElem?_eq_getElem hivlt
  have hktakelen : (ks.take i).length = i := by
    simp [List.length_take]
    omega
  have hvtakelen : (vs.take i).length = i := by
    simp [List.length_take]
    omega
  have hctakelen : (cs.take i).length = i := by
    simp [List.length_take]
    omega
  obtain ⟨mid, F1, F2, F3, F4, F5, F6, F7⟩ :=
    loopWF_focus i ks vs cs lo hl hbc (by omega)
  have hmidk : ltLo mid k := F7 k hklo htk
  have hdropk : ks.drop i = ks[i] :: ks.drop (i + 1) :=
    List.drop_eq_getElem_cons hilt
  have hdropv : vs.drop i = vs[i] :: vs.drop (i + 1) :=
    List.drop_eq_getElem_cons hivlt
  have hdropc : cs.drop i = tc :: cs.drop (i + 1) := by
    rw [List.drop_eq_getElem_cons hiclt, hgettc]
  have hdropc2 : cs.drop (i + 1) = rs :: cs.drop (i + 2) := by
    rw [List.drop_eq_getElem_cons hj1clt, hgetrs]
  have hk_sep : k < ks[i] := by
    refine hdr ks[i] ?_
    rw [hdropk]
    exact List.mem_cons_self _ _
  rw [hdropk, hdropv, hdropc] at F1
  rw [hdropk] at F2
  obtain ⟨F2', hmidsep, hsephi⟩ := boundedChain_peel F2
  cases F1 with
  | cons htcW hrest =>
  rw [hdropc2] at hrest
  obtain ⟨chiC, TAIL, hrsW, hchiCd, hnls, hTAIL, hrep0⟩ := loopWF_head hrest F2'
  have htckB := (wf_keylen htcW).1
  obtain ⟨rk, rv, rs', c3, RCL, hrkh, hrvh, hop, hrs'W, hc3W, hc3len, hrs'len,
    hlork, hhirk, hseprk, hnlrs, hnlc3, hRCL⟩ :=
    borrow_right_combined (vs[i]) htcW hrsW hrsge hmidsep htclt
  have hkchiC : ltHi chiC k :=
    fun b hb => (hk_sep.trans hseprk).trans (hhirk b hb)
  have hc3k1 : 1 ≤ c3.keys.length := by
    rw [hc3len]
    omega
  obtain ⟨dv, c4, hrunD, hlistD, hwfD, hlen1, hlen2⟩ :=
    ihd f c3 mid (some rk) k hc3W hf hc3k1 hmidk
      (ltHi_some.mpr (hk_sep.trans hseprk))
  have hwfT2 : WF h mid (some rk) (B - 1) c4 := wf_minK hwfD (by omega)
  have hrep := hrep0 (some rk) rs' hrs'W
  have hNewLoop : LoopWF h mid hi (rk :: ks.drop (i + 1)) (rv :: vs.drop (i + 1))
      (c4 :: rs' :: cs.drop (i + 2)) := LoopWF.cons hwfT2 hrep.1
  have hrkx : ∀ x ∈ ks.drop (i + 1), rk < x := by
    rcases hchiCd with ⟨he, hc⟩ | ⟨k1, ksR', he, hc⟩
    · rw [he]
      simp
    · rw [he]
      have hpw := F2'.1
      rw [he, List.pairwise_cons] at hpw
      have hrk1 : rk < k1 := by
        rw [hc] at hhirk
        exact ltHi_some.mp hhirk
      intro x hx
      rcases List.mem_cons.mp hx with hx | hx
      · exact hx ▸ hrk1
      · exact hrk1.trans (hpw.1 x hx)
  have bcR : boundedChain (some rk) hi (ks.drop (i + 1)) :=
    ⟨F2'.1, fun x hx => ⟨ltLo_some.mpr (hrkx x hx), (F2'.2 x hx).2⟩⟩
  have hrkhi : ltHi hi rk := chiC_to_hi hchiCd (fun y hy => (F2'.2 y hy).2) hhirk
  have hNewChain : boundedChain mid hi (rk :: ks.drop (i + 1)) :=
    boundedChain_unpeel bcR hlork hrkhi
  have hK2 : (ks.insertIdx i rk).eraseIdx (i + 1) =
      ks.take i ++ rk :: ks.drop (i + 1) := by
    rw [insertIdx_eq_take_cons_drop rk i ks (by omega), hdropk]
    have h0 := eraseIdx_len_plus (ks.take i) (rk :: ks[i] :: ks.drop (i + 1)) 1
    rw [hktakelen] at h0
    simpa using h0
  have hV2 : (vs.insertIdx i rv).eraseIdx (i + 1) =
      vs.take i ++ rv :: vs.drop (i + 1) := by
    rw [insertIdx_eq_take_cons_drop rv i vs (by omega), hdropv]
    have h0 := eraseIdx_len_plus (vs.take i) (rv :: vs[i] :: vs.drop (i + 1)) 1
    rw [hvtakelen] at h0
    simpa using h0
  have hks2 : (ks.insertIdx i rk)[i + 1]? = some ks[i] := by
    rw [insertIdx_eq_take_cons_drop rk i ks (by omega)]
    have h0 := getElem?_len_plus (ks.take i) (rk :: ks.drop i) 1
    rw [hktakelen] at h0
    rw [h0, List.getElem?_cons_succ, List.getElem?_drop]
    simpa using hkj
  have hvs2 : (vs.insertIdx i rv)[i + 1]? = some vs[i] := by
    rw [insertIdx_eq_take_cons_drop rv i vs (by omega)]
    have h0 := getElem?_len_plus (vs.take i) (rv :: vs.drop i) 1
    rw [hvtakelen] at h0
    rw [h0, List.getElem?_cons_succ, List.getElem?_drop]
    simpa using hvj
  have hsetc2 : cs.set (i + 1) rs' = cs.take i ++ tc :: rs' :: cs.drop (i + 2) := by
    rw [list_set_decomp hci1 rs', List.take_succ, hci]
    simp
  have hcne : cs.isEmpty = false := by
    match cs with
    | [] => simp at hclen
    | _ :: _ => simp
  have hC2 : i < cs.length - 1 ∧ sibHasB cs[i + 1]? = true :=
    ⟨hC2a, by rw [hci1]; exact decide_eq_true hrsge⟩
  obtain ⟨tks, tvs, tcs⟩ := tc
  obtain ⟨rks, rvs, rcs⟩ := rs
  have htclt' : tks.length < B := by simpa [BNode.keys] using htclt
  have hrkh2 : rks.head? = some rk := by simpa [BNode.keys] using hrkh
  have hrvh2 : rvs.head? = some rv := by simpa [BNode.values] using hrvh
  have hEQ : nodeDelete (f + 1) (BNode.mk ks vs cs) k = some (dv,
      BNode.mk ((ks.insertIdx i rk).eraseIdx (i + 1))
        ((vs.insertIdx i rv).eraseIdx (i + 1))
        (cs.take i ++ c4 :: rs' :: cs.drop (i + 2))) := by
    rcases hop with ⟨hrse, hrs'eq, hc3eq⟩ | ⟨rc0, hrse, hrch, hrs'eq, hc3eq⟩
    · -- the right sibling is a leaf
      simp only [BNode.keys, BNode.values, BNode.children] at hc3eq hrs'eq
      have hrse2 : rcs.isEmpty = true := by simpa [BNode.children] using hrse
      have hbfr : borrowFromRight (BNode.mk ks vs cs) i =
          some (BNode.mk (ks.insertIdx i rk) (vs.insertIdx i rv)
            (cs.set (i + 1) rs')) := by
        rw [borrowFromRight]
        rw [hci, hci1]
        simp only [BNode.keys, BNode.values, BNode.children]
        rw [hrkh2, hrvh2]
        simp only []
        rw [if_pos hrse2, ← hrs'eq]
      have hcs2 : (cs.set (i + 1) rs')[i]? = some (BNode.mk tks tvs tcs) := by
        rw [hsetc2]
        have h0 := getElem?_len_plus (cs.take i)
          (BNode.mk tks tvs tcs :: rs' :: cs.drop (i + 2)) 0
        rw [hctakelen] at h0
        simpa using h0
      have hCS : ((cs.set (i + 1) rs').set i c3).set i c4 =
          cs.take i ++ c4 :: rs' :: cs.drop (i + 2) := by
        rw [List.set_set, hsetc2]
        have h0 := set_len_plus (cs.take i)
          (BNode.mk tks tvs tcs :: rs' :: cs.drop (i + 2)) 0 c4
        rw [hctakelen] at h0
        simpa using h0
      rw [nodeDelete, hb]
      simp only [hcne, Bool.false_eq_true, if_false]
      rw [hci]
      simp only [BNode.keys]
      rw [if_pos htclt']
      rw [if_neg hC1f, if_pos hC2, hbfr]
      simp only []
      rw [hks2, hvs2]
      simp only []
      rw [hcs2]
      simp only []
      rw [← hc3eq, hrunD]
      simp only []
      exact congrArg (fun x => some (dv,
        BNode.mk ((ks.insertIdx i rk).eraseIdx (i + 1))
          ((vs.insertIdx i rv).eraseIdx (i + 1)) x)) hCS
    · -- the right sibling is internal: its first child moves across
      simp only [BNode.keys, BNode.values, BNode.children] at hc3eq hrs'eq
      have hrse2 : rcs.isEmpty = false := by simpa [BNode.children] using hrse
      have hrch2 : rcs.head? = some rc0 := by simpa [BNode.children] using hrch
      have hbfr : borrowFromRight (BNode.mk ks vs cs) i =
          some (BNode.mk (ks.insertIdx i rk) (vs.insertIdx i rv)
            ((cs.set i (BNode.mk tks tvs (tcs ++ [rc0]))).set (i + 1) rs')) := by
        rw [borrowFromRight]
        rw [hci, hci1]
        simp only [BNode.keys, BNode.values, BNode.children]
        rw [hrkh2, hrvh2]
        simp only []
        rw [hrse2]
        simp only [Bool.false_eq_true, if_false]
        rw [hrch2]
        simp only []
        rw [← hrs'eq]
      have hseti : cs.set i (BNode.mk tks tvs (tcs ++ [rc0])) =
          cs.take i ++ BNode.mk tks tvs (tcs ++ [rc0]) ::
            BNode.mk rks rvs rcs :: cs.drop (i + 2) := by
        rw [list_set_decomp hci (BNode.mk tks tvs (tcs ++ [rc0])), hdropc2]
      have hsetc2' : (cs.set i (BNode.mk tks tvs (tcs ++ [rc0]))).set (i + 1) rs' =
          cs.take i ++ BNode.mk tks tvs (tcs ++ [rc0]) :: rs' ::
            cs.drop (i + 2) := by
        rw [hseti]
        have h0 := set_len_plus (cs.take i)
          (BNode.mk tks tvs (tcs ++ [rc0]) :: BNode.mk rks rvs rcs ::
            cs.drop (i + 2)) 1 rs'
        rw [hctakelen] at h0
        simpa using h0
      have hcs2 : ((cs.set i (BNode.mk tks tvs (tcs ++ [rc0]))).set
          (i + 1) rs')[i]? = some (BNode.mk tks tvs (tcs ++ [rc0])) := by
        rw [hsetc2']
        have h0 := getElem?_len_plus (cs.take i)
          (BNode.mk tks tvs (tcs ++ [rc0]) :: rs' :: cs.drop (i + 2)) 0
        rw [hctakelen] at h0
        simpa using h0
      have hCS : (((cs.set i (BNode.mk tks tvs (tcs ++ [rc0]))).set
          (i + 1) rs').set i c3).set i c4 =
          cs.take i ++ c4 :: rs' :: cs.drop (i + 2) := by
        rw [List.set_set, hsetc2']
        have h0 := set_len_plus (cs.take i)
          (BNode.mk tks tvs (tcs ++ [rc0]) :: rs' :: cs.drop (i + 2)) 0 c4
        rw [hctakelen] at h0
        simpa using h0
      rw [nodeDelete, hb]
      simp only [hcne, Bool.false_eq_true, if_false]
      rw [hci]
      simp only [BNode.keys]
      rw [if_pos htclt']
      rw [if_neg hC1f, if_pos hC2, hbfr]
      simp only []
      rw [hks2, hvs2]
      simp only []
      rw [hcs2]
      simp only []
      rw [← hc3eq, hrunD]
      simp only []
      exact congrArg (fun x => some (dv,
        BNode.mk ((ks.insertIdx i rk).eraseIdx (i + 1))
          ((vs.insertIdx i rv).eraseIdx (i + 1)) x)) hCS
  have hEOKrs := wf_bounds h _ (some ks[i]) chiC (B - 1) hrsW
  have hc4L : nodeList c4 =
      eraseKey k (nodeList (BNode.mk tks tvs tcs)) ++ (ks[i], vs[i]) :: RCL := by
    rw [hlistD, hnlc3, eraseKey_append,
      eraseKey_cons_ne (ne_of_lt hk_sep).symm,
      eraseKey_of_ne (fun p hp => (ne_of_lt (hk_sep.trans (hRCL p hp))).symm)]
  have h1 : (vs.take i).length = (ks.take i).length := by omega
  have h2 : (cs.take i).length = (ks.take i).length := by omega
  have hfull : nodeList (.mk ks vs cs) =
      spinePre (ks.take i) (vs.take i) (cs.take i) ++
        (nodeList (BNode.mk tks tvs tcs) ++ (ks[i], vs[i]) ::
          (nodeList (BNode.mk rks rvs rcs) ++ TAIL)) := by
    conv_lhs => rw [← List.take_append_drop i ks, ← List.take_append_drop i vs,
      ← List.take_append_drop i cs]
    rw [hdropk, hdropv, hdropc, hdropc2, nodeList_append_spine _ _ _ _ _ _ h1 h2,
      nodeList_cons_spine, hnls]
  have hera : eraseKey k (nodeList (.mk ks vs cs)) =
      spinePre (ks.take i) (vs.take i) (cs.take i) ++
        (eraseKey k (nodeList (BNode.mk tks tvs tcs)) ++ (ks[i], vs[i]) ::
          (nodeList (BNode.mk rks rvs rcs) ++ TAIL)) := by
    rw [hfull, eraseKey_append, eraseKey_append,
      eraseKey_of_ne (fun p hp => ne_of_lt ((F4 p hp).2.2 k hmidk)),
      eraseKey_cons_ne (ne_of_lt hk_sep).symm, eraseKey_append,
      eraseKey_of_ne (fun p hp =>
        (ne_of_lt (hk_sep.trans (ltLo_some.mp ((hEOKrs.1 p hp).1)))).symm),
      eraseKey_of_ne (fun p hp => (ne_of_lt (hTAIL p hp k hkchiC)).symm)]
  refine ⟨dv, _, hEQ, ?_, ?_, ?_, ?_⟩
  · rw [hK2, hV2, nodeList_append_spine _ _ _ _ _ _ h1 h2, nodeList_cons_spine,
      hrep.2, hc4L, hera, hnlrs]
    simp [List.append_assoc]
  · refine WF.node ?_ (Nat.zero_le _) ?_ ?_ ?_
    · rw [hK2, hV2]
      simp [List.length_take, List.length_drop]
      omega
    · rw [hK2]
      simp [List.length_take, List.length_drop]
      omega
    · rw [hK2]
      exact F6 _ hNewChain
    · rw [hK2, hV2]
      exact F5 _ _ _ hNewLoop
  · rw [BNode.keys, hK2]
    simp [List.length_take, List.length_drop]
    omega
  · rw [BNode.keys, hK2]
    simp [List.length_take, List.length_drop]
    omega

end BTreeModel

namespace BTreeModel

variable {K V : Type}

/-- Case 3b3 of Node::delete: the target child and both candidate
siblings are minimal and the child is not leftmost, so it is merged into
its left sibling before recursing. -/
theorem delete_case3b3 [LinearOrder K] {h : Nat} (ihd : DeleteOK (K := K) V h)
    (f : Nat) (hf : h < f)
    (ks : List K) (vs : List V) (cs : List (BNode K V)) (lo hi : Option K) (k : K)
    (hvl : vs.length = ks.length) (hmax : ks.length ≤ 2 * B - 1)
    (hbc : boundedChain lo hi ks) (hl : LoopWF h lo hi ks vs cs)
    (hklo : ltLo lo k) (hkhi : ltHi hi k)
    (j : Nat) (hb : binSearch ks k = .notFound (j + 1))
    (tc : BNode K V) (hci1 : cs[j + 1]? = some tc) (htclt : tc.keys.length < B)
    (hC1f : ¬(0 < j + 1 ∧ sibHasB cs[j]? = true))
    (hC2f : ¬(j + 1 < cs.length - 1 ∧ sibHasB cs[j + 1 + 1]? = true))
    (ls : BNode K V) (hcij : cs[j]? = some ls) :
    ∃ (dv : Option V) (n' : BNode K V),
      nodeDelete (f + 1) (.mk ks vs cs) k = some (dv, n') ∧
      nodeList n' = eraseKey k (nodeList (.mk ks vs cs)) ∧
      WF (h + 1) lo hi 0 n' ∧
      ks.length - 1 ≤ n'.keys.length ∧ n'.keys.length ≤ ks.length := by
  have hB : B = 3 := rfl
  have hclen := (loopWF_lengths hl).2
  have hbs := binSearch_spec k ks hbc.1
  rw [hb] at hbs
  simp only [] at hbs
  obtain ⟨hile, htk, hdr⟩ := hbs
  have hjlt : j < ks.length := by omega
  have hjvlt : j < vs.length := by omega
  have hjclt : j < cs.length := by omega
  have hj1clt : j + 1 < cs.length := (List.getElem?_eq_some_iff.mp hci1).1
  have hgetls : cs[j] = ls := (List.getElem?_eq_some_iff.mp hcij).2
  have hgettc : cs[j + 1] = tc := (List.getElem?_eq_some_iff.mp hci1).2
  have hkj : ks[j]? = some ks[j] := List.getElem?_eq_getElem hjlt
  have hvj : vs[j]? = some vs[j] := List.getElem?_eq_getElem hjvlt
  have hsep_lt_k : ks[j] < k := by
    refine htk ks[j] ?_
    rw [List.mem_iff_getElem]
    exact ⟨j, by simp [List.length_take]; omega, by rw [List.getElem_take]⟩
  have hktakelen : (ks.take j).length = j := by
    simp [List.length_take]
    omega
  have hvtakelen : (vs.take j).length = j := by
    simp [List.length_take]
    omega
  have hctakelen : (cs.take j).length = j := by
    simp [List.length_take]
    omega
  obtain ⟨mid, F1, F2, F3, F4, F5, F6, F7⟩ :=
    loopWF_focus j ks vs cs lo hl hbc (by omega)
  have htksub : ∀ y ∈ ks.take j, y < k := by
    intro y hy
    refine htk y ?_
    have hjj : ks.take j = (ks.take (j + 1)).take j := by
      rw [List.take_take]
      congr 1
      omega
    rw [hjj] at hy
    exact List.take_subset _ _ hy
  have hmidk : ltLo mid k := F7 k hklo htksub
  have hdropk : ks.drop j = ks[j] :: ks.drop (j + 1) :=
    List.drop_eq_getElem_cons hjlt
  have hdropv : vs.drop j = vs[j] :: vs.drop (j + 1) :=
    List.drop_eq_getElem_cons hjvlt
  have hdropc : cs.drop j = ls :: cs.drop (j + 1) := by
    rw [List.drop_eq_getElem_cons hjclt, hgetls]
  have hdropc2 : cs.drop (j + 1) = tc :: cs.drop (j + 2) := by
    rw [List.drop_eq_getElem_cons hj1clt, hgettc]
  rw [hdropk, hdropv, hdropc] at F1
  rw [hdropk] at F2
  obtain ⟨F2', hmidsep, hsephi⟩ := boundedChain_peel F2
  cases F1 with
  | cons hlsW hrest =>
  rw [hdropc2] at hrest
  obtain ⟨chiC, TAIL, htcW, hchiCd, hnls, hTAIL, hrep0⟩ := loopWF_head hrest F2'
  have hkchiC : ltHi chiC k := by
    rcases hchiCd with ⟨he, hc⟩ | ⟨k1, ksR', he, hc⟩
    · rw [hc]
      exact hkhi
    · rw [hc]
      refine ltHi_some.mpr (hdr k1 ?_)
      rw [he]
      simp
  have htckB := (wf_keylen htcW).1
  have htck1 : 1 ≤ tc.keys.length := by omega
  have hsep_hi : ltHi chiC ks[j] := wf_lo_lt_hi htcW htck1
  have hlslt : ¬ B ≤ ls.keys.length := by
    intro hge
    exact hC1f ⟨Nat.succ_pos j, by rw [hcij]; exact decide_eq_true hge⟩
  have hlslen : ls.keys.length = B - 1 := by
    have := (wf_keylen hlsW).1
    omega
  have htclen2 : tc.keys.length = B - 1 := by omega
  obtain ⟨hmcWF, hmcL⟩ :=
    merge_nodes (vs[j]) hlsW htcW hmidsep hsep_hi hlslen htclen2
  set mc := BNode.mk (ls.keys ++ ks[j] :: tc.keys) (ls.values ++ vs[j] :: tc.values)
    (if tc.children.isEmpty then ls.children else ls.children ++ tc.children)
    with hmc
  have hmck : mc.keys.length = 2 * B - 1 := by
    rw [hmc]
    show (ls.keys ++ ks[j] :: tc.keys).length = 2 * B - 1
    simp
    omega
  have hmck1 : 1 ≤ mc.keys.length := by
    rw [hmck]
    omega
  obtain ⟨dv, mc', hrunD, hlistD, hwfD, hlen1, hlen2⟩ :=
    ihd f mc mid chiC k (wf_minK hmcWF (Nat.zero_le _)) hf hmck1 hmidk hkchiC
  have hEOKls := wf_bounds h _ mid (some ks[j]) (B - 1) hlsW
  have herase : nodeList mc' =
      nodeList ls ++ (ks[j], vs[j]) :: eraseKey k (nodeList tc) := by
    rw [hlistD, hmcL, eraseKey_append,
      eraseKey_of_ne (fun p hp =>
        ne_of_lt ((ltHi_some.mp ((hEOKls.1 p hp).2)).trans hsep_lt_k)),
      eraseKey_cons_ne (ne_of_lt hsep_lt_k)]
  have hwfT2 : WF h mid chiC (B - 1) mc' := wf_minK hwfD (by omega)
  have hrep := hrep0 mid mc' hwfT2
  have hbcR : boundedChain mid hi (ks.drop (j + 1)) :=
    boundedChain_weaken F2'
      (fun x hx a ha => (hmidsep a ha).trans (ltLo_some.mp hx))
      (fun x hx => hx)
  have hmerge : mergeWithLeft (BNode.mk ks vs cs) (j + 1) =
      some (BNode.mk (ks.eraseIdx j) (vs.eraseIdx j)
        ((cs.set j mc).set (j + 1) (BNode.mk [] [] []))) := by
    rw [mergeWithLeft]
    rw [if_neg (by omega : ¬ j + 1 = 0)]
    simp only [Nat.add_sub_cancel]
    rw [hkj, hvj]
    simp only []
    rw [hcij, hci1]
  have hcsset : (cs.set j mc).set (j + 1) (BNode.mk [] [] []) =
      cs.take j ++ mc :: BNode.mk ([] : List K) ([] : List V) [] ::
        cs.drop (j + 2) := by
    rw [list_set_decomp hcij mc, hdropc2]
    have h0 := set_len_plus (cs.take j) (mc :: tc :: cs.drop (j + 2)) 1
      (BNode.mk ([] : List K) ([] : List V) [])
    rw [hctakelen] at h0
    simpa using h0
  have hcserase : ((cs.set j mc).set (j + 1) (BNode.mk [] [] [])).eraseIdx (j + 1) =
      cs.take j ++ mc :: cs.drop (j + 2) := by
    rw [hcsset]
    have h0 := eraseIdx_len_plus (cs.take j)
      (mc :: BNode.mk ([] : List K) ([] : List V) [] :: cs.drop (j + 2)) 1
    rw [hctakelen] at h0
    simpa using h0
  have hgetmc : (((cs.set j mc).set (j + 1) (BNode.mk [] [] [])).eraseIdx
      (j + 1))[j]? = some mc := by
    rw [hcserase]
    have h0 := getElem?_len_plus (cs.take j) (mc :: cs.drop (j + 2)) 0
    rw [hctakelen] at h0
    simpa using h0
  have herk : ks.eraseIdx j = ks.take j ++ ks.drop (j + 1) := by
    conv_lhs => rw [list_decomp_at hkj]
    have h0 := eraseIdx_len_plus (ks.take j) (ks[j] :: ks.drop (j + 1)) 0
    rw [hktakelen] at h0
    simpa using h0
  have herv : vs.eraseIdx j = vs.take j ++ vs.drop (j + 1) := by
    conv_lhs => rw [list_decomp_at hvj]
    have h0 := eraseIdx_len_plus (vs.take j) (vs[j] :: vs.drop (j + 1)) 0
    rw [hvtakelen] at h0
    simpa using h0
  have hcfinal : (((cs.set j mc).set (j + 1) (BNode.mk [] [] [])).eraseIdx
      (j + 1)).set j mc' = cs.take j ++ mc' :: cs.drop (j + 2) := by
    rw [hcserase]
    have h0 := set_len_plus (cs.take j) (mc :: cs.drop (j + 2)) 0 mc'
    rw [hctakelen] at h0
    simpa using h0
  have h1 : (vs.take j).length = (ks.take j).length := by omega
  have h2 : (cs.take j).length = (ks.take j).length := by omega
  have hcne : cs.isEmpty = false := by
    match cs with
    | [] => simp at hclen
    | _ :: _ => simp
  have hfull : nodeList (.mk ks vs cs) =
      spinePre (ks.take j) (vs.take j) (cs.take j) ++
        (nodeList ls ++ (ks[j], vs[j]) :: (nodeList tc ++ TAIL)) := by
    conv_lhs => rw [← List.take_append_drop j ks, ← List.take_append_drop j vs,
      ← List.take_append_drop j cs]
    rw [hdropk, hdropv, hdropc, hdropc2, nodeList_append_spine _ _ _ _ _ _ h1 h2,
      nodeList_cons_spine, hnls]
  have hera : eraseKey k (nodeList (.mk ks vs cs)) =
      spinePre (ks.take j) (vs.take j) (cs.take j) ++
        (nodeList ls ++ (ks[j], vs[j]) :: (eraseKey k (nodeList tc) ++ TAIL)) := by
    rw [hfull, eraseKey_append, eraseKey_append,
      eraseKey_of_ne (fun p hp => ne_of_lt ((F4 p hp).2.2 k hmidk)),
      eraseKey_of_ne (fun p hp =>
        ne_of_lt ((ltHi_some.mp ((hEOKls.1 p hp).2)).trans hsep_lt_k)),
      eraseKey_cons_ne (ne_of_lt hsep_lt_k), eraseKey_append,
      eraseKey_of_ne (fun p hp => (ne_of_lt (hTAIL p hp k hkchiC)).symm)]
  refine ⟨dv, .mk (ks.eraseIdx j) (vs.eraseIdx j)
    ((((cs.set j mc).set (j + 1) (BNode.mk [] [] [])).eraseIdx (j + 1)).set j mc'),
    ?_, ?_, ?_, ?_, ?_⟩
  · rw [nodeDelete, hb]
    simp only [hcne, Bool.false_eq_true, if_false]
    rw [hci1]
    simp only []
    rw [if_pos htclt]
    simp only [Nat.add_sub_cancel]
    rw [if_neg hC1f, if_neg hC2f, if_pos (Nat.succ_pos j), hmerge]
    simp only []
    rw [hgetmc]
    simp only []
    rw [hrunD]
  · rw [herk, herv, hcfinal, nodeList_append_spine _ _ _ _ _ _ h1 h2,
      hrep.2, herase, hera]
    simp [List.append_assoc]
  · refine WF.node ?_ (Nat.zero_le _) ?_ ?_ ?_
    · rw [herk, herv]
      simp [List.length_take, List.length_drop]
      omega
    · rw [herk]
      simp [List.length_take, List.length_drop]
      omega
    · rw [herk]
      exact F6 _ hbcR
    · rw [herk, herv, hcfinal]
      exact F5 _ _ _ hrep.1
  · rw [BNode.keys, herk]
    simp [List.length_take, List.length_drop]
    omega
  · rw [BNode.keys, herk]
    simp [List.length_take, List.length_drop]
    omega

end BTreeModel

namespace BTreeModel

variable {K V : Type}

/-- Case 3b4 of Node::delete: the leftmost child is minimal and its only
sibling cannot lend, so the right sibling is merged into it before
recursing. -/
theorem delete_case3b4 [LinearOrder K] {h : Nat} (ihd : DeleteOK (K := K) V h)
    (f : Nat) (hf : h < f)
    (ks : List K) (vs : List V) (cs : List (BNode K V)) (lo hi : Option K) (k : K)
    (hvl : vs.length = ks.length) (hmax : ks.length ≤ 2 * B - 1)
    (hbc : boundedChain lo hi ks) (hl : LoopWF h lo hi ks vs cs)
    (hklo : ltLo lo k) (hkhi : ltHi hi k) (hks1 : 1 ≤ ks.length)
    (hb : binSearch ks k = .notFound 0)
    (tc : BNode K V) (hci0 : cs[0]? = some tc) (htclt : tc.keys.length < B)
    (hC2f : ¬(0 < cs.length - 1 ∧ sibHasB cs[1]? = true))
    (rs : BNode K V) (hci1 : cs[1]? = some rs) :
    ∃ (dv : Option V) (n' : BNode K V),
      nodeDelete (f + 1) (.mk ks vs cs) k = some (dv, n') ∧
      nodeList n' = eraseKey k (nodeList (.mk ks vs cs)) ∧
      WF (h + 1) lo hi 0 n' ∧
      ks.length - 1 ≤ n'.keys.length ∧ n'.keys.length ≤ ks.length := by
  have hB : B = 3 := rfl
  have hclen := (loopWF_lengths hl).2
  have hbs := binSearch_spec k ks hbc.1
  rw [hb] at hbs
  simp only [] at hbs
  obtain ⟨hile, htk, hdr⟩ := hbs
  have h0lt : 0 < ks.length := by omega
  have h0vlt : 0 < vs.length := by omega
  have h0clt : 0 < cs.length := by omega
  have h1clt : 1 < cs.length := (List.getElem?_eq_some_iff.mp hci1).1
  have hgettc : cs[0] = tc := (List.getElem?_eq_some_iff.mp hci0).2
  have hgetrs : cs[1] = rs := (List.getElem?_eq_some_iff.mp hci1).2
  have hk0 : ks[0]? = some ks[0] := List.getElem?_eq_getElem h0lt
  have hv0 : vs[0]? = some vs[0] := List.getElem?_eq_getElem h0vlt
  have hk_sep : k < ks[0] := by
    refine hdr ks[0] ?_
    simpa using List.getElem_mem h0lt
  obtain ⟨mid, F1, F2, F3, F4, F5, F6, F7⟩ :=
    loopWF_focus 0 ks vs cs lo hl hbc (by omega)
  simp only [List.drop_zero] at F1 F2
  have hmidk : ltLo mid k := F7 k hklo (by simp)
  have hksdec : ks = ks[0] :: ks.drop 1 := by
    have hd := List.drop_eq_getElem_cons h0lt
    rwa [List.drop_zero] at hd
  have hvsdec : vs = vs[0] :: vs.drop 1 := by
    have hd := List.drop_eq_getElem_cons h0vlt
    rwa [List.drop_zero] at hd
  have hcsdec0 : cs = tc :: cs.drop 1 := by
    have hd := List.drop_eq_getElem_cons h0clt
    rw [List.drop_zero, hgettc] at hd
    exact hd
  have hdropc2 : cs.drop 1 = rs :: cs.drop 2 := by
    rw [List.drop_eq_getElem_cons h1clt, hgetrs]
  rw [hksdec] at F2
  obtain ⟨F2', hmidsep, hsephi⟩ := boundedChain_peel F2
  rw [hksdec, hvsdec, hcsdec0] at F1
  cases F1 with
  | cons htcW hrest =>
  rw [hdropc2] at hrest
  obtain ⟨chiC, TAIL, hrsW, hchiCd, hnls, hTAIL, hrep0⟩ := loopWF_head hrest F2'
  have htckB := (wf_keylen htcW).1
  have hrskB := (wf_keylen hrsW).1
  have hrsk1 : 1 ≤ rs.keys.length := by omega
  have hsep_hi : ltHi chiC ks[0] := wf_lo_lt_hi hrsW hrsk1
  have hkchiC : ltHi chiC k := fun b hb2 => hk_sep.trans (hsep_hi b hb2)
  have hrslt : ¬ B ≤ rs.keys.length := by
    intro hge
    exact hC2f ⟨by omega, by rw [hci1]; exact decide_eq_true hge⟩
  have htclen2 : tc.keys.length = B - 1 := by omega
  have hrslen : rs.keys.length = B - 1 := by omega
  obtain ⟨hmcWF, hmcL⟩ :=
    merge_nodes (vs[0]) htcW hrsW hmidsep hsep_hi htclen2 hrslen
  set mc := BNode.mk (tc.keys ++ ks[0] :: rs.keys) (tc.values ++ vs[0] :: rs.values)
    (if rs.children.isEmpty then tc.children else tc.children ++ rs.children)
    with hmc
  have hmck : mc.keys.length = 2 * B - 1 := by
    rw [hmc]
    show (tc.keys ++ ks[0] :: rs.keys).length = 2 * B - 1
    simp
    omega
  have hmck1 : 1 ≤ mc.keys.length := by
    rw [hmck]
    omega
  obtain ⟨dv, mc', hrunD, hlistD, hwfD, hlen1, hlen2⟩ :=
    ihd f mc mid chiC k (wf_minK hmcWF (Nat.zero_le _)) hf hmck1 hmidk hkchiC
  have hEOKrs := wf_bounds h _ (some ks[0]) chiC (B - 1) hrsW
  have herase : nodeList mc' =
      eraseKey k (nodeList tc) ++ (ks[0], vs[0]) :: nodeList rs := by
    rw [hlistD, hmcL, eraseKey_append,
      eraseKey_cons_ne (ne_of_lt hk_sep).symm,
      eraseKey_of_ne (fun p hp =>
        (ne_of_lt (hk_sep.trans (ltLo_some.mp ((hEOKrs.1 p hp).1)))).symm)]
  have hwfT2 : WF h mid chiC (B - 1) mc' := wf_minK hwfD (by omega)
  have hrep := hrep0 mid mc' hwfT2
  have hbcR : boundedChain mid hi (ks.drop 1) :=
    boundedChain_weaken F2'
      (fun x hx a ha => (hmidsep a ha).trans (ltLo_some.mp hx))
      (fun x hx => hx)
  have hmergeR : mergeWithRight (BNode.mk ks vs cs) 0 =
      some (BNode.mk (ks.eraseIdx 0) (vs.eraseIdx 0)
        ((cs.set 0 mc).set 1 (BNode.mk [] [] []))) := by
    rw [mergeWithRight]
    simp only [Nat.zero_add]
    rw [hk0, hv0]
    simp only []
    rw [hci0, hci1]
  have hcsset : (cs.set 0 mc).set 1 (BNode.mk [] [] []) =
      mc :: BNode.mk ([] : List K) ([] : List V) [] :: cs.drop 2 := by
    conv_lhs => rw [hcsdec0, hdropc2]
    simp [List.set]
  have hcserase : ((cs.set 0 mc).set 1 (BNode.mk [] [] [])).eraseIdx 1 =
      mc :: cs.drop 2 := by
    rw [hcsset]
    simp [List.eraseIdx]
  have hgetmc : (((cs.set 0 mc).set 1 (BNode.mk [] [] [])).eraseIdx 1)[0]? =
      some mc := by
    rw [hcserase]
    simp
  have herk : ks.eraseIdx 0 = ks.drop 1 := by
    conv_lhs => rw [hksdec]
    simp [List.eraseIdx]
  have herv : vs.eraseIdx 0 = vs.drop 1 := by
    conv_lhs => rw [hvsdec]
    simp [List.eraseIdx]
  have hcfinal : (((cs.set 0 mc).set 1 (BNode.mk [] [] [])).eraseIdx 1).set 0 mc' =
      mc' :: cs.drop 2 := by
    rw [hcserase]
    simp [List.set]
  have hcne : cs.isEmpty = false := by
    match cs with
    | [] => simp at hclen
    | _ :: _ => simp
  have hfull : nodeList (.mk ks vs cs) =
      nodeList tc ++ (ks[0], vs[0]) :: (nodeList rs ++ TAIL) := by
    conv_lhs => rw [hksdec, hvsdec, hcsdec0, hdropc2]
    rw [nodeList_cons_spine, hnls]
  have hera : eraseKey k (nodeList (.mk ks vs cs)) =
      eraseKey k (nodeList tc) ++ (ks[0], vs[0]) :: (nodeList rs ++ TAIL) := by
    rw [hfull, eraseKey_append,
      eraseKey_cons_ne (ne_of_lt hk_sep).symm, eraseKey_append,
      eraseKey_of_ne (fun p hp =>
        (ne_of_lt (hk_sep.trans (ltLo_some.mp ((hEOKrs.1 p hp).1)))).symm),
      eraseKey_of_ne (fun p hp => (ne_of_lt (hTAIL p hp k hkchiC)).symm)]
  refine ⟨dv, .mk (ks.eraseIdx 0) (vs.eraseIdx 0)
    ((((cs.set 0 mc).set 1 (BNode.mk [] [] [])).eraseIdx 1).set 0 mc'),
    ?_, ?_, ?_, ?_, ?_⟩
  · rw [nodeDelete, hb]
    simp only [hcne, Bool.false_eq_true, if_false]
    rw [hci0]
    simp only []
    rw [if_pos htclt]
    simp only [Nat.zero_add]
    rw [if_neg (show ¬(0 < 0 ∧ sibHasB (some tc) = true) from
      fun hc => absurd hc.1 (by omega))]
    rw [if_neg hC2f]
    rw [if_neg (show ¬ (0:Nat) < 0 from by omega)]
    rw [hmergeR]
    simp only []
    rw [hgetmc]
    simp only []
    rw [hrunD]
  · rw [herk, herv, hcfinal, hrep.2, herase, hera]
    simp [List.append_assoc]
  · refine WF.node ?_ (Nat.zero_le _) ?_ ?_ ?_
    · rw [herk, herv]
      simp [List.length_drop]
      omega
    · rw [herk]
      simp [List.length_drop]
      omega
    · rw [herk]
      have hg := F6 _ hbcR
      simpa using hg
    · rw [herk, herv, hcfinal]
      have hg := F5 _ _ _ hrep.1
      simpa using hg
  · rw [BNode.keys, herk]
    simp [List.length_drop]
  · rw [BNode.keys, herk]
    simp [List.length_drop]

end BTreeModel

namespace BTreeModel

variable {K V : Type}

/-- Node::delete removes exactly the requested key from the in-order
entry list, preserves well-formedness with the node-arity floor relaxed
to zero, and removes at most one key from the node itself. -/
theorem nodeDelete_ok [LinearOrder K] : ∀ h : Nat, DeleteOK (K := K) V h := by
  intro h
  induction h with
  | zero =>
    intro fuel n lo hi k hw hf hk1 hklo hkhi
    match fuel, hf with
    | f + 1, hf2 =>
    match n with
    | .mk ks vs cs =>
      obtain ⟨hcs, hvl, hmin0, hmax, hbcf⟩ := wf_leaf_inv hw
      subst hcs
      simp only [BNode.keys] at hk1
      have hbs := binSearch_spec k ks hbcf.1
      match hb : binSearch ks k with
      | .found i =>
        rw [hb] at hbs
        simp only [] at hbs
        have hilt : i < ks.length := (List.getElem?_eq_some_iff.mp hbs).1
        have hivlt : i < vs.length := by omega
        have hvi : vs[i]? = some vs[i] := List.getElem?_eq_getElem hivlt
        have hksdec : ks = ks.take i ++ k :: ks.drop (i + 1) := list_decomp_at hbs
        have hvsdec : vs = vs.take i ++ vs[i] :: vs.drop (i + 1) :=
          list_decomp_at hvi
        have hktakelen : (ks.take i).length = i := by
          simp [List.length_take]
          omega
        have hvtakelen : (vs.take i).length = i := by
          simp [List.length_take]
          omega
        have herk : ks.eraseIdx i = ks.take i ++ ks.drop (i + 1) := by
          conv_lhs => rw [hksdec]
          have h0 := eraseIdx_len_plus (ks.take i) (k :: ks.drop (i + 1)) 0
          rw [hktakelen] at h0
          simpa using h0
        have herv : vs.eraseIdx i = vs.take i ++ vs.drop (i + 1) := by
          conv_lhs => rw [hvsdec]
          have h0 := eraseIdx_len_plus (vs.take i) (vs[i] :: vs.drop (i + 1)) 0
          rw [hvtakelen] at h0
          simpa using h0
        obtain ⟨bcT, bcD, hlok, hhik⟩ := boundedChain_split hbcf hbs
        refine ⟨some vs[i], .mk (ks.eraseIdx i) (vs.eraseIdx i) [], ?_, ?_, ?_,
          ?_, ?_⟩
        · rw [nodeDelete, hb]
          simp only [List.isEmpty_nil, if_true]
          rw [hvi]
        · rw [nodeList_leaf, nodeList_leaf, herk, herv]
          conv_rhs => rw [hksdec, hvsdec]
          rw [List.zip_append (by omega), List.zip_append (by omega),
            List.zip_cons_cons, eraseKey_append,
            eraseKey_of_ne (fun p hp =>
              ne_of_lt (ltHi_some.mp ((bcT.2 p.1 (List.of_mem_zip hp).1).2))),
            eraseKey_cons_self,
            eraseKey_of_ne (fun p hp =>
              (ne_of_lt (ltLo_some.mp ((bcD.2 p.1 (List.of_mem_zip hp).1).1))).symm)]
        · refine WF.leaf ?_ (Nat.zero_le _) ?_ ?_
          · simp [List.length_eraseIdx, hilt, hivlt]
            omega
          · simp [List.length_eraseIdx, hilt]
            omega
          · exact boundedChain_sublist hbcf (List.eraseIdx_sublist ks i)
        · simp [BNode.keys, List.length_eraseIdx, hilt]
        · simp [BNode.keys, List.length_eraseIdx, hilt]
      | .notFound i =>
        rw [hb] at hbs
        simp only [] at hbs
        obtain ⟨hile, htk, hdr⟩ := hbs
        have hne : ∀ p ∈ ks.zip vs, p.1 ≠ k := by
          intro p hp
          have hx : p.1 ∈ ks := (List.of_mem_zip hp).1
          rw [← List.take_append_drop i ks] at hx
          rcases List.mem_append.mp hx with hx | hx
          · exact ne_of_lt (htk p.1 hx)
          · exact (ne_of_lt (hdr p.1 hx)).symm
        refine ⟨none, .mk ks vs [], ?_, ?_, hw, ?_, ?_⟩
        · rw [nodeDelete, hb]
          simp only [List.isEmpty_nil, if_true]
        · rw [nodeList_leaf, eraseKey_of_ne hne]
        · simp [BNode.keys]
        · simp [BNode.keys]
  | succ h ih =>
    intro fuel n lo hi k hw hf hk1 hklo hkhi
    match fuel, hf with
    | f + 1, hf2 =>
    match n with
    | .mk ks vs cs =>
      obtain ⟨hvl, hmin0, hmax, hbc, hl⟩ := wf_node_inv hw
      have hclen := (loopWF_lengths hl).2
      simp only [BNode.keys] at hk1
      have hf' : h < f := by omega
      have hbs := binSearch_spec k ks hbc.1
      match hb : binSearch ks k with
      | .found i =>
        rw [hb] at hbs
        simp only [] at hbs
        have hilt : i < ks.length := (List.getElem?_eq_some_iff.mp hbs).1
        have hiclt : i < cs.length := by omega
        have hci : cs[i]? = some cs[i] := List.getElem?_eq_getElem hiclt
        by_cases hgl : B ≤ cs[i].keys.length
        · exact delete_case2a ih f hf' ks vs cs lo hi k hvl hmax hbc hl i hb hbs
            cs[i] hci hgl
        · have hi1clt : i + 1 < cs.length := by omega
          have hci1 : cs[i + 1]? = some cs[i + 1] := List.getElem?_eq_getElem hi1clt
          by_cases hgr : B ≤ cs[i + 1].keys.length
          · exact delete_case2b ih f hf' ks vs cs lo hi k hvl hmax hbc hl i hb hbs
              cs[i] hci hgl cs[i + 1] hci1 hgr
          · exact delete_case2c ih f hf' ks vs cs lo hi k hvl hmax hbc hl i hb hbs
              cs[i] hci hgl cs[i + 1] hci1 hgr
      | .notFound i =>
        rw [hb] at hbs
        simp only [] at hbs
        have hile : i ≤ ks.length := hbs.1
        have hiclt : i < cs.length := by omega
        have hci : cs[i]? = some cs[i] := List.getElem?_eq_getElem hiclt
        by_cases htclt : cs[i].keys.length < B
        · by_cases hC1 : 0 < i ∧ sibHasB cs[i - 1]? = true
          · obtain ⟨h0i, hsib⟩ := hC1
            obtain ⟨j, rfl⟩ : ∃ j, i = j + 1 := ⟨i - 1, by omega⟩
            simp only [Nat.add_sub_cancel] at hsib
            obtain ⟨ls, hcij, hlsge⟩ := sibHasB_true_iff.mp hsib
            exact delete_case3b1 ih f hf' ks vs cs lo hi k hvl hmax hbc hl
              hklo hkhi j hb cs[j + 1] hci htclt ls hcij hlsge
          · by_cases hC2 : i < cs.length - 1 ∧ sibHasB cs[i + 1]? = true
            · obtain ⟨hC2a, hsib2⟩ := hC2
              obtain ⟨rs, hci1, hrsge⟩ := sibHasB_true_iff.mp hsib2
              exact delete_case3b2 ih f hf' ks vs cs lo hi k hvl hmax hbc hl
                hklo hkhi i hb cs[i] hci htclt hC1 hC2a rs hci1 hrsge
            · by_cases h0i : 0 < i
              · obtain ⟨j, rfl⟩ : ∃ j, i = j + 1 := ⟨i - 1, by omega⟩
                simp only [Nat.add_sub_cancel] at hC1
                have hjclt : j < cs.length := by omega
                have hcij : cs[j]? = some cs[j] := List.getElem?_eq_getElem hjclt
                exact delete_case3b3 ih f hf' ks vs cs lo hi k hvl hmax hbc hl
                  hklo hkhi j hb cs[j + 1] hci htclt hC1 hC2 cs[j] hcij
              · have hi0 : i = 0 := by omega
                subst hi0
                simp only [Nat.zero_add] at hC2
                have h1clt : 1 < cs.length := by omega
                have hci1 : cs[1]? = some cs[1] := List.getElem?_eq_getElem h1clt
                exact delete_case3b4 ih f hf' ks vs cs lo hi k hvl hmax hbc hl
                  hklo hkhi hk1 hb cs[0] hci htclt hC2 cs[1] hci1
        · exact delete_case3c ih f hf' ks vs cs lo hi k hvl hmax hbc hl
            hklo hkhi i hb cs[i] hci htclt

end BTreeModel

namespace BTreeModel

variable {K V : Type}

/-- BTree::delete removes exactly the requested key from the tree's
entry list and preserves tree well-formedness (collapsing an emptied
root). -/
theorem btreeDelete_ok [LinearOrder K] {h : Nat} {t : BTree K V} (k : K)
    {fuel : Nat} (hw : TreeWF h t) (hf : h < fuel) :
    ∃ (dv : Option V) (t' : BTree K V), BTree.delete fuel t k = some (dv, t') ∧
      treeList t' = eraseKey k (treeList t) ∧ TreeWF h t' := by
  match t with
  | ⟨none⟩ =>
    refine ⟨none, ⟨none⟩, ?_, ?_, trivial⟩
    · rw [BTree.delete]
    · rw [treeList]
      simp [eraseKey]
  | ⟨some r⟩ =>
    obtain ⟨h', hle, hwr⟩ := hw
    have hk1 : 1 ≤ r.keys.length := (wf_keylen hwr).1
    obtain ⟨dv, root', hrun, hlist, hwf', hlen1, hlen2⟩ :=
      nodeDelete_ok h' fuel r none none k (wf_minK hwr (Nat.zero_le _))
        (by omega) hk1 ltLo_none ltHi_none
    match root', hlist, hwf' with
    | .mk [] vs' cs', hlist, hwf' =>
      match h', hwf' with
      | 0, hwf' =>
        obtain ⟨hcs, hvl, _, _, _⟩ := wf_leaf_inv hwf'
        subst hcs
        refine ⟨dv, ⟨none⟩, ?_, ?_, trivial⟩
        · rw [BTree.delete]
          simp only []
          rw [hrun]
          simp only [BNode.keys, BNode.children, List.isEmpty_nil, if_true]
        · rw [treeList, treeList]
          simp only []
          rw [← hlist, nodeList_leaf]
          simp
      | h'' + 1, hwf' =>
        obtain ⟨hvl, _, _, _, hl5⟩ := wf_node_inv hwf'
        match cs', hl5 with
        | [c], hl5 =>
          have hcW : WF h'' none none (B - 1) c := by
            cases hl5 with
            | last hc => exact hc
          have hB : B = 3 := rfl
          refine ⟨dv, ⟨some c⟩, ?_, ?_, ?_⟩
          · rw [BTree.delete]
            simp only []
            rw [hrun]
            simp only [BNode.keys, BNode.children, List.isEmpty_nil,
              List.isEmpty_cons, if_true, Bool.false_eq_true, if_false,
              List.head?_cons]
          · rw [treeList, treeList]
            simp only []
            rw [← hlist, nodeList_nil_keys]
          · refine ⟨h'', by omega, wf_minK hcW ?_⟩
            have := (wf_keylen hcW).1
            omega
    | .mk (k0 :: ks'') vs' cs', hlist, hwf' =>
      refine ⟨dv, ⟨some (.mk (k0 :: ks'') vs' cs')⟩, ?_, ?_, ?_⟩
      · rw [BTree.delete]
        simp only []
        rw [hrun]
        simp only [BNode.keys, List.isEmpty_cons, Bool.false_eq_true, if_false]
      · rw [treeList, treeList]
        simp only []
        exact hlist
      · exact ⟨h', hle, wf_minK hwf' (by simp [BNode.keys])⟩

/-- Folding BTree::delete over a list of keys erases exactly those keys
from the entry list. -/
theorem runDeletes_ok [LinearOrder K] :
    ∀ (dels : List K) (t : BTree K V) (h fuel : Nat), TreeWF h t → h < fuel →
      ∃ t', runDeletes fuel t dels = some t' ∧
        treeList t' = dels.foldl (fun l d => eraseKey d l) (treeList t) ∧
        TreeWF h t' := by
  intro dels
  induction dels with
  | nil =>
    intro t h fuel hw hf
    exact ⟨t, rfl, rfl, hw⟩
  | cons d dels' ih =>
    intro t h fuel hw hf
    obtain ⟨dv, t1, hrun1, hlist1, hw1⟩ := btreeDelete_ok d hw hf
    obtain ⟨t', hrun', hlist', hw'⟩ := ih t1 h fuel hw1 hf
    refine ⟨t', ?_, ?_, hw'⟩
    · rw [runDeletes, hrun1]
      exact hrun'
    · rw [hlist', List.foldl_cons, hlist1]

end BTreeModel

namespace BTreeModel

variable {K V : Type}

theorem eraseKey_mem [LinearOrder K] {k : K} {l : List (K × V)} {q : K × V} :
    q ∈ eraseKey k l ↔ q ∈ l ∧ q.1 ≠ k := by
  rw [eraseKey, List.mem_filter]
  simp

theorem insertSorted_sorted [LinearOrder K] {k : K} {v : V} :
    ∀ {l : List (K × V)}, List.Pairwise (fun p q : K × V => p.1 < q.1) l →
      (∀ p ∈ l, p.1 ≠ k) →
      List.Pairwise (fun p q : K × V => p.1 < q.1) (insertSorted k v l) := by
  intro l
  induction l with
  | nil =>
    intro _ _
    simp [insertSorted]
  | cons q l' ih =>
    intro hpw hne
    match q with
    | (k', v') =>
      rw [List.pairwise_cons] at hpw
      rw [insertSorted]
      by_cases hk : k < k'
      · rw [if_pos hk]
        rw [List.pairwise_cons]
        refine ⟨?_, List.pairwise_cons.mpr hpw⟩
        intro p hp
        rcases List.mem_cons.mp hp with hp | hp
        · rw [hp]
          exact hk
        · exact hk.trans (hpw.1 p hp)
      · rw [if_neg hk]
        have hk'k : k' < k :=
          lt_of_le_of_ne (not_lt.mp hk) (hne (k', v') (by simp))
        rw [List.pairwise_cons]
        refine ⟨?_, ih hpw.2 (fun p hp => hne p (by simp [hp]))⟩
        intro p hp
        rcases (insertSorted_mem l' p).mp hp with hp | hp
        · rw [hp]
          exact hk'k
        · exact hpw.1 p hp

theorem foldl_eraseKey_mem [LinearOrder K] :
    ∀ (dels : List K) (L : List (K × V)) (q : K × V),
      q ∈ dels.foldl (fun l d => eraseKey d l) L ↔
        q ∈ L ∧ ∀ d ∈ dels, q.1 ≠ d := by
  intro dels
  induction dels with
  | nil =>
    intro L q
    simp
  | cons d dels' ih =>
    intro L q
    rw [List.foldl_cons, ih, eraseKey_mem]
    constructor
    · rintro ⟨⟨h1, h2⟩, h3⟩
      refine ⟨h1, ?_⟩
      intro d' hd'
      rcases List.mem_cons.mp hd' with hd' | hd'
      · exact hd' ▸ h2
      · exact h3 d' hd'
    · rintro ⟨h1, h2⟩
      exact ⟨⟨h1, h2 d (by simp)⟩, fun d' hd' => h2 d' (by simp [hd'])⟩

theorem foldl_eraseKey_sublist [LinearOrder K] :
    ∀ (dels : List K) (L : List (K × V)),
      (dels.foldl (fun l d => eraseKey d l) L).Sublist L := by
  intro dels
  induction dels with
  | nil =>
    intro L
    simp
  | cons d dels' ih =>
    intro L
    rw [List.foldl_cons]
    exact (ih (eraseKey d L)).trans (List.filter_sublist L)

theorem foldl_insertSorted_ok [LinearOrder K] :
    ∀ (ins : List (K × V)) (L : List (K × V)),
      List.Pairwise (fun p q : K × V => p.1 ≠ q.1) ins →
      (∀ p ∈ ins, ∀ q ∈ L, p.1 ≠ q.1) →
      List.Pairwise (fun p q : K × V => p.1 < q.1) L →
      List.Pairwise (fun p q : K × V => p.1 < q.1)
        (ins.foldl (fun l p => insertSorted p.1 p.2 l) L) ∧
      (∀ q, q ∈ ins.foldl (fun l p => insertSorted p.1 p.2 l) L ↔
        q ∈ ins ∨ q ∈ L) := by
  intro ins
  induction ins with
  | nil =>
    intro L _ _ hs
    exact ⟨hs, by simp⟩
  | cons p ins' ih =>
    intro L hnd hdisj hs
    rw [List.pairwise_cons] at hnd
    have hLne : ∀ q ∈ L, q.1 ≠ p.1 :=
      fun q hq => (hdisj p (by simp) q hq).symm
    have hs1 : List.Pairwise (fun p q : K × V => p.1 < q.1)
        (insertSorted p.1 p.2 L) := insertSorted_sorted hs hLne
    have hdisj1 : ∀ p' ∈ ins', ∀ q ∈ insertSorted p.1 p.2 L, p'.1 ≠ q.1 := by
      intro p' hp' q hq
      rcases (insertSorted_mem L q).mp hq with hq | hq
      · rw [hq]
        exact (hnd.1 p' hp').symm
      · exact hdisj p' (by simp [hp']) q hq
    obtain ⟨ihs, ihm⟩ := ih (insertSorted p.1 p.2 L) hnd.2 hdisj1 hs1
    rw [List.foldl_cons]
    refine ⟨ihs, ?_⟩
    intro q
    rw [ihm, insertSorted_mem]
    constructor
    · rintro (h1 | h1 | h1)
      · exact Or.inl (by simp [h1])
      · exact Or.inl (by simp [h1])
      · exact Or.inr h1
    · rintro (h1 | h1)
      · rcases List.mem_cons.mp h1 with h1 | h1
        · exact Or.inr (Or.inl (by simp [h1]))
        · exact Or.inl h1
      · exact Or.inr (Or.inr h1)

theorem listFind_of_mem [LinearOrder K] {k : K} {v : V} :
    ∀ {L : List (K × V)}, List.Pairwise (fun p q : K × V => p.1 < q.1) L →
      (k, v) ∈ L → listFind L k = some v := by
  intro L
  induction L with
  | nil =>
    intro _ h
    simp at h
  | cons q L' ih =>
    intro hpw hm
    rw [List.pairwise_cons] at hpw
    rcases List.mem_cons.mp hm with hm | hm
    · rw [listFind, List.find?_cons_of_pos _ (by rw [← hm]; simp)]
      rw [← hm]
      rfl
    · have hne : q.1 ≠ k := by
        have := hpw.1 (k, v) hm
        exact ne_of_lt this
      rw [listFind, List.find?_cons_of_neg _ (by simpa using hne)]
      exact ih hpw.2 hm

end BTreeModel

namespace BTreeModel

variable {K V : Type}

/-- Folding distinct-key insertions into the empty tree yields a
well-formed tree whose entry list is the sorted-insertion fold. -/
theorem runInserts_empty_ok [LinearOrder K] (ins : List (K × V)) (fuel : Nat)
    (hnd : List.Pairwise (fun p q : K × V => p.1 ≠ q.1) ins)
    (hf : ins.length + 1 < fuel) :
    ∃ t1, runInserts fuel (⟨none⟩ : BTree K V) ins = some t1 ∧
      TreeWF ins.length t1 ∧
      treeList t1 = ins.foldl (fun l p => insertSorted p.1 p.2 l) [] := by
  match ins, hnd, hf with
  | [], _, _ => exact ⟨⟨none⟩, rfl, trivial, rfl⟩
  | (k0, v0) :: rest, hnd, hf =>
    have h0f : 0 < fuel := by omega
    have hfirst := btreeInsert_empty (K := K) (V := V) k0 v0 fuel h0f
    rw [List.pairwise_cons] at hnd
    have hfind : ∀ p ∈ rest,
        listFind (nodeList (BNode.mk [k0] [v0] ([] : List (BNode K V)))) p.1 =
          none := by
      intro p hp
      rw [nodeList_leaf]
      refine listFind_none_iff.mpr ?_
      intro q hq
      have hq0 : q = (k0, v0) := by simpa using hq
      rw [hq0]
      exact hnd.1 p hp
    obtain ⟨r', h'', hrunRest, hwr', hle'', hlistr'⟩ :=
      runInserts_root_ok rest (BNode.mk [k0] [v0] []) 0 fuel
        (wf_singleton k0 v0) hfind hnd.2 (by simp at hf ⊢; omega)
    refine ⟨⟨some r'⟩, ?_, ⟨h'', by simp only [List.length_cons]; omega, hwr'⟩, ?_⟩
    · rw [runInserts, hfirst]
      exact hrunRest
    · rw [treeList]
      simp only []
      rw [hlistr', nodeList_leaf, List.foldl_cons]
      rfl

end BTreeModel

namespace BTreeModel

variable {K V : Type}

/-- **C8** In-RAM B-tree correctness: inserting any sequence of
distinct-key pairs into a fresh BTree and then deleting any list of keys
succeeds; traverse returns exactly the remaining pairs in strictly
increasing key order, and search finds the inserted value for every
remaining key and nothing for every deleted or never-inserted key. -/
theorem btree_insert_delete_correct [LinearOrder K] (ins : List (K × V))
    (dels : List K) (fuel : Nat)
    (hnd : List.Pairwise (fun p q : K × V => p.1 ≠ q.1) ins)
    (hfuel : (ins.length + 2) * (2 * B + 1) ≤ fuel) :
    ∃ (t1 t' : BTree K V) (L : List (K × V)),
      runInserts fuel (⟨none⟩ : BTree K V) ins = some t1 ∧
      runDeletes fuel t1 dels = some t' ∧
      BTree.traverse fuel t' = some L ∧
      List.Pairwise (fun p q : K × V => p.1 < q.1) L ∧
      (∀ q : K × V, q ∈ L ↔ q ∈ ins ∧ q.1 ∉ dels) ∧
      (∀ k : K, BTree.search fuel t' k = some (listFind L k)) ∧
      (∀ (k : K) (v : V), (k, v) ∈ ins → k ∉ dels →
        BTree.search fuel t' k = some (some v)) ∧
      (∀ k : K, ((∀ v : V, (k, v) ∉ ins) ∨ k ∈ dels) →
        BTree.search fuel t' k = some none) := by
  have h7 : 2 * B + 1 = 7 := rfl
  rw [h7] at hfuel
  have hlt : ins.length + 1 < fuel := by omega
  obtain ⟨t1, hrunI, hw1, hlist1⟩ := runInserts_empty_ok ins fuel hnd hlt
  obtain ⟨t', hrunD, hlistD, hw'⟩ :=
    runDeletes_ok dels t1 ins.length fuel hw1 (by omega)
  have hlistT : treeList t' = dels.foldl (fun l d => eraseKey d l)
      (ins.foldl (fun l p => insertSorted p.1 p.2 l) []) := by
    rw [hlistD, hlist1]
  obtain ⟨hs1, hm1⟩ := foldl_insertSorted_ok ins [] hnd (by simp) (by simp)
  have hs2 : List.Pairwise (fun p q : K × V => p.1 < q.1)
      (dels.foldl (fun l d => eraseKey d l)
        (ins.foldl (fun l p => insertSorted p.1 p.2 l) [])) :=
    hs1.sublist (foldl_eraseKey_sublist dels _)
  have hm2 : ∀ q : K × V, q ∈ dels.foldl (fun l d => eraseKey d l)
      (ins.foldl (fun l p => insertSorted p.1 p.2 l) []) ↔
      q ∈ ins ∧ q.1 ∉ dels := by
    intro q
    rw [foldl_eraseKey_mem, hm1 q]
    constructor
    · rintro ⟨h1 | h1, h2⟩
      · exact ⟨h1, fun hd => h2 q.1 hd rfl⟩
      · simp at h1
    · rintro ⟨h1, h2⟩
      exact ⟨Or.inl h1, fun d hd he => h2 (he ▸ hd)⟩
  match t', hrunD, hlistT, hw' with
  | ⟨none⟩, hrunD, hlistT, _ =>
    have hL2nil : dels.foldl (fun l d => eraseKey d l)
        (ins.foldl (fun l p => insertSorted p.1 p.2 l) []) = [] := by
      rw [← hlistT, treeList]
    refine ⟨t1, ⟨none⟩, _, hrunI, hrunD, ?_, hs2, hm2, ?_, ?_, ?_⟩
    · rw [BTree.traverse]
      simp only []
      rw [hL2nil]
    · intro k
      rw [BTree.search]
      simp only []
      rw [hL2nil]
      rfl
    · intro k v hkv hkd
      exact absurd ((hm2 (k, v)).mpr ⟨hkv, hkd⟩) (by rw [hL2nil]; simp)
    · intro k _
      rw [BTree.search]
  | ⟨some r2⟩, hrunD, hlistT, hw' =>
    obtain ⟨h2, hle2, hwr2⟩ := hw'
    have hnl : nodeList r2 = dels.foldl (fun l d => eraseKey d l)
        (ins.foldl (fun l p => insertSorted p.1 p.2 l) []) := by
      rw [← hlistT, treeList]
    have hfuel2 : (h2 + 1) * (2 * B + 1) ≤ fuel := by
      rw [h7]
      refine le_trans (Nat.mul_le_mul_right _ (by omega)) hfuel
    have htrav := dfs_correct h2 r2 none none 1 hwr2 fuel hfuel2
    have hsearch := fun k : K =>
      search_correct h2 fuel r2 none none 1 k hwr2 (by omega)
    refine ⟨t1, ⟨some r2⟩, _, hrunI, hrunD, ?_, hs2, hm2, ?_, ?_, ?_⟩
    · rw [BTree.traverse]
      simp only []
      rw [htrav, hnl]
    · intro k
      rw [BTree.search]
      simp only []
      rw [hsearch k, hnl]
    · intro k v hkv hkd
      rw [BTree.search]
      simp only []
      rw [hsearch k, hnl,
        listFind_of_mem hs2 ((hm2 (k, v)).mpr ⟨hkv, hkd⟩)]
    · intro k hk
      rw [BTree.search]
      simp only []
      rw [hsearch k, hnl, listFind_none_iff.mpr ?_]
      intro p hp
      have hpm := (hm2 p).mp hp
      rcases hk with hk | hk
      · intro he
        refine hk p.2 ?_
        have hpe : p = (k, p.2) := by rw [← he]
        rw [← hpe]
        exact hpm.1
      · intro he
        exact hpm.2 (he ▸ hk)

end BTreeModel

namespace BTreeModel

theorem btree_insert_delete_correct_witness :
    ∃ (t1 t' : BTree Nat Nat) (L : List (Nat × Nat)),
      runInserts 35 (⟨none⟩ : BTree Nat Nat) [(2, 20), (1, 10), (3, 30)] =
        some t1 ∧
      runDeletes 35 t1 [2] = some t' ∧
      BTree.traverse 35 t' = some L ∧
      List.Pairwise (fun p q : Nat × Nat => p.1 < q.1) L ∧
      (∀ q : Nat × Nat, q ∈ L ↔ q ∈ [(2, 20), (1, 10), (3, 30)] ∧ q.1 ∉ [2]) ∧
      (∀ k : Nat, BTree.search 35 t' k = some (listFind L k)) ∧
      (∀ (k v : Nat), (k, v) ∈ [(2, 20), (1, 10), (3, 30)] →
        k ∉ ([2] : List Nat) → BTree.search 35 t' k = some (some v)) ∧
      (∀ k : Nat, ((∀ v : Nat, (k, v) ∉ [(2, 20), (1, 10), (3, 30)]) ∨
          k ∈ ([2] : List Nat)) →
        BTree.search 35 t' k = some none) :=
  btree_insert_delete_correct [(2, 20), (1, 10), (3, 30)] [2] 35
    (by decide) (by decide)

end BTreeModel
